import Mathlib

/-!
Verification of the Monkey-interpreter front end (lexer, Pratt parser, AST
pretty-printer, object inspection) against its natural-language specification.

The Go source is embedded shallowly:

* Go strings are `List Char` (`Str`); the sources only ever treat them as
  byte sequences, and all inputs considered here are ASCII, where Go's
  byte-indexed view and the character-list view coincide.
* The lexer state mirrors `lexer.Lexer` field by field (`input`, `position`,
  `readPosition`, `ch`); Go's NUL sentinel byte is `nulChar`.
* The lexer's `for` loops advance `position` by one per iteration and stop
  at the end of the input at the latest (the NUL sentinel is neither
  whitespace, a letter, a digit, nor a quote), so each loop runs at most
  `input.length + 1 - position` iterations on every state reachable from
  `lexerNew`.  Each loop is therefore embedded as a recursion on exactly
  that bound, which makes it total while agreeing with the source loop on
  all reachable states (the invariant `LexInv` below is proved to be
  maintained).
* The parser is genuinely partial (its skip-to-semicolon loop does not
  terminate on some inputs), so every parser function takes a fuel
  argument and returns `none` when the fuel runs out; divergence of the Go
  code corresponds to the result being `none` for every fuel.
-/

/-- Go strings, viewed as their character (byte) sequence. -/
abbrev Str := List Char

/-- Go's NUL byte, used by the lexer as its end-of-input sentinel. -/
def nulChar : Char := Char.ofNat 0

/-- `isLetter` from lexer.go: `a-z`, `A-Z` or `_`. -/
def isLetter (ch : Char) : Bool :=
  ('a' ≤ ch && ch ≤ 'z') || ('A' ≤ ch && ch ≤ 'Z') || ch = '_'

/-- `isDigit` from lexer.go: `0-9`. -/
def isDigit (ch : Char) : Bool :=
  '0' ≤ ch && ch ≤ '9'

/-- The whitespace characters skipped by `skipWhitespace` in lexer.go. -/
def isWS (ch : Char) : Bool :=
  ch = ' ' || ch = '\t' || ch = '\n' || ch = '\r'

namespace tok

/-- Token, from token.go: a type tag and the lexeme.  Go's `TokenType` is a
string alias, so both fields are `Str`. -/
structure Token where
  typ : Str
  literal : Str
  deriving DecidableEq, Repr

def ILLEGAL : Str := "ILLEGAL".data
def EOF : Str := "EOF".data
def IDENT : Str := "IDENT".data
def INT : Str := "INT".data
/-- Modelled from the spec: the `String` token kind (the `STRING` constant is
referenced by the lexer and parser but its declaration is not among the
sources; the spec lists `String` among the token kinds). -/
def STRING : Str := "STRING".data
def ASSIGN : Str := "=".data
def PLUS : Str := "+".data
def MINUS : Str := "-".data
def BANG : Str := "!".data
def ASTERISK : Str := "*".data
def SLASH : Str := "/".data
def LT : Str := "<".data
def GT : Str := ">".data
def EQ : Str := "==".data
def NOT_EQ : Str := "!=".data
def COMMA : Str := ",".data
def SEMICOLON : Str := ";".data
def LPAREN : Str := "(".data
def RPAREN : Str := ")".data
def LBRACE : Str := "\x7b".data
def RBRACE : Str := "\x7d".data
/-- Modelled from the spec: the `[` token kind (referenced by the lexer,
declaration not among the sources; the spec lists `[` among the kinds). -/
def LBRACKET : Str := "[".data
/-- Modelled from the spec: the `]` token kind. -/
def RBRACKET : Str := "]".data
def FUNCTION : Str := "FUNCTION".data
def LET : Str := "LET".data
def TRUE : Str := "TRUE".data
def FALSE : Str := "FALSE".data
def IF : Str := "IF".data
def ELSE : Str := "ELSE".data
def RETURN : Str := "RETURN".data

/-- `LookupIdentifier` from token.go: the reserved-word table. -/
def LookupIdentifier (identifier : Str) : Str :=
  if identifier = "fn".data then FUNCTION
  else if identifier = "let".data then LET
  else if identifier = "true".data then TRUE
  else if identifier = "false".data then FALSE
  else if identifier = "if".data then IF
  else if identifier = "else".data then ELSE
  else if identifier = "return".data then RETURN
  else IDENT

/-- The token the lexer returns at end of input: `Token{EOF, ""}`. -/
def eofToken : Token := ⟨EOF, []⟩

/-- Go's zero value for `token.Token`: both fields empty. -/
def zeroToken : Token := ⟨[], []⟩

end tok

open tok

/-- The lexer state, from lexer.go (`input`, `position`, `readPosition`,
`ch`), with the input as a character list. -/
structure Lexer where
  input : Str
  position : Nat
  readPosition : Nat
  ch : Char
  deriving Repr

namespace Lexer

/-- `readChar` from lexer.go. -/
def readChar (l : Lexer) : Lexer :=
  let c := if l.input.length ≤ l.readPosition then nulChar
           else l.input.getD l.readPosition nulChar
  { l with ch := c, position := l.readPosition, readPosition := l.readPosition + 1 }

/-- `New` from lexer.go: zero-valued state, then one `readChar`. -/
def lexerNew (input : Str) : Lexer :=
  readChar { input := input, position := 0, readPosition := 0, ch := nulChar }

/-- `peekChar` from lexer.go. -/
def peekChar (l : Lexer) : Char :=
  if l.input.length ≤ l.readPosition then nulChar
  else l.input.getD l.readPosition nulChar

/-- The body of the `skipWhitespace` loop, as a recursion on the loop bound
(see the header comment). -/
def skipWSGo : Nat → Lexer → Lexer
  | 0, l => l
  | n + 1, l => if isWS l.ch then skipWSGo n (readChar l) else l

/-- `skipWhitespace` from lexer.go. -/
def skipWhitespace (l : Lexer) : Lexer :=
  skipWSGo (l.input.length + 1 - l.position) l

/-- The body of the `readIdentifier` loop. -/
def readIdentGo : Nat → Lexer → Lexer
  | 0, l => l
  | n + 1, l => if isLetter l.ch then readIdentGo n (readChar l) else l

/-- `readIdentifier` from lexer.go: advance over the letter run, return the
slice `input[position0:position]`. -/
def readIdentifier (l : Lexer) : Str × Lexer :=
  let l' := readIdentGo (l.input.length + 1 - l.position) l
  ((l.input.drop l.position).take (l'.position - l.position), l')

/-- The body of the `readNumber` loop. -/
def readNumberGo : Nat → Lexer → Lexer
  | 0, l => l
  | n + 1, l => if isDigit l.ch then readNumberGo n (readChar l) else l

/-- `readNumber` from lexer.go. -/
def readNumber (l : Lexer) : Str × Lexer :=
  let l' := readNumberGo (l.input.length + 1 - l.position) l
  ((l.input.drop l.position).take (l'.position - l.position), l')

/-- The body of the `readString` loop: `readChar`, then stop on `"` or NUL. -/
def readStringGo : Nat → Lexer → Lexer
  | 0, l => l
  | n + 1, l =>
    let l' := readChar l
    if l'.ch = '"' ∨ l'.ch = nulChar then l' else readStringGo n l'

/-- `readString` from lexer.go: record `position + 1`, loop to the closing
quote or NUL, return the slice between. -/
def readString (l : Lexer) : Str × Lexer :=
  let l' := readStringGo (l.input.length + 1 - l.position) l
  ((l.input.drop (l.position + 1)).take (l'.position - (l.position + 1)), l')

/-- `newToken` from lexer.go. -/
def newToken (tokenType : Str) (ch : Char) : Token := ⟨tokenType, [ch]⟩

/-- The `switch l.ch` dispatch of `NextToken` from lexer.go, as a helper
applied to the state after `skipWhitespace` (in the source the receiver is
mutated by `skipWhitespace` before the switch; here the post-skip state is
the parameter): one-character lookahead for `==` and `!=`, the string
case, the EOF case, and the identifier/number/illegal default. -/
def nextTokenAfterWS (l : Lexer) : Token × Lexer :=
  if l.ch = '=' then
    if peekChar l = '=' then
      (⟨EQ, [l.ch, (readChar l).ch]⟩, readChar (readChar l))
    else (newToken ASSIGN l.ch, readChar l)
  else if l.ch = '!' then
    if peekChar l = '=' then
      (⟨NOT_EQ, [l.ch, (readChar l).ch]⟩, readChar (readChar l))
    else (newToken BANG l.ch, readChar l)
  else if l.ch = '+' then (newToken PLUS l.ch, readChar l)
  else if l.ch = '-' then (newToken MINUS l.ch, readChar l)
  else if l.ch = '/' then (newToken SLASH l.ch, readChar l)
  else if l.ch = '*' then (newToken ASTERISK l.ch, readChar l)
  else if l.ch = '<' then (newToken LT l.ch, readChar l)
  else if l.ch = '>' then (newToken GT l.ch, readChar l)
  else if l.ch = ';' then (newToken SEMICOLON l.ch, readChar l)
  else if l.ch = '(' then (newToken LPAREN l.ch, readChar l)
  else if l.ch = ')' then (newToken RPAREN l.ch, readChar l)
  else if l.ch = ',' then (newToken COMMA l.ch, readChar l)
  else if l.ch = '\x7b' then (newToken LBRACE l.ch, readChar l)
  else if l.ch = '\x7d' then (newToken RBRACE l.ch, readChar l)
  else if l.ch = '[' then (newToken LBRACKET l.ch, readChar l)
  else if l.ch = ']' then (newToken RBRACKET l.ch, readChar l)
  else if l.ch = '"' then
    (⟨STRING, (readString l).1⟩, readChar (readString l).2)
  else if l.ch = nulChar then (⟨EOF, []⟩, readChar l)
  else if isLetter l.ch then
    (⟨LookupIdentifier (readIdentifier l).1, (readIdentifier l).1⟩,
      (readIdentifier l).2)
  else if isDigit l.ch then
    (⟨INT, (readNumber l).1⟩, (readNumber l).2)
  else (newToken ILLEGAL l.ch, readChar l)

/-- `NextToken` from lexer.go: skip whitespace, then the dispatch. -/
def nextToken (l0 : Lexer) : Token × Lexer :=
  nextTokenAfterWS (skipWhitespace l0)

/-- The token stream: repeated `NextToken` calls up to (excluding) the first
`EOF` token, cut off by a fuel bound. -/
def lexRun : Nat → Lexer → List Token
  | 0, _ => []
  | n + 1, l =>
    let (t, l') := nextToken l
    if t.typ = EOF then [] else t :: lexRun n l'

/-- All non-EOF tokens of an input.  `input.length + 1` calls always reach
EOF (proved below for claim C9), so no token is cut off. -/
def allTokens (s : Str) : List Token :=
  lexRun (s.length + 1) (lexerNew s)

end Lexer

open Lexer

example : allTokens ("let x = 5;".data) =
    [⟨LET, "let".data⟩, ⟨IDENT, "x".data⟩, ⟨ASSIGN, "=".data⟩,
     ⟨INT, "5".data⟩, ⟨SEMICOLON, ";".data⟩] := by decide

example : allTokens ("a == b != !c".data) =
    [⟨IDENT, "a".data⟩, ⟨EQ, "==".data⟩, ⟨IDENT, "b".data⟩,
     ⟨NOT_EQ, "!=".data⟩, ⟨BANG, "!".data⟩, ⟨IDENT, "c".data⟩] := by decide

example : allTokens ("\"hi\" + 12".data) =
    [⟨STRING, "hi".data⟩, ⟨PLUS, "+".data⟩, ⟨INT, "12".data⟩] := by decide

/-! ## strconv.ParseInt

`parseIntegerLiteral` calls `strconv.ParseInt(lit, 0, 64)`.  The token
literal of an `Int` token is a nonempty run of ASCII digits, so only the
digit-run behaviour of the standard library needs modelling: with base 0 a
literal whose first character is `0` (and which is longer than one
character) is read in base 8, anything else in base 10; a digit outside the
base is a syntax error; a value reaching `2^64` is a range error in
`ParseUint`, and a value reaching `2^63` is a range error in `ParseInt`'s
signed check.  Every error makes `err != nil`, which is all the parser
looks at. -/

/-- The numeric value of an ASCII digit. -/
def digitVal (c : Char) : Nat := c.toNat - '0'.toNat

/-- The digit-accumulation loop of `strconv.ParseUint`: per digit, a
digit-outside-base check, the `cutoff` check before the multiply, and the
64-bit overflow check after it. -/
def parseUintGo (base : Nat) : Str → Nat → Option Nat
  | [], n => some n
  | c :: cs, n =>
    if base ≤ digitVal c then none
    else if (2 ^ 64 - 1) / base + 1 ≤ n then none
    else
      let n1 := n * base + digitVal c
      if 2 ^ 64 - 1 < n1 then none else parseUintGo base cs n1

/-- `strconv.ParseInt(s, 0, 64)` on a nonempty all-digit string: base
selection from the legacy `0` prefix, `ParseUint`, then the signed 64-bit
range check.  `none` means `err != nil`. -/
def goParseInt (s : Str) : Option Int :=
  let p := if 1 < s.length ∧ s.headD 'x' = '0' then (8, s.tail) else (10, s)
  match parseUintGo p.1 p.2 0 with
  | none => none
  | some un => if 2 ^ 63 ≤ un then none else some (Int.ofNat un)

example : goParseInt ("5".data) = some 5 := by decide
example : goParseInt ("010".data) = some 8 := by decide
example : goParseInt ("09".data) = none := by decide
example : goParseInt ("0".data) = some 0 := by decide

/-! ## The AST

From ast.go (the checkpoint with the pretty printers).  Go's AST nodes are
pointers behind the `Statement` and `Expression` interfaces, and the parser
stores results of `parseExpression` that can be a nil interface, so every
child expression or block is an `Option`; `none` is Go's nil.  Printing a
nil child dereferences a nil pointer and panics, so the printers return
`Option Str` with `none` for a panic.

`StringLiteral` and `CallExpression` are referenced by the parser but their
declarations are not among the sources; they are modelled from the spec
(`StringLiteral` prints its original lexeme, `Call` prints
`FUNC(A1, A2, ...)`). -/

/-- `ast.Identifier`. -/
structure Identifier where
  token : Token
  value : Str
  deriving Repr

mutual

/-- The `ast.Expression` variants. -/
inductive Expr where
  | identE : Identifier → Expr
  | intLit : Token → Int → Expr
  | strLit : Token → Str → Expr
  | boolLit : Token → Bool → Expr
  | prefixE : Token → Str → Option Expr → Expr
  | infixE : Token → Option Expr → Str → Option Expr → Expr
  | ifE : Token → Option Expr → Option Block → Option Block → Expr
  | funcLit : Token → Option (List Identifier) → Option Block → Expr
  | callE : Token → Option Expr → Option (List (Option Expr)) → Expr
  deriving Repr

/-- `ast.BlockStatement`: its token and its (appended, possibly nil)
statements. -/
inductive Block where
  | mk : Token → List (Option Stmt) → Block
  deriving Repr

/-- The `ast.Statement` variants.  A statement stored in a slice can itself
be Go's typed-nil `*ast.LetStatement`, which the surrounding lists model as
`none` (see the parser below). -/
inductive Stmt where
  | letS : Token → Identifier → Option Expr → Stmt
  | returnS : Token → Option Expr → Stmt
  | exprS : Token → Option Expr → Stmt
  deriving Repr

end

/-- `ast.Program`: the root node. -/
structure Program where
  Statements : List (Option Stmt)
  deriving Repr

/-- `strings.Join` with a separator. -/
def joinSep (sep : Str) : List Str → Str
  | [] => []
  | [s] => s
  | s :: rest => s ++ sep ++ joinSep sep rest

mutual

/-- `String()` of an expression; `none` when Go would panic on a nil
child.  Each case follows the corresponding method in ast.go. -/
def exprString : Expr → Option Str
  | .identE i => some i.value
  | .intLit t _ => some t.literal
  | .strLit t _ => some t.literal
  | .boolLit t _ => some t.literal
  | .prefixE _ op r =>
    match r with
    | none => none
    | some e =>
      match exprString e with
      | none => none
      | some s => some ("(".data ++ op ++ s ++ ")".data)
  | .infixE _ lhs op rhs =>
    match lhs, rhs with
    | some le, some re =>
      match exprString le, exprString re with
      | some ls, some rs =>
        some ("(".data ++ ls ++ " ".data ++ op ++ " ".data ++ rs ++ ")".data)
      | _, _ => none
    | _, _ => none
  | .ifE _ c cons alt =>
    match c, cons with
    | some ce, some cb =>
      match exprString ce, blockString cb with
      | some cs, some bs =>
        match alt with
        | none => some ("if".data ++ cs ++ " ".data ++ bs)
        | some ab =>
          match blockString ab with
          | none => none
          | some as_ =>
            some ("if".data ++ cs ++ " ".data ++ bs
                  ++ "else".data ++ " ".data ++ as_)
      | _, _ => none
    | _, _ => none
  | .funcLit t params body =>
    match body with
    | none => none
    | some b =>
      match blockString b with
      | none => none
      | some bs =>
        let ps := (params.getD []).map (fun p => p.value)
        some (t.literal ++ "(".data ++ joinSep ", ".data ps ++ ") ".data ++ bs)
  | .callE _ fn args =>
    match fn with
    | none => none
    | some f =>
      match args with
      | none =>
        match exprString f with
        | none => none
        | some fs => some (fs ++ "(".data ++ joinSep ", ".data [] ++ ")".data)
      | some argl =>
        match exprString f, exprListString argl with
        | some fs, some asStrs =>
          some (fs ++ "(".data ++ joinSep ", ".data asStrs ++ ")".data)
        | _, _ => none

/-- `String()` of each argument of a call, left to right. -/
def exprListString : List (Option Expr) → Option (List Str)
  | [] => some []
  | none :: _ => none
  | some e :: rest =>
    match exprString e, exprListString rest with
    | some s, some ss => some (s :: ss)
    | _, _ => none

/-- `BlockStatement.String`: concatenation of the inner statement strings
(a nil statement in the slice panics). -/
def blockString : Block → Option Str
  | .mk _ stmts => stmtListString stmts

/-- Concatenation of `String()` over a statement slice; `none` when an
entry is Go's typed-nil statement or printing it panics. -/
def stmtListString : List (Option Stmt) → Option Str
  | [] => some []
  | none :: _ => none
  | some s :: rest =>
    match stmtString s, stmtListString rest with
    | some a, some b => some (a ++ b)
    | _, _ => none

/-- `String()` of a statement, following ast.go. -/
def stmtString : Stmt → Option Str
  | .letS t name value =>
    match value with
    | none => some (t.literal ++ " ".data ++ name.value ++ " = ".data ++ ";".data)
    | some v =>
      match exprString v with
      | none => none
      | some vs =>
        some (t.literal ++ " ".data ++ name.value ++ " = ".data ++ vs ++ ";".data)
  | .returnS t value =>
    match value with
    | none => some (t.literal ++ " ".data ++ ";".data)
    | some v =>
      match exprString v with
      | none => none
      | some vs => some (t.literal ++ " ".data ++ vs ++ ";".data)
  | .exprS _ e =>
    match e with
    | none => some []
    | some v => exprString v

end

/-- `Program.String`: concatenation of the statement strings. -/
def programString (p : Program) : Option Str :=
  stmtListString p.Statements

/-! ## The parser

From parser.go (the Pratt-parser checkpoint).  The parser pulls tokens from
the lexer one at a time; since the lexer is a pure function of its state
and returns `Token{EOF, ""}` forever once the input is exhausted, the
parser state carries the finite list of not-yet-read non-EOF tokens and
pads with `eofToken`.

Go's `parseStatement` returns the `ast.Statement` interface.  When
`parseLetStatement` returns a nil `*ast.LetStatement`, that nil pointer is
boxed into a non-nil interface value (it carries the concrete type), so the
`stmt != nil` checks in `ParseProgram` and `parseBlockStatements` are
always true and the nil statement is appended to the slice.  The embedding
models the interface value as `Option Stmt` (`none` = typed-nil pointer)
and appends it unconditionally, which is exactly what the Go code does. -/

/-- The parser state: remaining token list, `curToken`, `peekToken` and the
accumulated `errors`. -/
structure ParserS where
  toks : List Token
  curToken : Token
  peekToken : Token
  errors : List Str
  deriving Repr

/-- `nextToken` of the parser: shift `peekToken` into `curToken` and pull
the next token from the stream (EOF forever once exhausted). -/
def pNext (p : ParserS) : ParserS :=
  { toks := p.toks.tail, curToken := p.peekToken,
    peekToken := p.toks.headD eofToken, errors := p.errors }

/-- `New` from parser.go: zero-valued current tokens, then two pulls. -/
def parserNew (ts : List Token) : ParserS :=
  pNext (pNext { toks := ts, curToken := zeroToken,
                 peekToken := zeroToken, errors := [] })

/-- `curTokenIs`. -/
def curTokenIs (t : Str) (p : ParserS) : Bool := p.curToken.typ = t

/-- `peekTokenIs`. -/
def peekTokenIs (t : Str) (p : ParserS) : Bool := p.peekToken.typ = t

/-- `peekError`: append `"expected next token to be X, got Y instead"`. -/
def peekError (t : Str) (p : ParserS) : ParserS :=
  { p with errors := p.errors ++
      ["expected next token to be ".data ++ t ++ ", got ".data
        ++ p.peekToken.typ ++ " instead".data] }

/-- `expectPeek`: advance on the expected token, otherwise record the
error. -/
def expectPeek (t : Str) (p : ParserS) : Bool × ParserS :=
  if peekTokenIs t p then (true, pNext p) else (false, peekError t p)

/-- `noPrefixParseFnError`. -/
def noPrefixParseFnError (t : Str) (p : ParserS) : ParserS :=
  { p with errors := p.errors ++
      ["no prefix parse function for ".data ++ t ++ " found".data] }

/-- The Go constants `LOWEST .. CALL` (iota 1..7). -/
def lowestPrec : Nat := 1
def equalsPrec : Nat := 2
def lessgreaterPrec : Nat := 3
def sumPrec : Nat := 4
def productPrec : Nat := 5
def prefixPrec : Nat := 6
def callPrec : Nat := 7

/-- The `precedences` table from parser.go (a Go map lookup: `none` when
the token type is absent). -/
def precedences (t : Str) : Option Nat :=
  if t = EQ then some equalsPrec
  else if t = NOT_EQ then some equalsPrec
  else if t = tok.LT then some lessgreaterPrec
  else if t = tok.GT then some lessgreaterPrec
  else if t = PLUS then some sumPrec
  else if t = MINUS then some sumPrec
  else if t = SLASH then some productPrec
  else if t = ASTERISK then some productPrec
  else if t = LPAREN then some callPrec
  else none

/-- `peekPrecedence`. -/
def peekPrecedence (p : ParserS) : Nat :=
  (precedences p.peekToken.typ).getD lowestPrec

/-- `curPrecedence`. -/
def curPrecedence (p : ParserS) : Nat :=
  (precedences p.curToken.typ).getD lowestPrec

/-- The prefix-handler registrations of `New` in parser.go, keyed by token
type. -/
inductive PrefixTag where
  | identT | intT | stringT | prefixOpT | boolT | groupT | ifT | fnT
  deriving DecidableEq, Repr

/-- Lookup in `prefixParseFns`. -/
def prefixFnFor (t : Str) : Option PrefixTag :=
  if t = IDENT then some .identT
  else if t = INT then some .intT
  else if t = STRING then some .stringT
  else if t = BANG then some .prefixOpT
  else if t = MINUS then some .prefixOpT
  else if t = TRUE then some .boolT
  else if t = FALSE then some .boolT
  else if t = LPAREN then some .groupT
  else if t = IF then some .ifT
  else if t = FUNCTION then some .fnT
  else none

/-- The infix-handler registrations of `New` in parser.go. -/
inductive InfixTag where
  | infixOpT | callT
  deriving DecidableEq, Repr

/-- Lookup in `infixParseFns`. -/
def infixFnFor (t : Str) : Option InfixTag :=
  if t = PLUS then some .infixOpT
  else if t = MINUS then some .infixOpT
  else if t = SLASH then some .infixOpT
  else if t = ASTERISK then some .infixOpT
  else if t = EQ then some .infixOpT
  else if t = NOT_EQ then some .infixOpT
  else if t = tok.LT then some .infixOpT
  else if t = tok.GT then some .infixOpT
  else if t = LPAREN then some .callT
  else none

/-- `parseIdentifier`: pure, no state change. -/
def parseIdentifierP (p : ParserS) : Option Expr × ParserS :=
  (some (.identE ⟨p.curToken, p.curToken.literal⟩), p)

/-- The error message of `parseIntegerLiteral`: `fmt.Sprintf("could not
parse %q as integer", lit)`.  `%q` prints the lexeme in double quotes; an
`Int` token's lexeme is a run of ASCII digits, which `%q` never escapes, so
the quoting adds exactly the two quote characters. -/
def couldNotParseMsg (lit : Str) : Str :=
  "could not parse ".data ++ ['"'] ++ lit ++ ['"'] ++ " as integer".data

/-- `parseIntegerLiteral`: `strconv.ParseInt(lit, 0, 64)`, recording the
error and returning nil on failure. -/
def parseIntegerLiteralP (p : ParserS) : Option Expr × ParserS :=
  match goParseInt p.curToken.literal with
  | none =>
    (none, { p with errors := p.errors ++ [couldNotParseMsg p.curToken.literal] })
  | some v => (some (.intLit p.curToken v), p)

/-- `parseStringLiteral`. -/
def parseStringLiteralP (p : ParserS) : Option Expr × ParserS :=
  (some (.strLit p.curToken p.curToken.literal), p)

/-- `parseBoolean`: value is `curTokenIs(TRUE)`. -/
def parseBooleanP (p : ParserS) : Option Expr × ParserS :=
  (some (.boolLit p.curToken (curTokenIs TRUE p)), p)

/-- Result of a fueled parser function: `none` when the fuel is exhausted
(the Go code diverges exactly when this happens for every fuel). -/
abbrev PRes (α : Type) := Option (α × ParserS)

mutual

/-- `ParseProgram`: loop until `EOF`, appending every parseStatement result
(the interface-nil check is always true, see the section comment). -/
def parseProgramF : Nat → ParserS → PRes Program
  | 0, _ => none
  | n + 1, p =>
    if p.curToken.typ = EOF then some (⟨[]⟩, p)
    else
      match parseStatementF n p with
      | none => none
      | some (stmt, p1) =>
        match parseProgramF n (pNext p1) with
        | none => none
        | some (prog, p2) => some (⟨stmt :: prog.Statements⟩, p2)

/-- `parseStatement`: dispatch on the current token type. -/
def parseStatementF : Nat → ParserS → PRes (Option Stmt)
  | 0, _ => none
  | n + 1, p =>
    if p.curToken.typ = LET then parseLetStatementF n p
    else if p.curToken.typ = RETURN then parseReturnStatementF n p
    else parseExpressionStatementF n p

/-- `parseLetStatement`.  A failed `expectPeek` returns Go's nil
`*ast.LetStatement`, i.e. `none`. -/
def parseLetStatementF : Nat → ParserS → PRes (Option Stmt)
  | 0, _ => none
  | n + 1, p =>
    let t := p.curToken
    match expectPeek IDENT p with
    | (false, p1) => some (none, p1)
    | (true, p1) =>
      let name : Identifier := ⟨p1.curToken, p1.curToken.literal⟩
      match expectPeek ASSIGN p1 with
      | (false, p2) => some (none, p2)
      | (true, p2) =>
        let p3 := pNext p2
        match parseExpressionF n lowestPrec p3 with
        | none => none
        | some (value, p4) =>
          let p5 := if peekTokenIs SEMICOLON p4 then pNext p4 else p4
          some (some (.letS t name value), p5)

/-- `parseReturnStatement`: advance, parse the value, then the
unconditional skip-to-semicolon loop. -/
def parseReturnStatementF : Nat → ParserS → PRes (Option Stmt)
  | 0, _ => none
  | n + 1, p =>
    let t := p.curToken
    let p1 := pNext p
    match parseExpressionF n lowestPrec p1 with
    | none => none
    | some (value, p2) =>
      match skipToSemicolonF n p2 with
      | none => none
      | some p3 => some (some (.returnS t value), p3)

/-- The `for !p.curTokenIs(token.SEMICOLON)` loop of
`parseReturnStatement`.  At end of input `curToken` stays `EOF ≠ ";"`, so
the Go loop never exits; here the fuel runs out instead. -/
def skipToSemicolonF : Nat → ParserS → Option ParserS
  | 0, _ => none
  | n + 1, p =>
    if curTokenIs SEMICOLON p then some p else skipToSemicolonF n (pNext p)

/-- `parseExpressionStatement`. -/
def parseExpressionStatementF : Nat → ParserS → PRes (Option Stmt)
  | 0, _ => none
  | n + 1, p =>
    let t := p.curToken
    match parseExpressionF n lowestPrec p with
    | none => none
    | some (e, p1) =>
      let p2 := if peekTokenIs SEMICOLON p1 then pNext p1 else p1
      some (some (.exprS t e), p2)

/-- `parseExpression`: prefix dispatch (recording "no prefix parse
function" and returning nil when absent), then the infix loop. -/
def parseExpressionF : Nat → Nat → ParserS → PRes (Option Expr)
  | 0, _, _ => none
  | n + 1, precedence, p =>
    match prefixFnFor p.curToken.typ with
    | none => some (none, noPrefixParseFnError p.curToken.typ p)
    | some tag =>
      match prefixRunF n tag p with
      | none => none
      | some (leftExp, p1) => parseExpressionLoopF n precedence leftExp p1

/-- The `for !p.peekTokenIs(SEMICOLON) && precedence < p.peekPrecedence()`
loop of `parseExpression`. -/
def parseExpressionLoopF : Nat → Nat → Option Expr → ParserS → PRes (Option Expr)
  | 0, _, _, _ => none
  | n + 1, precedence, leftExp, p =>
    if ¬ peekTokenIs SEMICOLON p ∧ precedence < peekPrecedence p then
      match infixFnFor p.peekToken.typ with
      | none => some (leftExp, p)
      | some tag =>
        let p1 := pNext p
        match (match tag with
               | .infixOpT => parseInfixExpressionF n leftExp p1
               | .callT => parseCallExpressionF n leftExp p1) with
        | none => none
        | some (leftExp', p2) => parseExpressionLoopF n precedence leftExp' p2
    else some (leftExp, p)

/-- Run the registered prefix handler for a token type. -/
def prefixRunF : Nat → PrefixTag → ParserS → PRes (Option Expr)
  | 0, _, _ => none
  | n + 1, tag, p =>
    match tag with
    | .identT => some (parseIdentifierP p)
    | .intT => some (parseIntegerLiteralP p)
    | .stringT => some (parseStringLiteralP p)
    | .boolT => some (parseBooleanP p)
    | .prefixOpT => parsePrefixExpressionF n p
    | .groupT => parseGroupedExpressionF n p
    | .ifT => parseIfExpressionF n p
    | .fnT => parseFunctionLiteralF n p

/-- `parsePrefixExpression`: keep the operator, advance, parse the operand
at `PREFIX` precedence. -/
def parsePrefixExpressionF : Nat → ParserS → PRes (Option Expr)
  | 0, _ => none
  | n + 1, p =>
    let t := p.curToken
    let op := p.curToken.literal
    let p1 := pNext p
    match parseExpressionF n prefixPrec p1 with
    | none => none
    | some (right, p2) => some (some (.prefixE t op right), p2)

/-- `parseGroupedExpression`: advance, parse at `LOWEST`, expect `)`. -/
def parseGroupedExpressionF : Nat → ParserS → PRes (Option Expr)
  | 0, _ => none
  | n + 1, p =>
    let p1 := pNext p
    match parseExpressionF n lowestPrec p1 with
    | none => none
    | some (e, p2) =>
      match expectPeek RPAREN p2 with
      | (false, p3) => some (none, p3)
      | (true, p3) => some (e, p3)

/-- `parseIfExpression`. -/
def parseIfExpressionF : Nat → ParserS → PRes (Option Expr)
  | 0, _ => none
  | n + 1, p =>
    let t := p.curToken
    match expectPeek LPAREN p with
    | (false, p1) => some (none, p1)
    | (true, p1) =>
      let p2 := pNext p1
      match parseExpressionF n lowestPrec p2 with
      | none => none
      | some (cond, p3) =>
        match expectPeek RPAREN p3 with
        | (false, p4) => some (none, p4)
        | (true, p4) =>
          match expectPeek LBRACE p4 with
          | (false, p5) => some (none, p5)
          | (true, p5) =>
            match parseBlockStatementsF n p5 with
            | none => none
            | some (cons, p6) =>
              if peekTokenIs ELSE p6 then
                let p7 := pNext p6
                match expectPeek LBRACE p7 with
                | (false, p8) => some (none, p8)
                | (true, p8) =>
                  match parseBlockStatementsF n p8 with
                  | none => none
                  | some (alt, p9) =>
                    some (some (.ifE t cond (some cons) (some alt)), p9)
              else some (some (.ifE t cond (some cons) none), p6)

/-- `parseFunctionLiteral`. -/
def parseFunctionLiteralF : Nat → ParserS → PRes (Option Expr)
  | 0, _ => none
  | n + 1, p =>
    let t := p.curToken
    match expectPeek LPAREN p with
    | (false, p1) => some (none, p1)
    | (true, p1) =>
      match parseFunctionParametersF n p1 with
      | none => none
      | some (params, p2) =>
        match expectPeek LBRACE p2 with
        | (false, p3) => some (none, p3)
        | (true, p3) =>
          match parseBlockStatementsF n p3 with
          | none => none
          | some (body, p4) =>
            some (some (.funcLit t params (some body)), p4)

/-- `parseFunctionParameters`: empty list on `()`, otherwise the
comma-separated identifiers; a missing `)` returns Go's nil slice
(`none`). -/
def parseFunctionParametersF : Nat → ParserS → PRes (Option (List Identifier))
  | 0, _ => none
  | n + 1, p =>
    if peekTokenIs RPAREN p then some (some [], pNext p)
    else
      let p1 := pNext p
      let ident : Identifier := ⟨p1.curToken, p1.curToken.literal⟩
      match fnParamsLoopF n [ident] p1 with
      | none => none
      | some r => some r

/-- The `for p.peekTokenIs(token.COMMA)` loop of
`parseFunctionParameters`, followed by the closing `expectPeek(RPAREN)`. -/
def fnParamsLoopF : Nat → List Identifier → ParserS → PRes (Option (List Identifier))
  | 0, _, _ => none
  | n + 1, acc, p =>
    if peekTokenIs COMMA p then
      let p1 := pNext (pNext p)
      let ident : Identifier := ⟨p1.curToken, p1.curToken.literal⟩
      fnParamsLoopF n (acc ++ [ident]) p1
    else
      match expectPeek RPAREN p with
      | (false, p1) => some (none, p1)
      | (true, p1) => some (some acc, p1)

/-- `parseBlockStatements`: record the `{` token, advance, loop. -/
def parseBlockStatementsF : Nat → ParserS → PRes Block
  | 0, _ => none
  | n + 1, p =>
    let t := p.curToken
    match blockLoopF n (pNext p) with
    | none => none
    | some (stmts, p1) => some (.mk t stmts, p1)

/-- The statement loop of `parseBlockStatements` (appending every result;
the interface-nil check is always true, see the section comment). -/
def blockLoopF : Nat → ParserS → PRes (List (Option Stmt))
  | 0, _ => none
  | n + 1, p =>
    if ¬ curTokenIs RBRACE p ∧ ¬ curTokenIs EOF p then
      match parseStatementF n p with
      | none => none
      | some (stmt, p1) =>
        match blockLoopF n (pNext p1) with
        | none => none
        | some (stmts, p2) => some (stmt :: stmts, p2)
    else some ([], p)

/-- `parseInfixExpression`: keep the operator and its precedence, advance,
parse the right operand at that precedence. -/
def parseInfixExpressionF : Nat → Option Expr → ParserS → PRes (Option Expr)
  | 0, _, _ => none
  | n + 1, left, p =>
    let t := p.curToken
    let op := p.curToken.literal
    let precedence := curPrecedence p
    let p1 := pNext p
    match parseExpressionF n precedence p1 with
    | none => none
    | some (right, p2) => some (some (.infixE t left op right), p2)

/-- `parseCallExpression`. -/
def parseCallExpressionF : Nat → Option Expr → ParserS → PRes (Option Expr)
  | 0, _, _ => none
  | n + 1, function, p =>
    let t := p.curToken
    match parseCallArgumentsF n p with
    | none => none
    | some (args, p1) => some (some (.callE t function args), p1)

/-- `parseCallArguments`: empty on `()`, else comma-separated expressions
at `LOWEST`; a missing `)` returns Go's nil slice (`none`).  Note the Go
code appends whatever `parseExpression` returns, nil included. -/
def parseCallArgumentsF : Nat → ParserS → PRes (Option (List (Option Expr)))
  | 0, _ => none
  | n + 1, p =>
    if peekTokenIs RPAREN p then some (some [], pNext p)
    else
      let p1 := pNext p
      match parseExpressionF n lowestPrec p1 with
      | none => none
      | some (a, p2) => callArgsLoopF n [a] p2

/-- The comma loop of `parseCallArguments`, followed by the closing
`expectPeek(RPAREN)`. -/
def callArgsLoopF : Nat → List (Option Expr) → ParserS → PRes (Option (List (Option Expr)))
  | 0, _, _ => none
  | n + 1, acc, p =>
    if peekTokenIs COMMA p then
      let p1 := pNext (pNext p)
      match parseExpressionF n lowestPrec p1 with
      | none => none
      | some (a, p2) => callArgsLoopF n (acc ++ [a]) p2
    else
      match expectPeek RPAREN p with
      | (false, p1) => some (none, p1)
      | (true, p1) => some (some acc, p1)

end

/-- Scan an input and initialize the parser on its token stream. -/
def pInit (s : Str) : ParserS :=
  parserNew (allTokens s)

/-- The whole front end: scan, then `ParseProgram` with the given fuel. -/
def parseWith (fuel : Nat) (s : Str) : Option (Program × ParserS) :=
  parseProgramF fuel (pInit s)

/-! ## The object model

From object.go (the checkpoint with `Function` and `Error`).  The `Env`
field of `Function` is omitted: `Inspect` never reads it and the evaluator
is outside the claims.  `ReturnValue.Value` is an interface and can be nil
(`none`); `Function.Body` is a pointer and can be nil.  `Inspect` returns
`Option Str`, `none` for a nil-pointer panic. -/

/-- The `object.Object` variants. -/
inductive Object where
  | integer : Int → Object
  | boolean : Bool → Object
  | function : List Identifier → Option Block → Object
  | null : Object
  | returnValue : Option Object → Object
  | error : Str → Object

/-- `Inspect` from object.go. -/
def inspectObj : Object → Option Str
  | .integer v => some (toString v).data
  | .boolean b => some (if b then "true".data else "false".data)
  | .null => some ("null".data)
  | .function params body =>
    match body with
    | none => none
    | some b =>
      match blockString b with
      | none => none
      | some bs =>
        some ("fn".data ++ "(".data
              ++ joinSep ", ".data (params.map (fun p => p.value))
              ++ ") \x7b\n".data ++ bs ++ "\n".data)
  | .returnValue v =>
    match v with
    | none => none
    | some o => inspectObj o
  | .error message => some ("ERROR: ".data ++ message)

/-- `Type()` from object.go (`ObjectType` is a string). -/
def objectType : Object → Str
  | .integer _ => "INTEGER".data
  | .boolean _ => "BOOLEAN".data
  | .function _ _ => "FUNCTION".data
  | .null => "NULL".data
  | .returnValue _ => "RETURN_VALUE".data
  | .error _ => "ERROR".data

/-! ## C10 -/

/-- C10: for every ReturnValue object, `Inspect()` returns exactly the
`Inspect()` string of the value it wraps (so a return sentinel escaping to
the top level prints identically to its unwrapped inner value); this also
holds through nested wrapping. -/
theorem c10_returnValue_inspect_eq_inner (v : Object) :
    inspectObj (Object.returnValue (some v)) = inspectObj v ∧
    inspectObj (Object.returnValue (some (Object.returnValue (some v))))
      = inspectObj v := by
  constructor <;> rfl

/-! ## C8 -/

/-- C8: `Function.Inspect` returns exactly `"fn("`, the parameter strings
joined by `", "`, then `") {\n"`, then `Body.String()`, then `"\n"` — and
the string ends in the newline, not in a closing brace. -/
theorem c8_function_inspect (params : List Identifier) (b : Block) (bs : Str)
    (h : blockString b = some bs) :
    inspectObj (Object.function params (some b)) =
      some ("fn(".data ++ joinSep ", ".data (params.map (fun p => p.value))
            ++ ") \x7b\n".data ++ bs ++ "\n".data) ∧
    ("fn(".data ++ joinSep ", ".data (params.map (fun p => p.value))
      ++ ") \x7b\n".data ++ bs ++ "\n".data).getLast? = some '\n' ∧
    (some '\n' : Option Char) ≠ some '\x7d' := by
  refine ⟨?_, ?_, by decide⟩
  · simp only [inspectObj]
    rw [h]
    rfl
  · have : ("fn(".data ++ joinSep ", ".data (params.map (fun p => p.value))
        ++ ") \x7b\n".data ++ bs ++ "\n".data) =
        ("fn(".data ++ joinSep ", ".data (params.map (fun p => p.value))
          ++ ") \x7b\n".data ++ bs) ++ ['\n'] := by
      simp [List.append_assoc]
    rw [this, List.getLast?_concat]

/-- Witness for C8 at a concrete function object (one parameter `x`, body
the single expression statement `y`). -/
theorem c8_function_inspect_witness :
    inspectObj (Object.function [⟨⟨IDENT, "x".data⟩, "x".data⟩]
        (some (Block.mk ⟨LBRACE, "\x7b".data⟩
          [some (Stmt.exprS ⟨IDENT, "y".data⟩
            (some (Expr.identE ⟨⟨IDENT, "y".data⟩, "y".data⟩)))]))) =
      some ("fn(".data ++ joinSep ", ".data
              (([⟨⟨IDENT, "x".data⟩, "x".data⟩] : List Identifier).map
                (fun p => p.value))
            ++ ") \x7b\n".data ++ "y".data ++ "\n".data) :=
  (c8_function_inspect [⟨⟨IDENT, "x".data⟩, "x".data⟩]
    (Block.mk ⟨LBRACE, "\x7b".data⟩
      [some (Stmt.exprS ⟨IDENT, "y".data⟩
        (some (Expr.identE ⟨⟨IDENT, "y".data⟩, "y".data⟩)))])
    ("y".data) rfl).1

/-! ## C3 -/

/-- C3: the precedence levels Lowest .. Call are strictly increasing, the
precedence table assigns the levels of the source, and the parse of a
well-formed expression reflects canonical parenthesization with left
associativity: the claim's two examples, one pair witnessing each
precedence inequality between neighbouring operator classes, and one
left-associativity example per operator class. -/
theorem c3_precedence_parenthesization :
    (lowestPrec < equalsPrec ∧ equalsPrec < lessgreaterPrec ∧
     lessgreaterPrec < sumPrec ∧ sumPrec < productPrec ∧
     productPrec < prefixPrec ∧ prefixPrec < callPrec) ∧
    (precedences EQ = some equalsPrec ∧ precedences NOT_EQ = some equalsPrec ∧
     precedences tok.LT = some lessgreaterPrec ∧
     precedences tok.GT = some lessgreaterPrec ∧
     precedences PLUS = some sumPrec ∧ precedences MINUS = some sumPrec ∧
     precedences SLASH = some productPrec ∧
     precedences ASTERISK = some productPrec ∧
     precedences LPAREN = some callPrec) ∧
    ((parseWith 99 ("-a * b".data)).map
        (fun r => (programString r.1, r.2.errors)) =
      some (some ("((-a) * b)".data), [])) ∧
    ((parseWith 99 ("a + b + c".data)).map
        (fun r => (programString r.1, r.2.errors)) =
      some (some ("((a + b) + c)".data), [])) ∧
    ((parseWith 99 ("a + b * c".data)).map
        (fun r => (programString r.1, r.2.errors)) =
      some (some ("(a + (b * c))".data), [])) ∧
    ((parseWith 99 ("a * b + c".data)).map
        (fun r => (programString r.1, r.2.errors)) =
      some (some ("((a * b) + c)".data), [])) ∧
    ((parseWith 99 ("a == b != c".data)).map
        (fun r => (programString r.1, r.2.errors)) =
      some (some ("((a == b) != c)".data), [])) ∧
    ((parseWith 99 ("a < b > c".data)).map
        (fun r => (programString r.1, r.2.errors)) =
      some (some ("((a < b) > c)".data), [])) ∧
    ((parseWith 99 ("a - b / c".data)).map
        (fun r => (programString r.1, r.2.errors)) =
      some (some ("(a - (b / c))".data), [])) ∧
    ((parseWith 99 ("a < b == c > d".data)).map
        (fun r => (programString r.1, r.2.errors)) =
      some (some ("((a < b) == (c > d))".data), [])) ∧
    ((parseWith 99 ("add(a) * b".data)).map
        (fun r => (programString r.1, r.2.errors)) =
      some (some ("(add(a) * b)".data), [])) := by
  repeat' apply And.intro
  all_goals decide

/-! ## C1

`parseReturnStatement` runs `for !p.curTokenIs(token.SEMICOLON) {
p.nextToken() }` with no end-of-input check.  Once the token stream is
exhausted, `nextToken` keeps `curToken = peekToken = EOF`, so on an input
whose return statement is not followed by a semicolon the loop spins
forever and `ParseProgram` never returns. -/

/-- On the stuck state (cur and peek both `EOF`, stream exhausted) the
skip-to-semicolon loop never finishes: `none` for every fuel. -/
theorem skipToSemicolon_stuck :
    ∀ (n : Nat) (p : ParserS), p.curToken.typ = EOF → p.peekToken.typ = EOF →
      p.toks = [] → skipToSemicolonF n p = none := by
  intro n
  induction n with
  | zero => intro p _ _ _; rfl
  | succ n ih =>
    intro p hc hp ht
    have hcond : curTokenIs SEMICOLON p = false := by
      simp [curTokenIs, hc]
      decide
    show (if curTokenIs SEMICOLON p then some p
          else skipToSemicolonF n (pNext p)) = none
    rw [hcond]
    simp only [Bool.false_eq_true, if_false]
    exact ih (pNext p) (by simp [pNext, hp]) (by simp [pNext, ht]; rfl)
      (by simp [pNext, ht])

/-- C1: the failing input `return 5` (no semicolon before end of input)
scans to `[RETURN, INT 5]`, and `ParseProgram` on it never returns: the
fueled embedding yields `none` at every fuel, i.e. the Go loop diverges,
contradicting the claimed termination for every finite input. -/
theorem c1_parseProgram_diverges_on_return_without_semicolon :
    allTokens ("return 5".data) =
      [⟨RETURN, "return".data⟩, ⟨INT, "5".data⟩] ∧
    ∀ fuel : Nat, parseWith fuel ("return 5".data) = none := by
  refine ⟨by decide, ?_⟩
  intro fuel
  match fuel with
  | 0 => rfl
  | 1 => rfl
  | 2 => rfl
  | 3 => rfl
  | 4 => rfl
  | (k + 5) =>
    have hs : skipToSemicolonF (k + 1)
        (⟨[], eofToken, eofToken, []⟩ : ParserS) = none :=
      skipToSemicolon_stuck (k + 1) _ rfl rfl rfl
    have hstmt : parseStatementF (k + 4)
        (⟨[], ⟨RETURN, "return".data⟩, ⟨INT, "5".data⟩, []⟩ : ParserS) = none := by
      calc parseStatementF (k + 4)
            (⟨[], ⟨RETURN, "return".data⟩, ⟨INT, "5".data⟩, []⟩ : ParserS)
          = (match skipToSemicolonF (k + 1)
                (⟨[], eofToken, eofToken, []⟩ : ParserS) with
             | none => (none : PRes (Option Stmt))
             | some p3 =>
               some (some (Stmt.returnS ⟨RETURN, "return".data⟩
                 (some (Expr.intLit ⟨INT, "5".data⟩ 5))), p3)) := rfl
        _ = none := by rw [hs]
    calc parseWith (k + 5) ("return 5".data)
        = (match parseStatementF (k + 4)
              (⟨[], ⟨RETURN, "return".data⟩, ⟨INT, "5".data⟩, []⟩ : ParserS) with
           | none => (none : Option (Program × ParserS))
           | some (stmt, p1) =>
             match parseProgramF (k + 4) (pNext p1) with
             | none => none
             | some (prog, p2) => some (⟨stmt :: prog.Statements⟩, p2)) := rfl
      _ = none := by rw [hstmt]

/-! ## C4

When `expectPeek` fails in `parseLetStatement`, the expected error message
is recorded and a nil `*ast.LetStatement` is returned.  `parseStatement`
boxes that nil pointer into a non-nil `ast.Statement` interface value, so
`ParseProgram`'s `stmt != nil` check is true and the nil statement is
appended to `Statements` — the let statement does not contribute a let
node, but it does contribute a nil entry. -/

/-- C4 (amended): (1) a let statement whose expected identifier is missing
records exactly `"expected next token to be IDENT, got Y instead"` and
returns the nil statement; (2) one whose `=` is missing records exactly
`"expected next token to be =, got Y instead"` and returns the nil
statement; (3) `parseStatement` on `LET` is `parseLetStatement`; (4)
`ParseProgram` appends the resulting (nil) statement to `Statements`
unconditionally, so the list gains one `none` entry rather than nothing. -/
theorem c4_let_missing_token_error_and_nil_append :
    (∀ (n : Nat) (p : ParserS), p.peekToken.typ ≠ IDENT →
      parseLetStatementF (n + 1) p =
        some (none, { p with errors := p.errors ++
          ["expected next token to be ".data ++ IDENT ++ ", got ".data
            ++ p.peekToken.typ ++ " instead".data] })) ∧
    (∀ (n : Nat) (p : ParserS), p.peekToken.typ = IDENT →
      (p.toks.headD eofToken).typ ≠ ASSIGN →
      parseLetStatementF (n + 1) p =
        some (none, { pNext p with errors := p.errors ++
          ["expected next token to be ".data ++ ASSIGN ++ ", got ".data
            ++ (p.toks.headD eofToken).typ ++ " instead".data] })) ∧
    (∀ (n : Nat) (p : ParserS), p.curToken.typ = LET →
      parseStatementF (n + 1) p = parseLetStatementF n p) ∧
    (∀ (n : Nat) (p q : ParserS) (stmt : Option Stmt),
      p.curToken.typ ≠ EOF → parseStatementF n p = some (stmt, q) →
      parseProgramF (n + 1) p =
        (parseProgramF n (pNext q)).map
          (fun r => (⟨stmt :: r.1.Statements⟩, r.2))) := by
  refine ⟨?_, ?_, ?_, ?_⟩
  · intro n p hp
    have h1 : peekTokenIs IDENT p = false := by simp [peekTokenIs, hp]
    simp [parseLetStatementF, expectPeek, h1, peekError]
  · intro n p hp hq
    have hq' : ¬ (p.toks.head?.getD eofToken).typ = ASSIGN := by
      simpa using hq
    simp [parseLetStatementF, expectPeek, peekTokenIs, pNext, peekError, hp, hq']
  · intro n p hp
    simp [parseStatementF, hp]
  · intro n p q stmt hne hs
    simp only [parseProgramF]
    rw [if_neg hne, hs]
    rcases hpp : parseProgramF n (pNext q) with _ | ⟨prog, p2⟩ <;> simp [hpp]

/-- Witness for C4 at a concrete state: `let` with peek token `INT 5`. -/
theorem c4_let_missing_token_witness :
    parseLetStatementF 6 (⟨[], ⟨LET, "let".data⟩, ⟨INT, "5".data⟩, []⟩ : ParserS) =
      some (none, (⟨[], ⟨LET, "let".data⟩, ⟨INT, "5".data⟩,
        ["expected next token to be IDENT, got INT instead".data]⟩ : ParserS)) :=
  c4_let_missing_token_error_and_nil_append.1 5
    (⟨[], ⟨LET, "let".data⟩, ⟨INT, "5".data⟩, []⟩ : ParserS) (by decide)

/-- Counterexample for C4 as stated: on `let x 5;` the parser records
exactly the expected-token message, but the `Statements` list of the
returned `Program` gains a first entry — Go's typed-nil `*ast.LetStatement`
(`isSome = false`) — rather than no statement. -/
theorem c4_counterexample_nil_statement_appended :
    (parseWith 99 ("let x 5;".data)).map
        (fun r => (r.1.Statements.map Option.isSome, r.2.errors)) =
      some ([false, true],
        ["expected next token to be =, got INT instead".data]) := by
  decide

/-! ## C5 -/

/-- The mathematical value of a digit string in a base. -/
def denBase (b : Nat) (s : Str) : Nat :=
  s.foldl (fun acc c => acc * b + digitVal c) 0

/-- The accumulator never decreases along the digit fold. -/
theorem denFold_le (b : Nat) (hb : 1 ≤ b) :
    ∀ (s : Str) (acc : Nat),
      acc ≤ s.foldl (fun n c => n * b + digitVal c) acc := by
  intro s
  induction s with
  | nil => intro acc; exact Nat.le_refl acc
  | cons c cs ih =>
    intro acc
    calc acc ≤ acc * b + digitVal c := by
          have : acc * 1 ≤ acc * b := Nat.mul_le_mul_left acc hb
          omega
    _ ≤ cs.foldl (fun n c => n * b + digitVal c) (acc * b + digitVal c) := ih _

/-- `parseUintGo` computes the fold when every digit fits the base and the
final value fits in 64 bits. -/
theorem parseUintGo_ok (b : Nat) (hb : 2 ≤ b) :
    ∀ (s : Str) (acc : Nat), (∀ c ∈ s, digitVal c < b) →
      s.foldl (fun n c => n * b + digitVal c) acc < 2 ^ 64 →
      parseUintGo b s acc =
        some (s.foldl (fun n c => n * b + digitVal c) acc) := by
  intro s
  induction s with
  | nil => intro acc _ _; rfl
  | cons c cs ih =>
    intro acc hd hlt
    have hc : digitVal c < b := hd c (List.mem_cons_self c cs)
    have hfold : (acc * b + digitVal c) ≤
        cs.foldl (fun n c => n * b + digitVal c) (acc * b + digitVal c) :=
      denFold_le b (by omega) cs _
    have hlt' : cs.foldl (fun n c => n * b + digitVal c)
        (acc * b + digitVal c) < 2 ^ 64 := hlt
    have hmul : acc * b ≤ 2 ^ 64 - 1 := by omega
    have hcut : ¬ ((2 ^ 64 - 1) / b + 1 ≤ acc) := by
      have : acc ≤ (2 ^ 64 - 1) / b :=
        (Nat.le_div_iff_mul_le (by omega)).mpr hmul
      omega
    have hn1 : ¬ (2 ^ 64 - 1 < acc * b + digitVal c) := by omega
    show (if b ≤ digitVal c then none
          else if (2 ^ 64 - 1) / b + 1 ≤ acc then none
          else if 2 ^ 64 - 1 < acc * b + digitVal c then none
          else parseUintGo b cs (acc * b + digitVal c)) = _
    rw [if_neg (by omega), if_neg hcut, if_neg hn1]
    exact ih _ (fun x hx => hd x (List.mem_cons_of_mem c hx)) hlt'

/-- `parseUintGo` reports a range error when the value reaches `2^64`. -/
theorem parseUintGo_overflow (b : Nat) :
    ∀ (s : Str) (acc : Nat), acc < 2 ^ 64 →
      2 ^ 64 ≤ s.foldl (fun n c => n * b + digitVal c) acc →
      parseUintGo b s acc = none := by
  intro s
  induction s with
  | nil => intro acc h1 h2; simp at h2; omega
  | cons c cs ih =>
    intro acc h1 h2
    show (if b ≤ digitVal c then none
          else if (2 ^ 64 - 1) / b + 1 ≤ acc then none
          else if 2 ^ 64 - 1 < acc * b + digitVal c then none
          else parseUintGo b cs (acc * b + digitVal c)) = none
    by_cases hd : b ≤ digitVal c
    · rw [if_pos hd]
    · rw [if_neg hd]
      by_cases hcut : (2 ^ 64 - 1) / b + 1 ≤ acc
      · rw [if_pos hcut]
      · rw [if_neg hcut]
        by_cases hov : 2 ^ 64 - 1 < acc * b + digitVal c
        · rw [if_pos hov]
        · rw [if_neg hov]
          exact ih _ (by omega) h2

/-- `parseUintGo` reports a syntax error when some digit does not fit the
base. -/
theorem parseUintGo_badDigit (b : Nat) :
    ∀ (s : Str) (acc : Nat), (∃ c ∈ s, b ≤ digitVal c) →
      parseUintGo b s acc = none := by
  intro s
  induction s with
  | nil => intro acc h; simp at h
  | cons c cs ih =>
    intro acc h
    show (if b ≤ digitVal c then none
          else if (2 ^ 64 - 1) / b + 1 ≤ acc then none
          else if 2 ^ 64 - 1 < acc * b + digitVal c then none
          else parseUintGo b cs (acc * b + digitVal c)) = none
    by_cases hd : b ≤ digitVal c
    · rw [if_pos hd]
    · rw [if_neg hd]
      have hcs : ∃ x ∈ cs, b ≤ digitVal x := by
        rcases h with ⟨x, hx, hxv⟩
        rcases List.mem_cons.mp hx with h' | h'
        · exact absurd (h' ▸ hxv) hd
        · exact ⟨x, h', hxv⟩
      by_cases hcut : (2 ^ 64 - 1) / b + 1 ≤ acc
      · rw [if_pos hcut]
      · rw [if_neg hcut]
        by_cases hov : 2 ^ 64 - 1 < acc * b + digitVal c
        · rw [if_pos hov]
        · rw [if_neg hov]
          exact ih _ hcs

/-- An ASCII digit has value below ten. -/
theorem digitVal_lt_ten (c : Char) (h : isDigit c = true) : digitVal c < 10 := by
  simp only [isDigit, Bool.and_eq_true, decide_eq_true_eq] at h
  obtain ⟨h1, h2⟩ := h
  have h1' : '0'.toNat ≤ c.toNat := h1
  have h2' : c.toNat ≤ '9'.toNat := h2
  have e0 : '0'.toNat = 48 := rfl
  have e9 : '9'.toNat = 57 := rfl
  simp only [digitVal, Char.toNat] at *
  omega

/-- `parseUintGo` from a zero accumulator computes `denBase` when in
range. -/
theorem parseUintGo_den (b : Nat) (hb : 2 ≤ b) (s : Str)
    (hd : ∀ c ∈ s, digitVal c < b) (h : denBase b s < 2 ^ 64) :
    parseUintGo b s 0 = some (denBase b s) :=
  parseUintGo_ok b hb s 0 hd h

/-- `parseUintGo` from a zero accumulator overflows when `denBase` does. -/
theorem parseUintGo_den_overflow (b : Nat) (s : Str)
    (h : 2 ^ 64 ≤ denBase b s) : parseUintGo b s 0 = none :=
  parseUintGo_overflow b s 0 (by norm_num) h

/-- `goParseInt` on a digit run without the legacy octal prefix: base 10,
the value when it fits in a signed 64-bit integer, an error otherwise. -/
theorem goParseInt_decimal (lit : Str) (hne : lit ≠ [])
    (hdig : ∀ c ∈ lit, isDigit c = true)
    (hdec : lit.headD 'x' ≠ '0' ∨ lit = ['0']) :
    goParseInt lit = if denBase 10 lit < 2 ^ 63
      then some (Int.ofNat (denBase 10 lit)) else none := by
  have hcond : ¬ (1 < lit.length ∧ lit.headD 'x' = '0') := by
    rintro ⟨hlen, hhead⟩
    rcases hdec with h | h
    · exact h hhead
    · rw [h] at hlen
      simp at hlen
  have hlt10 : ∀ c ∈ lit, digitVal c < 10 :=
    fun c hc => digitVal_lt_ten c (hdig c hc)
  show (match parseUintGo (if 1 < lit.length ∧ lit.headD 'x' = '0'
          then ((8 : Nat), lit.tail) else (10, lit)).1
          (if 1 < lit.length ∧ lit.headD 'x' = '0'
          then ((8 : Nat), lit.tail) else (10, lit)).2 0 with
        | none => none
        | some un => if 2 ^ 63 ≤ un then none else some (Int.ofNat un)) = _
  rw [if_neg hcond]
  by_cases hsm : denBase 10 lit < 2 ^ 63
  · rw [parseUintGo_den 10 (by omega) lit hlt10 (by omega)]
    dsimp only
    rw [if_neg (by omega), if_pos hsm]
  · by_cases hov : denBase 10 lit < 2 ^ 64
    · rw [parseUintGo_den 10 (by omega) lit hlt10 hov]
      dsimp only
      rw [if_pos (by omega), if_neg hsm]
    · rw [parseUintGo_den_overflow 10 lit (by omega)]
      dsimp only
      rw [if_neg hsm]

/-- `goParseInt` on a digit run with the legacy octal prefix (leading `0`,
more than one character): base 8 on the tail; a digit `8` or `9` or a
value at or above `2^63` is an error. -/
theorem goParseInt_octal (lit : Str) (hne : lit ≠ [])
    (hhead : lit.headD 'x' = '0') (hnz : lit ≠ ['0']) :
    goParseInt lit =
      if (∀ c ∈ lit.tail, digitVal c < 8) ∧ denBase 8 lit.tail < 2 ^ 63
      then some (Int.ofNat (denBase 8 lit.tail)) else none := by
  have hlen : 1 < lit.length := by
    cases lit with
    | nil => exact absurd rfl hne
    | cons c cs =>
      cases cs with
      | nil =>
        simp at hhead
        exact absurd (by rw [hhead]) hnz
      | cons d ds => simp
  show (match parseUintGo (if 1 < lit.length ∧ lit.headD 'x' = '0'
          then ((8 : Nat), lit.tail) else (10, lit)).1
          (if 1 < lit.length ∧ lit.headD 'x' = '0'
          then ((8 : Nat), lit.tail) else (10, lit)).2 0 with
        | none => none
        | some un => if 2 ^ 63 ≤ un then none else some (Int.ofNat un)) = _
  rw [if_pos ⟨hlen, hhead⟩]
  by_cases hok : ∀ c ∈ lit.tail, digitVal c < 8
  · by_cases hsm : denBase 8 lit.tail < 2 ^ 63
    · rw [parseUintGo_den 8 (by omega) lit.tail hok (by omega)]
      dsimp only
      rw [if_neg (by omega), if_pos ⟨hok, hsm⟩]
    · rw [if_neg (by intro h; exact hsm h.2)]
      by_cases hov : denBase 8 lit.tail < 2 ^ 64
      · rw [parseUintGo_den 8 (by omega) lit.tail hok hov]
        dsimp only
        rw [if_pos (by omega)]
      · rw [parseUintGo_den_overflow 8 lit.tail (by omega)]
  · rw [if_neg (by intro h; exact hok h.1)]
    have hbad : ∃ c ∈ lit.tail, 8 ≤ digitVal c := by
      push_neg at hok
      rcases hok with ⟨c, hc, hcv⟩
      exact ⟨c, hc, by omega⟩
    rw [parseUintGo_badDigit 8 lit.tail 0 hbad]

/-- C5 (amended): `parseIntegerLiteral` interprets the `Int` token's
digit-run lexeme by `strconv.ParseInt(lit, 0, 64)`, i.e. in base 10 —
except that a lexeme starting with `0` (other than `"0"` itself) is read
in base 8 — returning the `IntegerLiteral` with that value when the
conversion succeeds; exactly when it fails (a digit `8`/`9` after a
leading zero, or a value at or above `2^63` in the selected base) it
appends the error `could not parse "X" as integer` with the lexeme quoted
by `%q`, and returns no expression. -/
theorem c5_parseIntegerLiteral_base0_semantics
    (p : ParserS) (lit : Str) (hcur : p.curToken = ⟨INT, lit⟩)
    (hne : lit ≠ []) (hdig : ∀ c ∈ lit, isDigit c = true) :
    ((lit.headD 'x' ≠ '0' ∨ lit = ['0']) →
      (denBase 10 lit < 2 ^ 63 →
        parseIntegerLiteralP p =
          (some (Expr.intLit ⟨INT, lit⟩ (Int.ofNat (denBase 10 lit))), p)) ∧
      (2 ^ 63 ≤ denBase 10 lit →
        parseIntegerLiteralP p =
          (none, { p with errors := p.errors ++ [couldNotParseMsg lit] }))) ∧
    (lit.headD 'x' = '0' → lit ≠ ['0'] →
      ((∀ c ∈ lit.tail, digitVal c < 8) → denBase 8 lit.tail < 2 ^ 63 →
        parseIntegerLiteralP p =
          (some (Expr.intLit ⟨INT, lit⟩ (Int.ofNat (denBase 8 lit.tail))), p)) ∧
      (((∃ c ∈ lit.tail, 8 ≤ digitVal c) ∨ 2 ^ 63 ≤ denBase 8 lit.tail) →
        parseIntegerLiteralP p =
          (none, { p with errors := p.errors ++ [couldNotParseMsg lit] }))) := by
  have hP : ∀ r, goParseInt lit = r → parseIntegerLiteralP p =
      (match r with
       | none => (none, { p with errors := p.errors ++ [couldNotParseMsg lit] })
       | some v => (some (Expr.intLit ⟨INT, lit⟩ v), p)) := by
    intro r hr
    show (match goParseInt p.curToken.literal with
          | none => (none,
              { p with errors := p.errors ++ [couldNotParseMsg p.curToken.literal] })
          | some v => (some (Expr.intLit p.curToken v), p)) = _
    rw [hcur]
    dsimp only
    rw [hr]
  constructor
  · intro hdec
    have hg := goParseInt_decimal lit hne hdig hdec
    constructor
    · intro hsm
      rw [if_pos hsm] at hg
      exact hP _ hg
    · intro hbig
      rw [if_neg (by omega)] at hg
      exact hP _ hg
  · intro hhead hnz
    have hg := goParseInt_octal lit hne hhead hnz
    constructor
    · intro hok hsm
      rw [if_pos ⟨hok, hsm⟩] at hg
      exact hP _ hg
    · intro hbadOrBig
      rw [if_neg (by
        rintro ⟨hall, hsm⟩
        rcases hbadOrBig with ⟨c, hc, hcv⟩ | hbig
        · have := hall c hc
          omega
        · omega)] at hg
      exact hP _ hg

/-- Witness for C5 at the decimal lexeme `123` and the octal lexeme `010`. -/
theorem c5_parseIntegerLiteral_witness :
    parseIntegerLiteralP (⟨[], ⟨INT, "123".data⟩, eofToken, []⟩ : ParserS) =
      (some (Expr.intLit ⟨INT, "123".data⟩ (Int.ofNat (denBase 10 ("123".data)))),
        (⟨[], ⟨INT, "123".data⟩, eofToken, []⟩ : ParserS)) ∧
    parseIntegerLiteralP (⟨[], ⟨INT, "010".data⟩, eofToken, []⟩ : ParserS) =
      (some (Expr.intLit ⟨INT, "010".data⟩ (Int.ofNat (denBase 8 (("010".data).tail)))),
        (⟨[], ⟨INT, "010".data⟩, eofToken, []⟩ : ParserS)) :=
  ⟨((c5_parseIntegerLiteral_base0_semantics _ ("123".data) rfl (by decide)
      (by decide)).1 (by decide)).1 (by decide),
   ((c5_parseIntegerLiteral_base0_semantics _ ("010".data) rfl (by decide)
      (by decide)).2 (by decide) (by decide)).1 (by decide) (by decide)⟩

/-- The integer value of the first statement when the program is a single
integer-literal expression statement (used to observe parse results). -/
def firstIntValue (pr : Program) : Option Int :=
  match pr.Statements with
  | [some (Stmt.exprS _ (some (Expr.intLit _ v)))] => some v
  | _ => none

/-- Counterexample for C5 as stated: the digit-run lexeme `010` denotes
ten in decimal, but the parsed `IntegerLiteral` carries the value 8 (the
base-0 legacy octal reading); and on `09`, whose decimal value 9 is well
inside the 64-bit range, the parser still records an error — which is
moreover quoted, `could not parse "09" as integer`, not the claim's
`could not parse 09 as integer`. -/
theorem c5_counterexample_octal_not_decimal :
    ((parseWith 99 ("010".data)).map
        (fun r => (firstIntValue r.1, r.2.errors)) = some (some 8, [])) ∧
    denBase 10 ("010".data) = 10 ∧ (8 : Int) ≠ 10 ∧
    ((parseWith 99 ("09".data)).map
        (fun r => (r.1.Statements.map Option.isSome, r.2.errors)) =
      some ([true], [couldNotParseMsg ("09".data)])) ∧
    denBase 10 ("09".data) = 9 ∧ 9 < 2 ^ 63 ∧
    couldNotParseMsg ("09".data) ≠ "could not parse 09 as integer".data := by
  repeat' apply And.intro
  all_goals decide

/-! ## C9

The lexer invariant: states reachable from `lexerNew` have
`readPosition = position + 1` and `ch` equal to the byte at `position`
(NUL beyond the end — and a NUL byte inside the input is indistinguishable
from the end, exactly as in the Go code). -/

/-- The invariant maintained by every `readChar`. -/
def LexInv (l : Lexer) : Prop :=
  l.readPosition = l.position + 1 ∧ l.ch = l.input.getD l.position nulChar

/-- Any `readChar` result satisfies the invariant. -/
theorem readChar_inv (l : Lexer) : LexInv (readChar l) := by
  refine ⟨rfl, ?_⟩
  show (if l.input.length ≤ l.readPosition then nulChar
        else l.input.getD l.readPosition nulChar) =
    l.input.getD l.readPosition nulChar
  by_cases h : l.input.length ≤ l.readPosition
  · rw [if_pos h, List.getD_eq_default _ _ h]
  · rw [if_neg h]

theorem readChar_input (l : Lexer) : (readChar l).input = l.input := rfl

theorem readChar_pos (l : Lexer) : (readChar l).position = l.readPosition := rfl

theorem readChar_rp (l : Lexer) :
    (readChar l).readPosition = l.readPosition + 1 := rfl

/-- The initial state satisfies the invariant. -/
theorem lexerNew_inv (s : Str) : LexInv (lexerNew s) := readChar_inv _

/-- Under the invariant, a non-NUL current byte means the cursor is inside
the input. -/
theorem pos_lt_of_ch_ne_nul (l : Lexer) (h : LexInv l) (hch : l.ch ≠ nulChar) :
    l.position < l.input.length := by
  by_contra hge
  exact hch (h.2.trans (List.getD_eq_default _ _ (by omega)))

/-- Loop facts for `skipWSGo`: invariant, input, and cursor monotonicity. -/
theorem skipWSGo_spec : ∀ (n : Nat) (l : Lexer), LexInv l →
    LexInv (skipWSGo n l) ∧ (skipWSGo n l).input = l.input ∧
    l.position ≤ (skipWSGo n l).position ∧
    l.readPosition ≤ (skipWSGo n l).readPosition := by
  intro n
  induction n with
  | zero => intro l h; exact ⟨h, rfl, Nat.le_refl _, Nat.le_refl _⟩
  | succ n ih =>
    intro l h
    by_cases hws : isWS l.ch
    · rw [show skipWSGo (n + 1) l = skipWSGo n (readChar l) from by
        simp [skipWSGo, hws]]
      obtain ⟨i1, i2, i3, i4⟩ := ih (readChar l) (readChar_inv l)
      refine ⟨i1, i2.trans rfl, ?_, ?_⟩
      · have hp : (readChar l).position = l.readPosition := rfl
        have hrp : l.readPosition = l.position + 1 := h.1
        omega
      · have hp : (readChar l).readPosition = l.readPosition + 1 := rfl
        omega
    · rw [show skipWSGo (n + 1) l = l from by simp [skipWSGo, hws]]
      exact ⟨h, rfl, Nat.le_refl _, Nat.le_refl _⟩

/-- Loop facts for `readIdentGo`. -/
theorem readIdentGo_spec : ∀ (n : Nat) (l : Lexer), LexInv l →
    LexInv (readIdentGo n l) ∧ (readIdentGo n l).input = l.input ∧
    l.position ≤ (readIdentGo n l).position ∧
    l.readPosition ≤ (readIdentGo n l).readPosition := by
  intro n
  induction n with
  | zero => intro l h; exact ⟨h, rfl, Nat.le_refl _, Nat.le_refl _⟩
  | succ n ih =>
    intro l h
    by_cases hc : isLetter l.ch
    · rw [show readIdentGo (n + 1) l = readIdentGo n (readChar l) from by
        simp [readIdentGo, hc]]
      obtain ⟨i1, i2, i3, i4⟩ := ih (readChar l) (readChar_inv l)
      refine ⟨i1, i2.trans rfl, ?_, ?_⟩
      · have hp : (readChar l).position = l.readPosition := rfl
        have hrp : l.readPosition = l.position + 1 := h.1
        omega
      · have hp : (readChar l).readPosition = l.readPosition + 1 := rfl
        omega
    · rw [show readIdentGo (n + 1) l = l from by simp [readIdentGo, hc]]
      exact ⟨h, rfl, Nat.le_refl _, Nat.le_refl _⟩

/-- Loop facts for `readNumberGo`. -/
theorem readNumberGo_spec : ∀ (n : Nat) (l : Lexer), LexInv l →
    LexInv (readNumberGo n l) ∧ (readNumberGo n l).input = l.input ∧
    l.position ≤ (readNumberGo n l).position ∧
    l.readPosition ≤ (readNumberGo n l).readPosition := by
  intro n
  induction n with
  | zero => intro l h; exact ⟨h, rfl, Nat.le_refl _, Nat.le_refl _⟩
  | succ n ih =>
    intro l h
    by_cases hc : isDigit l.ch
    · rw [show readNumberGo (n + 1) l = readNumberGo n (readChar l) from by
        simp [readNumberGo, hc]]
      obtain ⟨i1, i2, i3, i4⟩ := ih (readChar l) (readChar_inv l)
      refine ⟨i1, i2.trans rfl, ?_, ?_⟩
      · have hp : (readChar l).position = l.readPosition := rfl
        have hrp : l.readPosition = l.position + 1 := h.1
        omega
      · have hp : (readChar l).readPosition = l.readPosition + 1 := rfl
        omega
    · rw [show readNumberGo (n + 1) l = l from by simp [readNumberGo, hc]]
      exact ⟨h, rfl, Nat.le_refl _, Nat.le_refl _⟩

/-- Loop facts for `readStringGo` (each iteration starts with a
`readChar`, so the result always satisfies the invariant when the fuel is
positive; monotonicity holds for any fuel). -/
theorem readStringGo_spec : ∀ (n : Nat) (l : Lexer), LexInv l →
    LexInv (readStringGo n l) ∧ (readStringGo n l).input = l.input ∧
    l.position ≤ (readStringGo n l).position ∧
    l.readPosition ≤ (readStringGo n l).readPosition := by
  intro n
  induction n with
  | zero => intro l h; exact ⟨h, rfl, Nat.le_refl _, Nat.le_refl _⟩
  | succ n ih =>
    intro l h
    by_cases hstop : (readChar l).ch = '"' ∨ (readChar l).ch = nulChar
    · rw [show readStringGo (n + 1) l = readChar l from by
        simp only [readStringGo]
        rw [if_pos hstop]]
      refine ⟨readChar_inv l, rfl, ?_, ?_⟩
      · have hp : (readChar l).position = l.readPosition := rfl
        have hrp : l.readPosition = l.position + 1 := h.1
        omega
      · have hp : (readChar l).readPosition = l.readPosition + 1 := rfl
        omega
    · rw [show readStringGo (n + 1) l = readStringGo n (readChar l) from by
        simp only [readStringGo]
        rw [if_neg hstop]]
      obtain ⟨i1, i2, i3, i4⟩ := ih (readChar l) (readChar_inv l)
      refine ⟨i1, i2.trans rfl, ?_, ?_⟩
      · have hp : (readChar l).position = l.readPosition := rfl
        have hrp : l.readPosition = l.position + 1 := h.1
        omega
      · have hp : (readChar l).readPosition = l.readPosition + 1 := rfl
        omega

/-- Facts for `skipWhitespace`. -/
theorem skipWhitespace_spec (l : Lexer) (h : LexInv l) :
    LexInv (skipWhitespace l) ∧ (skipWhitespace l).input = l.input ∧
    l.position ≤ (skipWhitespace l).position ∧
    l.readPosition ≤ (skipWhitespace l).readPosition :=
  skipWSGo_spec _ l h

/-- A digit is not a letter. -/
theorem not_isLetter_of_isDigit (c : Char) (h : isDigit c = true) :
    isLetter c = false := by
  simp only [isDigit, Bool.and_eq_true, decide_eq_true_eq] at h
  have h1 : '0'.toNat ≤ c.toNat := h.1
  have h2 : c.toNat ≤ '9'.toNat := h.2
  have e0 : '0'.toNat = 48 := rfl
  have e9 : '9'.toNat = 57 := rfl
  by_contra hne
  have hl : isLetter c = true := by
    cases hx : isLetter c
    · exact absurd hx hne
    · rfl
  simp only [isLetter, Bool.or_eq_true, Bool.and_eq_true, decide_eq_true_eq] at hl
  rcases hl with (⟨ha, hb⟩ | ⟨ha, hb⟩) | ha
  · have hA : 'a'.toNat ≤ c.toNat := ha
    have e : 'a'.toNat = 97 := rfl
    omega
  · have hA : 'A'.toNat ≤ c.toNat := ha
    have hB : c.toNat ≤ 'Z'.toNat := hb
    have e : 'A'.toNat = 65 := rfl
    have e2 : 'Z'.toNat = 90 := rfl
    omega
  · have hA : c.toNat = '_'.toNat := by rw [ha]
    have e : '_'.toNat = 95 := rfl
    omega

/-! Per-branch equations for the `NextToken` dispatch, used to reason about
one lexer step at a time. -/

theorem ntaws_eqtok (l : Lexer) (hc : l.ch = '=') (hp : peekChar l = '=') :
    nextTokenAfterWS l = (⟨EQ, [l.ch, (readChar l).ch]⟩, readChar (readChar l)) := by
  unfold nextTokenAfterWS
  rw [if_pos hc, if_pos hp]

theorem ntaws_assign (l : Lexer) (hc : l.ch = '=') (hp : peekChar l ≠ '=') :
    nextTokenAfterWS l = (newToken ASSIGN l.ch, readChar l) := by
  unfold nextTokenAfterWS
  rw [if_pos hc, if_neg hp]

theorem ntaws_noteqtok (l : Lexer) (hc : l.ch = '!') (hp : peekChar l = '=') :
    nextTokenAfterWS l = (⟨NOT_EQ, [l.ch, (readChar l).ch]⟩, readChar (readChar l)) := by
  unfold nextTokenAfterWS
  rw [if_neg (by rw [hc]; decide), if_pos hc, if_pos hp]

theorem ntaws_bang (l : Lexer) (hc : l.ch = '!') (hp : peekChar l ≠ '=') :
    nextTokenAfterWS l = (newToken BANG l.ch, readChar l) := by
  unfold nextTokenAfterWS
  rw [if_neg (by rw [hc]; decide), if_pos hc, if_neg hp]

theorem ntaws_plus (l : Lexer) (hc : l.ch = '+') :
    nextTokenAfterWS l = (newToken PLUS l.ch, readChar l) := by
  unfold nextTokenAfterWS
  rw [if_neg (by rw [hc]; decide), if_neg (by rw [hc]; decide), if_pos hc]

theorem ntaws_minus (l : Lexer) (hc : l.ch = '-') :
    nextTokenAfterWS l = (newToken MINUS l.ch, readChar l) := by
  unfold nextTokenAfterWS
  rw [if_neg (by rw [hc]; decide), if_neg (by rw [hc]; decide), if_neg (by rw [hc]; decide), if_pos hc]

theorem ntaws_slash (l : Lexer) (hc : l.ch = '/') :
    nextTokenAfterWS l = (newToken SLASH l.ch, readChar l) := by
  unfold nextTokenAfterWS
  rw [if_neg (by rw [hc]; decide), if_neg (by rw [hc]; decide), if_neg (by rw [hc]; decide), if_neg (by rw [hc]; decide), if_pos hc]

theorem ntaws_asterisk (l : Lexer) (hc : l.ch = '*') :
    nextTokenAfterWS l = (newToken ASTERISK l.ch, readChar l) := by
  unfold nextTokenAfterWS
  rw [if_neg (by rw [hc]; decide), if_neg (by rw [hc]; decide), if_neg (by rw [hc]; decide), if_neg (by rw [hc]; decide), if_neg (by rw [hc]; decide), if_pos hc]

theorem ntaws_lt (l : Lexer) (hc : l.ch = '<') :
    nextTokenAfterWS l = (newToken tok.LT l.ch, readChar l) := by
  unfold nextTokenAfterWS
  rw [if_neg (by rw [hc]; decide), if_neg (by rw [hc]; decide), if_neg (by rw [hc]; decide), if_neg (by rw [hc]; decide), if_neg (by rw [hc]; decide), if_neg (by rw [hc]; decide), if_pos hc]

theorem ntaws_gt (l : Lexer) (hc : l.ch = '>') :
    nextTokenAfterWS l = (newToken tok.GT l.ch, readChar l) := by
  unfold nextTokenAfterWS
  rw [if_neg (by rw [hc]; decide), if_neg (by rw [hc]; decide), if_neg (by rw [hc]; decide), if_neg (by rw [hc]; decide), if_neg (by rw [hc]; decide), if_neg (by rw [hc]; decide), if_neg (by rw [hc]; decide), if_pos hc]

theorem ntaws_semicolon (l : Lexer) (hc : l.ch = ';') :
    nextTokenAfterWS l = (newToken SEMICOLON l.ch, readChar l) := by
  unfold nextTokenAfterWS
  rw [if_neg (by rw [hc]; decide), if_neg (by rw [hc]; decide), if_neg (by rw [hc]; decide), if_neg (by rw [hc]; decide), if_neg (by rw [hc]; decide), if_neg (by rw [hc]; decide), if_neg (by rw [hc]; decide), if_neg (by rw [hc]; decide), if_pos hc]

theorem ntaws_lparen (l : Lexer) (hc : l.ch = '(') :
    nextTokenAfterWS l = (newToken LPAREN l.ch, readChar l) := by
  unfold nextTokenAfterWS
  rw [if_neg (by rw [hc]; decide), if_neg (by rw [hc]; decide), if_neg (by rw [hc]; decide), if_neg (by rw [hc]; decide), if_neg (by rw [hc]; decide), if_neg (by rw [hc]; decide), if_neg (by rw [hc]; decide), if_neg (by rw [hc]; decide), if_neg (by rw [hc]; decide), if_pos hc]

theorem ntaws_rparen (l : Lexer) (hc : l.ch = ')') :
    nextTokenAfterWS l = (newToken RPAREN l.ch, readChar l) := by
  unfold nextTokenAfterWS
  rw [if_neg (by rw [hc]; decide), if_neg (by rw [hc]; decide), if_neg (by rw [hc]; decide), if_neg (by rw [hc]; decide), if_neg (by rw [hc]; decide), if_neg (by rw [hc]; decide), if_neg (by rw [hc]; decide), if_neg (by rw [hc]; decide), if_neg (by rw [hc]; decide), if_neg (by rw [hc]; decide), if_pos hc]

theorem ntaws_comma (l : Lexer) (hc : l.ch = ',') :
    nextTokenAfterWS l = (newToken COMMA l.ch, readChar l) := by
  unfold nextTokenAfterWS
  rw [if_neg (by rw [hc]; decide), if_neg (by rw [hc]; decide), if_neg (by rw [hc]; decide), if_neg (by rw [hc]; decide), if_neg (by rw [hc]; decide), if_neg (by rw [hc]; decide), if_neg (by rw [hc]; decide), if_neg (by rw [hc]; decide), if_neg (by rw [hc]; decide), if_neg (by rw [hc]; decide), if_neg (by rw [hc]; decide), if_pos hc]

theorem ntaws_lbrace (l : Lexer) (hc : l.ch = '\x7b') :
    nextTokenAfterWS l = (newToken LBRACE l.ch, readChar l) := by
  unfold nextTokenAfterWS
  rw [if_neg (by rw [hc]; decide), if_neg (by rw [hc]; decide), if_neg (by rw [hc]; decide), if_neg (by rw [hc]; decide), if_neg (by rw [hc]; decide), if_neg (by rw [hc]; decide), if_neg (by rw [hc]; decide), if_neg (by rw [hc]; decide), if_neg (by rw [hc]; decide), if_neg (by rw [hc]; decide), if_neg (by rw [hc]; decide), if_neg (by rw [hc]; decide), if_pos hc]

theorem ntaws_rbrace (l : Lexer) (hc : l.ch = '\x7d') :
    nextTokenAfterWS l = (newToken RBRACE l.ch, readChar l) := by
  unfold nextTokenAfterWS
  rw [if_neg (by rw [hc]; decide), if_neg (by rw [hc]; decide), if_neg (by rw [hc]; decide), if_neg (by rw [hc]; decide), if_neg (by rw [hc]; decide), if_neg (by rw [hc]; decide), if_neg (by rw [hc]; decide), if_neg (by rw [hc]; decide), if_neg (by rw [hc]; decide), if_neg (by rw [hc]; decide), if_neg (by rw [hc]; decide), if_neg (by rw [hc]; decide), if_neg (by rw [hc]; decide), if_pos hc]

theorem ntaws_lbracket (l : Lexer) (hc : l.ch = '[') :
    nextTokenAfterWS l = (newToken LBRACKET l.ch, readChar l) := by
  unfold nextTokenAfterWS
  rw [if_neg (by rw [hc]; decide), if_neg (by rw [hc]; decide), if_neg (by rw [hc]; decide), if_neg (by rw [hc]; decide), if_neg (by rw [hc]; decide), if_neg (by rw [hc]; decide), if_neg (by rw [hc]; decide), if_neg (by rw [hc]; decide), if_neg (by rw [hc]; decide), if_neg (by rw [hc]; decide), if_neg (by rw [hc]; decide), if_neg (by rw [hc]; decide), if_neg (by rw [hc]; decide), if_neg (by rw [hc]; decide), if_pos hc]

theorem ntaws_rbracket (l : Lexer) (hc : l.ch = ']') :
    nextTokenAfterWS l = (newToken RBRACKET l.ch, readChar l) := by
  unfold nextTokenAfterWS
  rw [if_neg (by rw [hc]; decide), if_neg (by rw [hc]; decide), if_neg (by rw [hc]; decide), if_neg (by rw [hc]; decide), if_neg (by rw [hc]; decide), if_neg (by rw [hc]; decide), if_neg (by rw [hc]; decide), if_neg (by rw [hc]; decide), if_neg (by rw [hc]; decide), if_neg (by rw [hc]; decide), if_neg (by rw [hc]; decide), if_neg (by rw [hc]; decide), if_neg (by rw [hc]; decide), if_neg (by rw [hc]; decide), if_neg (by rw [hc]; decide), if_pos hc]

theorem ntaws_stringtok (l : Lexer) (hc : l.ch = '"') :
    nextTokenAfterWS l =
      (⟨STRING, (readString l).1⟩, readChar (readString l).2) := by
  unfold nextTokenAfterWS
  rw [if_neg (by rw [hc]; decide), if_neg (by rw [hc]; decide), if_neg (by rw [hc]; decide), if_neg (by rw [hc]; decide), if_neg (by rw [hc]; decide), if_neg (by rw [hc]; decide), if_neg (by rw [hc]; decide), if_neg (by rw [hc]; decide), if_neg (by rw [hc]; decide), if_neg (by rw [hc]; decide), if_neg (by rw [hc]; decide), if_neg (by rw [hc]; decide), if_neg (by rw [hc]; decide), if_neg (by rw [hc]; decide), if_neg (by rw [hc]; decide), if_neg (by rw [hc]; decide), if_pos hc]

theorem ntaws_eoftok (l : Lexer) (hc : l.ch = nulChar) :
    nextTokenAfterWS l = (⟨EOF, []⟩, readChar l) := by
  unfold nextTokenAfterWS
  rw [if_neg (by rw [hc]; decide), if_neg (by rw [hc]; decide), if_neg (by rw [hc]; decide), if_neg (by rw [hc]; decide), if_neg (by rw [hc]; decide), if_neg (by rw [hc]; decide), if_neg (by rw [hc]; decide), if_neg (by rw [hc]; decide), if_neg (by rw [hc]; decide), if_neg (by rw [hc]; decide), if_neg (by rw [hc]; decide), if_neg (by rw [hc]; decide), if_neg (by rw [hc]; decide), if_neg (by rw [hc]; decide), if_neg (by rw [hc]; decide), if_neg (by rw [hc]; decide), if_neg (by rw [hc]; decide), if_pos hc]

theorem ntaws_identtok (l : Lexer) (hc : isLetter l.ch = true) :
    nextTokenAfterWS l =
      (⟨LookupIdentifier (readIdentifier l).1, (readIdentifier l).1⟩,
        (readIdentifier l).2) := by
  unfold nextTokenAfterWS
  rw [if_neg (by intro h; rw [h] at hc; exact absurd hc (by decide)), if_neg (by intro h; rw [h] at hc; exact absurd hc (by decide)), if_neg (by intro h; rw [h] at hc; exact absurd hc (by decide)), if_neg (by intro h; rw [h] at hc; exact absurd hc (by decide)), if_neg (by intro h; rw [h] at hc; exact absurd hc (by decide)), if_neg (by intro h; rw [h] at hc; exact absurd hc (by decide)), if_neg (by intro h; rw [h] at hc; exact absurd hc (by decide)), if_neg (by intro h; rw [h] at hc; exact absurd hc (by decide)), if_neg (by intro h; rw [h] at hc; exact absurd hc (by decide)), if_neg (by intro h; rw [h] at hc; exact absurd hc (by decide)), if_neg (by intro h; rw [h] at hc; exact absurd hc (by decide)), if_neg (by intro h; rw [h] at hc; exact absurd hc (by decide)), if_neg (by intro h; rw [h] at hc; exact absurd hc (by decide)), if_neg (by intro h; rw [h] at hc; exact absurd hc (by decide)), if_neg (by intro h; rw [h] at hc; exact absurd hc (by decide)), if_neg (by intro h; rw [h] at hc; exact absurd hc (by decide)), if_neg (by intro h; rw [h] at hc; exact absurd hc (by decide)), if_neg (by intro h; rw [h] at hc; exact absurd hc (by decide)), if_pos hc]

theorem ntaws_inttok (l : Lexer) (hc : isDigit l.ch = true) :
    nextTokenAfterWS l = (⟨INT, (readNumber l).1⟩, (readNumber l).2) := by
  unfold nextTokenAfterWS
  rw [if_neg (by intro h; rw [h] at hc; exact absurd hc (by decide)), if_neg (by intro h; rw [h] at hc; exact absurd hc (by decide)), if_neg (by intro h; rw [h] at hc; exact absurd hc (by decide)), if_neg (by intro h; rw [h] at hc; exact absurd hc (by decide)), if_neg (by intro h; rw [h] at hc; exact absurd hc (by decide)), if_neg (by intro h; rw [h] at hc; exact absurd hc (by decide)), if_neg (by intro h; rw [h] at hc; exact absurd hc (by decide)), if_neg (by intro h; rw [h] at hc; exact absurd hc (by decide)), if_neg (by intro h; rw [h] at hc; exact absurd hc (by decide)), if_neg (by intro h; rw [h] at hc; exact absurd hc (by decide)), if_neg (by intro h; rw [h] at hc; exact absurd hc (by decide)), if_neg (by intro h; rw [h] at hc; exact absurd hc (by decide)), if_neg (by intro h; rw [h] at hc; exact absurd hc (by decide)), if_neg (by intro h; rw [h] at hc; exact absurd hc (by decide)), if_neg (by intro h; rw [h] at hc; exact absurd hc (by decide)), if_neg (by intro h; rw [h] at hc; exact absurd hc (by decide)), if_neg (by intro h; rw [h] at hc; exact absurd hc (by decide)), if_neg (by intro h; rw [h] at hc; exact absurd hc (by decide)), if_neg (by
    rw [not_isLetter_of_isDigit l.ch hc]
    decide), if_pos hc]

theorem ntaws_illegaltok (l : Lexer)
    (hns : l.ch ∉ (['=', '!', '+', '-', '/', '*', '<', '>', ';', '(', ')', ',', '\x7b', '\x7d', '[', ']', '\"', nulChar] : List Char))
    (hl : isLetter l.ch = false) (hd : isDigit l.ch = false) :
    nextTokenAfterWS l = (newToken ILLEGAL l.ch, readChar l) := by
  unfold nextTokenAfterWS
  rw [if_neg (by intro h; exact hns (by rw [h]; decide)), if_neg (by intro h; exact hns (by rw [h]; decide)), if_neg (by intro h; exact hns (by rw [h]; decide)), if_neg (by intro h; exact hns (by rw [h]; decide)), if_neg (by intro h; exact hns (by rw [h]; decide)), if_neg (by intro h; exact hns (by rw [h]; decide)), if_neg (by intro h; exact hns (by rw [h]; decide)), if_neg (by intro h; exact hns (by rw [h]; decide)), if_neg (by intro h; exact hns (by rw [h]; decide)), if_neg (by intro h; exact hns (by rw [h]; decide)), if_neg (by intro h; exact hns (by rw [h]; decide)), if_neg (by intro h; exact hns (by rw [h]; decide)), if_neg (by intro h; exact hns (by rw [h]; decide)), if_neg (by intro h; exact hns (by rw [h]; decide)), if_neg (by intro h; exact hns (by rw [h]; decide)), if_neg (by intro h; exact hns (by rw [h]; decide)), if_neg (by intro h; exact hns (by rw [h]; decide)), if_neg (by intro h; exact hns (by rw [h]; decide)), if_neg (by rw [hl]; decide), if_neg (by rw [hd]; decide)]

/-- The per-step contract of `NextToken`'s dispatch: the invariant is
maintained, the input is untouched, and the read position strictly
increases (every branch consumes at least one byte — the EOF branch's
`readChar` included). -/
def StepOK (l : Lexer) (tl : Token × Lexer) : Prop :=
  LexInv tl.2 ∧ tl.2.input = l.input ∧ l.readPosition < tl.2.readPosition

theorem stepOK_readChar (l : Lexer) (t : Token) : StepOK l (t, readChar l) := by
  refine ⟨readChar_inv _, rfl, ?_⟩
  simp only [readChar_rp]
  omega

theorem stepOK_readChar2 (l : Lexer) (t : Token) :
    StepOK l (t, readChar (readChar l)) := by
  refine ⟨readChar_inv _, rfl, ?_⟩
  simp only [readChar_rp]
  omega

theorem stepOK_string (l : Lexer) (h1 : LexInv l) :
    StepOK l (⟨STRING, (readString l).1⟩, readChar (readString l).2) := by
  obtain ⟨s1, s2, s3, s4⟩ :=
    readStringGo_spec (l.input.length + 1 - l.position) l h1
  refine ⟨readChar_inv _, ?_, ?_⟩
  · show (readStringGo (l.input.length + 1 - l.position) l).input = l.input
    exact s2
  · show l.readPosition <
      (readChar (readStringGo (l.input.length + 1 - l.position) l)).readPosition
    rw [readChar_rp]
    omega

theorem stepOK_ident (l : Lexer) (h1 : LexInv l) (hc : isLetter l.ch = true) :
    StepOK l (⟨LookupIdentifier (readIdentifier l).1, (readIdentifier l).1⟩,
      (readIdentifier l).2) := by
  have hlt : l.position < l.input.length :=
    pos_lt_of_ch_ne_nul l h1 (by
      intro hn
      rw [hn] at hc
      exact absurd hc (by decide))
  obtain ⟨m, hm⟩ : ∃ m, l.input.length + 1 - l.position = m + 1 :=
    ⟨l.input.length - l.position, by omega⟩
  have hstep : (readIdentifier l).2 = readIdentGo m (readChar l) := by
    show readIdentGo (l.input.length + 1 - l.position) l = _
    rw [hm]
    simp [readIdentGo, hc]
  obtain ⟨s1, s2, s3, s4⟩ := readIdentGo_spec m (readChar l) (readChar_inv l)
  have e : (readChar l).readPosition = l.readPosition + 1 := rfl
  refine ⟨?_, ?_, ?_⟩
  · show LexInv (readIdentifier l).2
    rw [hstep]
    exact s1
  · show ((readIdentifier l).2).input = l.input
    rw [hstep]
    exact s2
  · show l.readPosition < ((readIdentifier l).2).readPosition
    rw [hstep]
    omega

theorem stepOK_int (l : Lexer) (h1 : LexInv l) (hc : isDigit l.ch = true) :
    StepOK l (⟨INT, (readNumber l).1⟩, (readNumber l).2) := by
  have hlt : l.position < l.input.length :=
    pos_lt_of_ch_ne_nul l h1 (by
      intro hn
      rw [hn] at hc
      exact absurd hc (by decide))
  obtain ⟨m, hm⟩ : ∃ m, l.input.length + 1 - l.position = m + 1 :=
    ⟨l.input.length - l.position, by omega⟩
  have hstep : (readNumber l).2 = readNumberGo m (readChar l) := by
    show readNumberGo (l.input.length + 1 - l.position) l = _
    rw [hm]
    simp [readNumberGo, hc]
  obtain ⟨s1, s2, s3, s4⟩ := readNumberGo_spec m (readChar l) (readChar_inv l)
  have e : (readChar l).readPosition = l.readPosition + 1 := rfl
  refine ⟨?_, ?_, ?_⟩
  · show LexInv (readNumber l).2
    rw [hstep]
    exact s1
  · show ((readNumber l).2).input = l.input
    rw [hstep]
    exact s2
  · show l.readPosition < ((readNumber l).2).readPosition
    rw [hstep]
    omega

/-- Case analysis over the dispatch: every branch satisfies `StepOK`. -/
theorem nextTokenAfterWS_step (l : Lexer) (h1 : LexInv l) :
    StepOK l (nextTokenAfterWS l) := by
  by_cases c1 : l.ch = '='
  · by_cases p : peekChar l = '='
    · rw [ntaws_eqtok l c1 p]
      exact stepOK_readChar2 l _
    · rw [ntaws_assign l c1 p]
      exact stepOK_readChar l _
  · by_cases c2 : l.ch = '!'
    · by_cases p : peekChar l = '='
      · rw [ntaws_noteqtok l c2 p]
        exact stepOK_readChar2 l _
      · rw [ntaws_bang l c2 p]
        exact stepOK_readChar l _
    · by_cases c3 : l.ch = '+'
      · rw [ntaws_plus l c3]
        exact stepOK_readChar l _
      · by_cases c4 : l.ch = '-'
        · rw [ntaws_minus l c4]
          exact stepOK_readChar l _
        · by_cases c5 : l.ch = '/'
          · rw [ntaws_slash l c5]
            exact stepOK_readChar l _
          · by_cases c6 : l.ch = '*'
            · rw [ntaws_asterisk l c6]
              exact stepOK_readChar l _
            · by_cases c7 : l.ch = '<'
              · rw [ntaws_lt l c7]
                exact stepOK_readChar l _
              · by_cases c8 : l.ch = '>'
                · rw [ntaws_gt l c8]
                  exact stepOK_readChar l _
                · by_cases c9 : l.ch = ';'
                  · rw [ntaws_semicolon l c9]
                    exact stepOK_readChar l _
                  · by_cases c10 : l.ch = '('
                    · rw [ntaws_lparen l c10]
                      exact stepOK_readChar l _
                    · by_cases c11 : l.ch = ')'
                      · rw [ntaws_rparen l c11]
                        exact stepOK_readChar l _
                      · by_cases c12 : l.ch = ','
                        · rw [ntaws_comma l c12]
                          exact stepOK_readChar l _
                        · by_cases c13 : l.ch = '\x7b'
                          · rw [ntaws_lbrace l c13]
                            exact stepOK_readChar l _
                          · by_cases c14 : l.ch = '\x7d'
                            · rw [ntaws_rbrace l c14]
                              exact stepOK_readChar l _
                            · by_cases c15 : l.ch = '['
                              · rw [ntaws_lbracket l c15]
                                exact stepOK_readChar l _
                              · by_cases c16 : l.ch = ']'
                                · rw [ntaws_rbracket l c16]
                                  exact stepOK_readChar l _
                                · by_cases c17 : l.ch = '"'
                                  · rw [ntaws_stringtok l c17]
                                    exact stepOK_string l h1
                                  · by_cases c18 : l.ch = nulChar
                                    · rw [ntaws_eoftok l c18]
                                      exact stepOK_readChar l _
                                    · by_cases c19 : isLetter l.ch = true
                                      · rw [ntaws_identtok l c19]
                                        exact stepOK_ident l h1 c19
                                      · by_cases c20 : isDigit l.ch = true
                                        · rw [ntaws_inttok l c20]
                                          exact stepOK_int l h1 c20
                                        · rw [ntaws_illegaltok l (by simp [c1, c2, c3, c4, c5, c6, c7, c8, c9, c10, c11, c12, c13, c14, c15, c16, c17, c18])
                                              (by simpa using c19) (by simpa using c20)]
                                          exact stepOK_readChar l _

/-- One full `NextToken` call from an invariant state: invariant kept,
input untouched, read position strictly increased. -/
theorem nextToken_step (l0 : Lexer) (h : LexInv l0) :
    LexInv (nextToken l0).2 ∧ (nextToken l0).2.input = l0.input ∧
    l0.readPosition < (nextToken l0).2.readPosition := by
  obtain ⟨h1, h2, h3, h4⟩ := skipWhitespace_spec l0 h
  obtain ⟨a1, a2, a3⟩ := nextTokenAfterWS_step (skipWhitespace l0) h1
  show LexInv (nextTokenAfterWS (skipWhitespace l0)).2 ∧
    (nextTokenAfterWS (skipWhitespace l0)).2.input = l0.input ∧
    l0.readPosition < (nextTokenAfterWS (skipWhitespace l0)).2.readPosition
  exact ⟨a1, a2.trans h2, by omega⟩

/-- With the cursor at or beyond the end of the input, `NextToken` returns
the `EOF` token. -/
theorem nextToken_eof_of_end (l : Lexer) (h : LexInv l)
    (hend : l.input.length ≤ l.position) : (nextToken l).1.typ = EOF := by
  have hch : l.ch = nulChar := h.2.trans (List.getD_eq_default _ _ hend)
  have hskip : skipWhitespace l = l := by
    show skipWSGo (l.input.length + 1 - l.position) l = l
    cases hfuel : l.input.length + 1 - l.position with
    | zero => rfl
    | succ m =>
      show (if isWS l.ch then skipWSGo m (readChar l) else l) = l
      rw [hch, if_neg (by decide)]
  show (nextTokenAfterWS (skipWhitespace l)).1.typ = EOF
  rw [hskip, ntaws_eoftok l hch]

/-- The lexer state after `k` further `NextToken` calls. -/
def lexIter : Nat → Lexer → Lexer
  | 0, l => l
  | k + 1, l => lexIter k (nextToken l).2

/-- Iterating `NextToken` keeps the invariant and the input and advances
the read position by at least one per call. -/
theorem lexIter_spec : ∀ (k : Nat) (l : Lexer), LexInv l →
    LexInv (lexIter k l) ∧ (lexIter k l).input = l.input ∧
    l.readPosition + k ≤ (lexIter k l).readPosition := by
  intro k
  induction k with
  | zero =>
    intro l h
    refine ⟨h, rfl, ?_⟩
    show l.readPosition + 0 ≤ l.readPosition
    omega
  | succ k ih =>
    intro l h
    obtain ⟨a1, a2, a3⟩ := nextToken_step l h
    obtain ⟨i1, i2, i3⟩ := ih (nextToken l).2 a1
    refine ⟨i1, i2.trans a2, ?_⟩
    show l.readPosition + (k + 1) ≤ (lexIter k (nextToken l).2).readPosition
    omega

/-- C9: from any reachable lexer state, `NextToken` either returns `Eof`
or strictly increases the read position, and the read position never
decreases (in fact it always strictly increases); consequently, starting
from `New(input)`, every call past the first `len(input)` calls — in
particular the `(len(input)+1)`-st — returns the `Eof` token, so only
finitely many non-Eof tokens are produced. -/
theorem c9_nextToken_progress_and_eof_bound :
    (∀ l : Lexer, LexInv l →
      ((nextToken l).1.typ = EOF ∨
        l.readPosition < (nextToken l).2.readPosition) ∧
      l.readPosition ≤ (nextToken l).2.readPosition ∧
      LexInv (nextToken l).2 ∧ (nextToken l).2.input = l.input) ∧
    (∀ (s : Str) (k : Nat), s.length ≤ k →
      (nextToken (lexIter k (lexerNew s))).1.typ = EOF) := by
  constructor
  · intro l h
    obtain ⟨a1, a2, a3⟩ := nextToken_step l h
    exact ⟨Or.inr a3, Nat.le_of_lt a3, a1, a2⟩
  · intro s k hk
    obtain ⟨i1, i2, i3⟩ := lexIter_spec k (lexerNew s) (lexerNew_inv s)
    apply nextToken_eof_of_end _ i1
    have hrp : (lexIter k (lexerNew s)).readPosition =
        (lexIter k (lexerNew s)).position + 1 := i1.1
    have hin : (lexIter k (lexerNew s)).input = s := i2
    rw [hin]
    have h1 : (lexerNew s).readPosition = 1 := rfl
    omega

/-- Witness for C9 at the concrete input `ab`: the first call from the
initial state advances, and the third call (index 2 = length) is `Eof`. -/
theorem c9_progress_witness :
    (((nextToken (lexerNew ("ab".data))).1.typ = EOF ∨
       (lexerNew ("ab".data)).readPosition <
         (nextToken (lexerNew ("ab".data))).2.readPosition) ∧
     (lexerNew ("ab".data)).readPosition ≤
       (nextToken (lexerNew ("ab".data))).2.readPosition ∧
     LexInv (nextToken (lexerNew ("ab".data))).2 ∧
     (nextToken (lexerNew ("ab".data))).2.input = (lexerNew ("ab".data)).input) ∧
    (nextToken (lexIter 2 (lexerNew ("ab".data)))).1.typ = EOF :=
  ⟨c9_nextToken_progress_and_eof_bound.1 (lexerNew ("ab".data)) (by
      constructor <;> decide),
   c9_nextToken_progress_and_eof_bound.2 ("ab".data) 2 (by decide)⟩

/-! ## C7 -/

/-- `getD` is the default-valued head of the dropped suffix. -/
theorem getD_eq_headD_drop (xs : List Char) (k : Nat) (d : Char) :
    xs.getD k d = (xs.drop k).headD d := by
  induction xs generalizing k with
  | nil => simp [List.getD]
  | cons x xs ih =>
    cases k with
    | zero => simp [List.getD]
    | succ k => simpa [List.getD] using ih k

/-- Taking as many elements as `takeWhile` keeps gives `takeWhile`. -/
theorem take_takeWhile_length (p : Char → Bool) (r : List Char) :
    r.take ((r.takeWhile p).length) = r.takeWhile p := by
  induction r with
  | nil => rfl
  | cons c cs ih =>
    by_cases hp : p c
    · simp [List.takeWhile, hp, ih]
    · simp [List.takeWhile, hp]

/-- `takeWhile` only depends on the predicate's values on the list. -/
theorem takeWhile_congr_mem (p q : Char → Bool) (r : List Char)
    (h : ∀ c ∈ r, p c = q c) : r.takeWhile p = r.takeWhile q := by
  induction r with
  | nil => rfl
  | cons c cs ih =>
    have hc := h c (List.mem_cons_self c cs)
    by_cases hp : p c
    · rw [List.takeWhile_cons, List.takeWhile_cons, hp, ← hc, hp,
        ih (fun x hx => h x (List.mem_cons_of_mem c hx))]
    · have hp' : p c = false := by simpa using hp
      rw [List.takeWhile_cons, List.takeWhile_cons, hp', ← hc, hp']
      simp

/-- `takeWhile` keeps everything when the predicate holds throughout. -/
theorem takeWhile_of_all (p : Char → Bool) (r : List Char)
    (h : ∀ c ∈ r, p c = true) : r.takeWhile p = r := by
  induction r with
  | nil => rfl
  | cons c cs ih =>
    rw [List.takeWhile_cons, h c (List.mem_cons_self c cs),
      ih (fun x hx => h x (List.mem_cons_of_mem c hx))]
    rw [if_pos rfl]

/-- `skipWhitespace` is the identity when the current byte is not
whitespace. -/
theorem skipWhitespace_id (l : Lexer) (h : isWS l.ch = false) :
    skipWhitespace l = l := by
  show skipWSGo (l.input.length + 1 - l.position) l = l
  cases hf : l.input.length + 1 - l.position with
  | zero => rfl
  | succ m =>
    show (if isWS l.ch then skipWSGo m (readChar l) else l) = l
    rw [if_neg (by rw [h]; decide)]

/-- The `readString` loop: under the invariant, the cursor ends one past
the quote plus the run of bytes that are neither `"` nor NUL. -/
theorem readStringGo_pos : ∀ (n : Nat) (l : Lexer), LexInv l →
    l.position < l.input.length → n = l.input.length + 1 - l.position →
    (readStringGo n l).position = l.position + 1 +
      ((l.input.drop (l.position + 1)).takeWhile
        (fun c => !(c = '"') && !(c = nulChar))).length ∧
    LexInv (readStringGo n l) ∧ (readStringGo n l).input = l.input := by
  intro n
  induction n with
  | zero =>
    intro l _ hlt hn
    omega
  | succ n ih =>
    intro l h hlt hn
    have hch' : (readChar l).ch = (l.input.drop (l.position + 1)).headD nulChar := by
      have hinv := readChar_inv l
      have : (readChar l).ch = l.input.getD (l.position + 1) nulChar := by
        have e : (readChar l).position = l.readPosition := rfl
        rw [hinv.2, e, h.1, readChar_input]
      rw [this, getD_eq_headD_drop]
    have hpos' : (readChar l).position = l.position + 1 := by
      have e : (readChar l).position = l.readPosition := rfl
      rw [e, h.1]
    cases hr : l.input.drop (l.position + 1) with
    | nil =>
      have hstop : (readChar l).ch = '"' ∨ (readChar l).ch = nulChar := by
        right
        rw [hch', hr]
        rfl
      have : readStringGo (n + 1) l = readChar l := by
        show (if (readChar l).ch = '"' ∨ (readChar l).ch = nulChar
              then readChar l else readStringGo n (readChar l)) = _
        rw [if_pos hstop]
      rw [this]
      exact ⟨by rw [hpos']; rfl, readChar_inv l, rfl⟩
    | cons c r' =>
      have hchc : (readChar l).ch = c := by rw [hch', hr]; rfl
      by_cases hstop : c = '"' ∨ c = nulChar
      · have : readStringGo (n + 1) l = readChar l := by
          show (if (readChar l).ch = '"' ∨ (readChar l).ch = nulChar
                then readChar l else readStringGo n (readChar l)) = _
          rw [if_pos (by rw [hchc]; exact hstop)]
        rw [this]
        have hpc : (!(c = '"') && !(c = nulChar)) = false := by
          rcases hstop with h' | h' <;> simp [h']
        rw [List.takeWhile_cons, hpc]
        exact ⟨by rw [hpos']; rfl, readChar_inv l, rfl⟩
      · push_neg at hstop
        have hne : ¬ ((readChar l).ch = '"' ∨ (readChar l).ch = nulChar) := by
          rw [hchc]
          push_neg
          exact hstop
        have hstep : readStringGo (n + 1) l = readStringGo n (readChar l) := by
          show (if (readChar l).ch = '"' ∨ (readChar l).ch = nulChar
                then readChar l else readStringGo n (readChar l)) = _
          rw [if_neg hne]
        have hlen : l.position + 1 < l.input.length := by
          have := congrArg List.length hr
          rw [List.length_drop] at this
          simp at this
          omega
        obtain ⟨p1, p2, p3⟩ := ih (readChar l) (readChar_inv l)
          (by rw [hpos', readChar_input]; exact hlen)
          (by rw [hpos', readChar_input]; omega)
        rw [hstep]
        have hdrop : (readChar l).input.drop ((readChar l).position + 1) = r' := by
          rw [readChar_input, hpos']
          have : l.input.drop (l.position + 1 + 1) =
              (l.input.drop (l.position + 1)).drop 1 := by
            rw [List.drop_drop]
          rw [this, hr]
          rfl
        rw [hdrop] at p1
        have hpc : (!(c = '"') && !(c = nulChar)) = true := by
          simp [hstop.1, hstop.2]
        rw [List.takeWhile_cons, hpc, if_pos rfl]
        rw [hpos'] at p1
        refine ⟨?_, p2, p3.trans (readChar_input l)⟩
        rw [p1, List.length_cons]
        omega

/-- C7 (amended): at an opening quote not followed by a closing quote
before end of input, `NextToken` returns a `String` token (`STRING`, not
`ILLEGAL`) whose literal is the text from just after the opening quote up
to the first NUL byte or end of input, whichever comes first; in
particular it is exactly the whole remaining text whenever that text
contains no NUL byte. -/
theorem c7_unterminated_string_runs_to_end (l : Lexer) (h : LexInv l)
    (hq : l.ch = '"')
    (hnoq : ∀ c ∈ l.input.drop (l.position + 1), c ≠ '"') :
    (nextToken l).1.typ = STRING ∧ STRING ≠ ILLEGAL ∧
    (nextToken l).1.literal =
      (l.input.drop (l.position + 1)).takeWhile (fun c => !(c = nulChar)) ∧
    ((∀ c ∈ l.input.drop (l.position + 1), c ≠ nulChar) →
      (nextToken l).1.literal = l.input.drop (l.position + 1)) := by
  have hlt : l.position < l.input.length :=
    pos_lt_of_ch_ne_nul l h (by rw [hq]; decide)
  have hskip : skipWhitespace l = l := skipWhitespace_id l (by rw [hq]; decide)
  have hnt : nextToken l = (⟨STRING, (readString l).1⟩,
      readChar (readString l).2) := by
    show nextTokenAfterWS (skipWhitespace l) = _
    rw [hskip, ntaws_stringtok l hq]
  obtain ⟨pp, pinv, pin⟩ :=
    readStringGo_pos (l.input.length + 1 - l.position) l h hlt rfl
  have hlit : (readString l).1 =
      (l.input.drop (l.position + 1)).takeWhile
        (fun c => !(c = '"') && !(c = nulChar)) := by
    show (l.input.drop (l.position + 1)).take
        ((readStringGo (l.input.length + 1 - l.position) l).position
          - (l.position + 1)) = _
    rw [pp, Nat.add_sub_cancel_left]
    exact take_takeWhile_length _ _
  have hcong : (l.input.drop (l.position + 1)).takeWhile
      (fun c => !(c = '"') && !(c = nulChar)) =
      (l.input.drop (l.position + 1)).takeWhile (fun c => !(c = nulChar)) :=
    takeWhile_congr_mem _ _ _ (fun c hc => by simp [hnoq c hc])
  refine ⟨by rw [hnt], by decide, ?_, ?_⟩
  · rw [hnt]
    show (readString l).1 = _
    rw [hlit, hcong]
  · intro hnonul
    rw [hnt]
    show (readString l).1 = _
    rw [hlit, hcong]
    exact takeWhile_of_all _ _ (fun c hc => by simp [hnonul c hc])

/-- Witness for C7 at the concrete input `"ab` (opening quote, no closing
quote, no NUL). -/
theorem c7_unterminated_string_witness :
    (nextToken (lexerNew ("\"ab".data))).1.typ = STRING ∧ STRING ≠ ILLEGAL ∧
    (nextToken (lexerNew ("\"ab".data))).1.literal =
      ((lexerNew ("\"ab".data)).input.drop
        ((lexerNew ("\"ab".data)).position + 1)).takeWhile
          (fun c => !(c = nulChar)) ∧
    ((∀ c ∈ (lexerNew ("\"ab".data)).input.drop
        ((lexerNew ("\"ab".data)).position + 1), c ≠ nulChar) →
      (nextToken (lexerNew ("\"ab".data))).1.literal =
        (lexerNew ("\"ab".data)).input.drop
          ((lexerNew ("\"ab".data)).position + 1)) :=
  c7_unterminated_string_runs_to_end (lexerNew ("\"ab".data))
    (lexerNew_inv _) (by decide) (by decide)

/-- Counterexample for C7 as stated: with a NUL byte inside the
unterminated string, the literal stops at the NUL rather than running to
end of input. -/
theorem c7_counterexample_nul_stops_literal :
    (nextToken (lexerNew ['"', 'a', nulChar, 'b'])).1 =
      (⟨STRING, ['a']⟩ : Token) ∧
    (['a'] : Str) ≠ ['a', nulChar, 'b'] := by
  constructor
  · decide
  · decide

/-! ## C6 -/

/-- Concatenation of the `Literal` fields of a token list. -/
def concatLits (ts : List Token) : Str :=
  ts.foldr (fun t acc => t.literal ++ acc) []

theorem concatLits_cons (t : Token) (ts : List Token) :
    concatLits (t :: ts) = t.literal ++ concatLits ts := rfl

/-- One-step equation for `lexRun`, in projection form. -/
theorem lexRun_succ (n : Nat) (l : Lexer) :
    lexRun (n + 1) l =
      if (nextToken l).1.typ = EOF then []
      else (nextToken l).1 :: lexRun n (nextToken l).2 := rfl

/-- Dropping the `takeWhile` prefix gives `dropWhile`. -/
theorem drop_takeWhile_length (p : Char → Bool) (r : List Char) :
    r.drop ((r.takeWhile p).length) = r.dropWhile p := by
  induction r with
  | nil => rfl
  | cons c cs ih =>
    cases hp : p c with
    | true =>
      rw [List.takeWhile_cons, hp, if_pos rfl, List.length_cons,
        List.drop_succ_cons, List.dropWhile_cons, hp, if_pos rfl]
      exact ih
    | false =>
      rw [List.takeWhile_cons, hp, if_neg (by simp), List.dropWhile_cons, hp,
        if_neg (by simp)]
      rfl

/-- The head of a `dropWhile` result fails the predicate. -/
theorem dropWhile_head_false (p : Char → Bool) : ∀ (r : List Char) (c : Char)
    (rest : List Char), r.dropWhile p = c :: rest → p c = false := by
  intro r
  induction r with
  | nil => intro c rest hcr; exact absurd hcr (by simp)
  | cons x xs ih =>
    intro c rest hcr
    cases hp : p x with
    | true =>
      rw [List.dropWhile_cons, hp, if_pos rfl] at hcr
      exact ih c rest hcr
    | false =>
      rw [List.dropWhile_cons, hp, if_neg (by simp)] at hcr
      injection hcr with h1 h2
      rw [← h1]
      exact hp

/-- A letter is never one of the four whitespace bytes. -/
theorem not_isWS_of_isLetter (c : Char) (h : isLetter c = true) :
    isWS c = false := by
  cases hw : isWS c with
  | false => rfl
  | true =>
    exfalso
    simp only [isWS, Bool.or_eq_true, decide_eq_true_eq] at hw
    rcases hw with ((h1 | h1) | h1) | h1 <;> rw [h1] at h <;>
      exact absurd h (by decide)

/-- A digit is never one of the four whitespace bytes. -/
theorem not_isWS_of_isDigit (c : Char) (h : isDigit c = true) :
    isWS c = false := by
  cases hw : isWS c with
  | false => rfl
  | true =>
    exfalso
    simp only [isWS, Bool.or_eq_true, decide_eq_true_eq] at hw
    rcases hw with ((h1 | h1) | h1) | h1 <;> rw [h1] at h <;>
      exact absurd h (by decide)

/-- The `skipWhitespace` loop advances the cursor over exactly the leading
whitespace run. -/
theorem skipWSGo_pos : ∀ (n : Nat) (l : Lexer), LexInv l →
    n = l.input.length + 1 - l.position →
    (skipWSGo n l).position =
      l.position + ((l.input.drop l.position).takeWhile isWS).length := by
  intro n
  induction n with
  | zero =>
    intro l _ hn
    have hdrop : l.input.drop l.position = [] :=
      List.drop_eq_nil_of_le (by omega)
    show l.position =
      l.position + ((l.input.drop l.position).takeWhile isWS).length
    rw [hdrop]
    rfl
  | succ n ih =>
    intro l h hn
    have hch : l.ch = (l.input.drop l.position).headD nulChar := by
      rw [h.2, getD_eq_headD_drop]
    cases hr : l.input.drop l.position with
    | nil =>
      have hch0 : l.ch = nulChar := by rw [hch, hr]; rfl
      have hstop : skipWSGo (n + 1) l = l := by
        show (if isWS l.ch then skipWSGo n (readChar l) else l) = l
        rw [hch0, if_neg (by decide)]
      rw [hstop]
      rfl
    | cons c rest =>
      have hchc : l.ch = c := by rw [hch, hr]; rfl
      have hlt : l.position < l.input.length := by
        have hlen := congrArg List.length hr
        rw [List.length_drop] at hlen
        simp at hlen
        omega
      cases hw : isWS c with
      | false =>
        have hstop : skipWSGo (n + 1) l = l := by
          show (if isWS l.ch then skipWSGo n (readChar l) else l) = l
          rw [hchc, hw, if_neg (by simp)]
        rw [hstop, List.takeWhile_cons, hw, if_neg (by simp)]
        rfl
      | true =>
        have hstep : skipWSGo (n + 1) l = skipWSGo n (readChar l) := by
          show (if isWS l.ch then skipWSGo n (readChar l) else l) = _
          rw [hchc, hw, if_pos rfl]
        have hpos' : (readChar l).position = l.position + 1 := by
          have e : (readChar l).position = l.readPosition := rfl
          rw [e, h.1]
        have hdrop' : (readChar l).input.drop ((readChar l).position) = rest := by
          rw [readChar_input, hpos']
          have h2 : l.input.drop (l.position + 1) =
              (l.input.drop l.position).drop 1 := by
            rw [List.drop_drop]
          rw [h2, hr]
          rfl
        have hIH := ih (readChar l) (readChar_inv l)
          (by rw [readChar_input, hpos']; omega)
        rw [hstep, hIH, hdrop', hpos', List.takeWhile_cons, hw, if_pos rfl,
          List.length_cons]
        omega

/-- The `readIdentifier` loop advances the cursor over exactly the leading
letter run. -/
theorem readIdentGo_pos : ∀ (n : Nat) (l : Lexer), LexInv l →
    n = l.input.length + 1 - l.position →
    (readIdentGo n l).position =
      l.position + ((l.input.drop l.position).takeWhile isLetter).length := by
  intro n
  induction n with
  | zero =>
    intro l _ hn
    have hdrop : l.input.drop l.position = [] :=
      List.drop_eq_nil_of_le (by omega)
    show l.position =
      l.position + ((l.input.drop l.position).takeWhile isLetter).length
    rw [hdrop]
    rfl
  | succ n ih =>
    intro l h hn
    have hch : l.ch = (l.input.drop l.position).headD nulChar := by
      rw [h.2, getD_eq_headD_drop]
    cases hr : l.input.drop l.position with
    | nil =>
      have hch0 : l.ch = nulChar := by rw [hch, hr]; rfl
      have hstop : readIdentGo (n + 1) l = l := by
        show (if isLetter l.ch then readIdentGo n (readChar l) else l) = l
        rw [hch0, if_neg (by decide)]
      rw [hstop]
      rfl
    | cons c rest =>
      have hchc : l.ch = c := by rw [hch, hr]; rfl
      have hlt : l.position < l.input.length := by
        have hlen := congrArg List.length hr
        rw [List.length_drop] at hlen
        simp at hlen
        omega
      cases hw : isLetter c with
      | false =>
        have hstop : readIdentGo (n + 1) l = l := by
          show (if isLetter l.ch then readIdentGo n (readChar l) else l) = l
          rw [hchc, hw, if_neg (by simp)]
        rw [hstop, List.takeWhile_cons, hw, if_neg (by simp)]
        rfl
      | true =>
        have hstep : readIdentGo (n + 1) l = readIdentGo n (readChar l) := by
          show (if isLetter l.ch then readIdentGo n (readChar l) else l) = _
          rw [hchc, hw, if_pos rfl]
        have hpos' : (readChar l).position = l.position + 1 := by
          have e : (readChar l).position = l.readPosition := rfl
          rw [e, h.1]
        have hdrop' : (readChar l).input.drop ((readChar l).position) = rest := by
          rw [readChar_input, hpos']
          have h2 : l.input.drop (l.position + 1) =
              (l.input.drop l.position).drop 1 := by
            rw [List.drop_drop]
          rw [h2, hr]
          rfl
        have hIH := ih (readChar l) (readChar_inv l)
          (by rw [readChar_input, hpos']; omega)
        rw [hstep, hIH, hdrop', hpos', List.takeWhile_cons, hw, if_pos rfl,
          List.length_cons]
        omega

/-- The `readNumber` loop advances the cursor over exactly the leading
digit run. -/
theorem readNumberGo_pos : ∀ (n : Nat) (l : Lexer), LexInv l →
    n = l.input.length + 1 - l.position →
    (readNumberGo n l).position =
      l.position + ((l.input.drop l.position).takeWhile isDigit).length := by
  intro n
  induction n with
  | zero =>
    intro l _ hn
    have hdrop : l.input.drop l.position = [] :=
      List.drop_eq_nil_of_le (by omega)
    show l.position =
      l.position + ((l.input.drop l.position).takeWhile isDigit).length
    rw [hdrop]
    rfl
  | succ n ih =>
    intro l h hn
    have hch : l.ch = (l.input.drop l.position).headD nulChar := by
      rw [h.2, getD_eq_headD_drop]
    cases hr : l.input.drop l.position with
    | nil =>
      have hch0 : l.ch = nulChar := by rw [hch, hr]; rfl
      have hstop : readNumberGo (n + 1) l = l := by
        show (if isDigit l.ch then readNumberGo n (readChar l) else l) = l
        rw [hch0, if_neg (by decide)]
      rw [hstop]
      rfl
    | cons c rest =>
      have hchc : l.ch = c := by rw [hch, hr]; rfl
      have hlt : l.position < l.input.length := by
        have hlen := congrArg List.length hr
        rw [List.length_drop] at hlen
        simp at hlen
        omega
      cases hw : isDigit c with
      | false =>
        have hstop : readNumberGo (n + 1) l = l := by
          show (if isDigit l.ch then readNumberGo n (readChar l) else l) = l
          rw [hchc, hw, if_neg (by simp)]
        rw [hstop, List.takeWhile_cons, hw, if_neg (by simp)]
        rfl
      | true =>
        have hstep : readNumberGo (n + 1) l = readNumberGo n (readChar l) := by
          show (if isDigit l.ch then readNumberGo n (readChar l) else l) = _
          rw [hchc, hw, if_pos rfl]
        have hpos' : (readChar l).position = l.position + 1 := by
          have e : (readChar l).position = l.readPosition := rfl
          rw [e, h.1]
        have hdrop' : (readChar l).input.drop ((readChar l).position) = rest := by
          rw [readChar_input, hpos']
          have h2 : l.input.drop (l.position + 1) =
              (l.input.drop l.position).drop 1 := by
            rw [List.drop_drop]
          rw [h2, hr]
          rfl
        have hIH := ih (readChar l) (readChar_inv l)
          (by rw [readChar_input, hpos']; omega)
        rw [hstep, hIH, hdrop', hpos', List.takeWhile_cons, hw, if_pos rfl,
          List.length_cons]
        omega

/-- `peekChar` as a `getD` (out of range, both give NUL). -/
theorem peekChar_eq_getD (l : Lexer) :
    peekChar l = l.input.getD l.readPosition nulChar := by
  unfold peekChar
  by_cases h : l.input.length ≤ l.readPosition
  · rw [if_pos h, List.getD_eq_default _ _ h]
  · rw [if_neg h]

/-- After `skipWhitespace`, the remaining input is the `dropWhile` of the
whitespace predicate. -/
theorem skipWhitespace_drop (l : Lexer) (h : LexInv l) :
    (skipWhitespace l).input.drop ((skipWhitespace l).position) =
      (l.input.drop l.position).dropWhile isWS := by
  obtain ⟨_, hin, _, _⟩ := skipWhitespace_spec l h
  have hp : (skipWhitespace l).position =
      l.position + ((l.input.drop l.position).takeWhile isWS).length :=
    skipWSGo_pos (l.input.length + 1 - l.position) l h rfl
  rw [hin, hp, ← drop_takeWhile_length isWS (l.input.drop l.position),
    List.drop_drop]

/-- `filter` for non-whitespace ignores a whitespace prefix. -/
theorem filter_nonWS_dropWhile (r : List Char) :
    r.filter (fun x => !(isWS x)) =
      (r.dropWhile isWS).filter (fun x => !(isWS x)) := by
  induction r with
  | nil => rfl
  | cons c cs ih =>
    cases hw : isWS c with
    | true => simp [List.filter_cons, List.dropWhile_cons, hw, ih]
    | false => simp [List.filter_cons, List.dropWhile_cons, hw]

/-- `filter` keeps everything when the predicate holds throughout. -/
theorem filter_eq_self_of_all (p : Char → Bool) (r : List Char)
    (h : ∀ c ∈ r, p c = true) : r.filter p = r := by
  induction r with
  | nil => rfl
  | cons c cs ih =>
    rw [List.filter_cons, h c (List.mem_cons_self c cs), if_pos rfl,
      ih (fun x hx => h x (List.mem_cons_of_mem c hx))]

/-- Splitting the non-whitespace `filter` at an all-non-whitespace prefix. -/
theorem filter_nonWS_split (r : List Char) (k : Nat)
    (hall : ∀ c ∈ r.take k, isWS c = false) :
    r.filter (fun x => !(isWS x)) =
      r.take k ++ (r.drop k).filter (fun x => !(isWS x)) := by
  conv_lhs => rw [← List.take_append_drop k r]
  rw [List.filter_append,
    filter_eq_self_of_all _ _ (fun c hc => by simp [hall c hc])]

/-- Single-byte branch of the dispatch: one non-whitespace byte is consumed
and becomes the whole literal. -/
theorem step_lit_single (l : Lexer) (hI : LexInv l) (c : Char)
    (rest : List Char) (hr : l.input.drop l.position = c :: rest)
    (hw : isWS c = false) (t : Str) :
    (l.input.drop l.position).filter (fun x => !(isWS x)) =
      (newToken t l.ch).literal ++
        ((readChar l).input.drop ((readChar l).position)).filter
          (fun x => !(isWS x)) := by
  have hch : l.ch = c := by
    rw [hI.2, getD_eq_headD_drop, hr]; rfl
  have hpos : (readChar l).position = l.position + 1 := by
    have e : (readChar l).position = l.readPosition := rfl
    rw [e, hI.1]
  have hdrop : (readChar l).input.drop ((readChar l).position) = rest := by
    rw [readChar_input, hpos]
    have h2 : l.input.drop (l.position + 1) =
        (l.input.drop l.position).drop 1 := by
      rw [List.drop_drop]
    rw [h2, hr]
    rfl
  rw [hdrop, hr, hch]
  simp only [List.filter_cons, hw, Bool.not_false, if_true]
  rfl

/-- Two-byte branch of the dispatch (`==` and `!=`): two non-whitespace
bytes are consumed and become the literal. -/
theorem step_lit_double (l : Lexer) (hI : LexInv l) (c c2 : Char)
    (rest : List Char) (hr : l.input.drop l.position = c :: c2 :: rest)
    (hw : isWS c = false) (hw2 : isWS c2 = false) (t : Str) :
    (l.input.drop l.position).filter (fun x => !(isWS x)) =
      (⟨t, [l.ch, (readChar l).ch]⟩ : Token).literal ++
        ((readChar (readChar l)).input.drop
          ((readChar (readChar l)).position)).filter (fun x => !(isWS x)) := by
  have hch : l.ch = c := by
    rw [hI.2, getD_eq_headD_drop, hr]; rfl
  have hpos : (readChar l).position = l.position + 1 := by
    have e : (readChar l).position = l.readPosition := rfl
    rw [e, hI.1]
  have hdrop1 : (readChar l).input.drop ((readChar l).position) = c2 :: rest := by
    rw [readChar_input, hpos]
    have h2 : l.input.drop (l.position + 1) =
        (l.input.drop l.position).drop 1 := by
      rw [List.drop_drop]
    rw [h2, hr]
    rfl
  have hch2 : (readChar l).ch = c2 := by
    rw [(readChar_inv l).2, getD_eq_headD_drop, hdrop1]; rfl
  have hpos2 : (readChar (readChar l)).position = l.position + 2 := by
    have e : (readChar (readChar l)).position = (readChar l).readPosition := rfl
    have e2 : (readChar l).readPosition = l.readPosition + 1 := rfl
    have e3 := hI.1
    omega
  have hdrop2 : (readChar (readChar l)).input.drop
      ((readChar (readChar l)).position) = rest := by
    have e : (readChar (readChar l)).input = l.input := rfl
    rw [e, hpos2]
    have h2 : l.input.drop (l.position + 2) =
        (l.input.drop l.position).drop 2 := by
      rw [List.drop_drop]
    rw [h2, hr]
    rfl
  rw [hdrop2, hr, hch, hch2]
  simp only [List.filter_cons, hw, hw2, Bool.not_false, if_true]
  rfl

/-- Identifier branch: the letter run is consumed and becomes the literal. -/
theorem step_lit_ident (l : Lexer) (hI : LexInv l)
    (hc : isLetter l.ch = true) :
    (l.input.drop l.position).filter (fun x => !(isWS x)) =
      (readIdentifier l).1 ++
        (((readIdentifier l).2).input.drop
          (((readIdentifier l).2).position)).filter (fun x => !(isWS x)) := by
  have hp := readIdentGo_pos (l.input.length + 1 - l.position) l hI rfl
  have hin : ((readIdentifier l).2).input = l.input :=
    (readIdentGo_spec (l.input.length + 1 - l.position) l hI).2.1
  have hp' : ((readIdentifier l).2).position =
      l.position + ((l.input.drop l.position).takeWhile isLetter).length := hp
  have hlit : (readIdentifier l).1 =
      (l.input.drop l.position).takeWhile isLetter := by
    show (l.input.drop l.position).take
        ((readIdentGo (l.input.length + 1 - l.position) l).position
          - l.position) =
      (l.input.drop l.position).takeWhile isLetter
    rw [hp, Nat.add_sub_cancel_left]
    exact take_takeWhile_length _ _
  have hdrop : ((readIdentifier l).2).input.drop
      (((readIdentifier l).2).position) =
      (l.input.drop l.position).dropWhile isLetter := by
    rw [hin, hp', ← drop_takeWhile_length isLetter (l.input.drop l.position),
      List.drop_drop]
  have hsplit := filter_nonWS_split (l.input.drop l.position)
    (((l.input.drop l.position).takeWhile isLetter).length)
    (fun x hx => not_isWS_of_isLetter x
      (List.mem_takeWhile_imp (by rwa [take_takeWhile_length] at hx)))
  rw [hlit, hdrop, hsplit, take_takeWhile_length, drop_takeWhile_length]

/-- Number branch: the digit run is consumed and becomes the literal. -/
theorem step_lit_int (l : Lexer) (hI : LexInv l)
    (hc : isDigit l.ch = true) :
    (l.input.drop l.position).filter (fun x => !(isWS x)) =
      (readNumber l).1 ++
        (((readNumber l).2).input.drop
          (((readNumber l).2).position)).filter (fun x => !(isWS x)) := by
  have hp := readNumberGo_pos (l.input.length + 1 - l.position) l hI rfl
  have hin : ((readNumber l).2).input = l.input :=
    (readNumberGo_spec (l.input.length + 1 - l.position) l hI).2.1
  have hp' : ((readNumber l).2).position =
      l.position + ((l.input.drop l.position).takeWhile isDigit).length := hp
  have hlit : (readNumber l).1 =
      (l.input.drop l.position).takeWhile isDigit := by
    show (l.input.drop l.position).take
        ((readNumberGo (l.input.length + 1 - l.position) l).position
          - l.position) =
      (l.input.drop l.position).takeWhile isDigit
    rw [hp, Nat.add_sub_cancel_left]
    exact take_takeWhile_length _ _
  have hdrop : ((readNumber l).2).input.drop
      (((readNumber l).2).position) =
      (l.input.drop l.position).dropWhile isDigit := by
    rw [hin, hp', ← drop_takeWhile_length isDigit (l.input.drop l.position),
      List.drop_drop]
  have hsplit := filter_nonWS_split (l.input.drop l.position)
    (((l.input.drop l.position).takeWhile isDigit).length)
    (fun x hx => not_isWS_of_isDigit x
      (List.mem_takeWhile_imp (by rwa [take_takeWhile_length] at hx)))
  rw [hlit, hdrop, hsplit, take_takeWhile_length, drop_takeWhile_length]

/-- `lookupIdentifier` never returns the `Eof` token type. -/
theorem LookupIdentifier_ne_EOF (s : Str) : LookupIdentifier s ≠ EOF := by
  unfold LookupIdentifier
  split_ifs <;> decide

/-- One dispatch step on a quote-free, NUL-free input whose remaining text
does not start with whitespace: either the `Eof` token with no input left,
or a non-`Eof` token whose literal is exactly the non-whitespace prefix it
consumed. -/
theorem ntaws_lit (l : Lexer) (h : LexInv l)
    (hq : ∀ x ∈ l.input, x ≠ '"') (hn : ∀ x ∈ l.input, x ≠ nulChar)
    (hws : ∀ c rest, l.input.drop l.position = c :: rest → isWS c = false) :
    ((nextTokenAfterWS l).1.typ = EOF ∧ l.input.drop l.position = []) ∨
    ((nextTokenAfterWS l).1.typ ≠ EOF ∧
      (l.input.drop l.position).filter (fun x => !(isWS x)) =
        (nextTokenAfterWS l).1.literal ++
          (((nextTokenAfterWS l).2).input.drop
            (((nextTokenAfterWS l).2).position)).filter (fun x => !(isWS x))) := by
  have hch : l.ch = (l.input.drop l.position).headD nulChar := by
    rw [h.2, getD_eq_headD_drop]
  cases hr : l.input.drop l.position with
  | nil =>
    left
    have hch0 : l.ch = nulChar := by rw [hch, hr]; rfl
    refine ⟨?_, rfl⟩
    rw [ntaws_eoftok l hch0]
  | cons c rest =>
    right
    have hchc : l.ch = c := by rw [hch, hr]; rfl
    have hcmem : c ∈ l.input := by
      have hm : c ∈ l.input.drop l.position := by
        rw [hr]
        exact List.mem_cons_self c rest
      exact List.mem_of_mem_drop hm
    have hwsc : isWS c = false := hws c rest hr
    have hcq : c ≠ '"' := hq c hcmem
    have hcn : c ≠ nulChar := hn c hcmem
    have hrest : l.input.drop (l.position + 1) = rest := by
      have h2 : l.input.drop (l.position + 1) =
          (l.input.drop l.position).drop 1 := by
        rw [List.drop_drop]
      rw [h2, hr]
      rfl
    have hpk : peekChar l = rest.headD nulChar := by
      rw [peekChar_eq_getD, getD_eq_headD_drop, h.1, hrest]
    by_cases b1 : l.ch = '='
    · by_cases p : peekChar l = '='
      · rw [ntaws_eqtok l b1 p]
        cases rest with
        | nil =>
          exfalso
          rw [hpk] at p
          exact absurd p (by decide)
        | cons c2 rest2 =>
          have hc2 : c2 = '=' := by
            rw [hpk] at p
            exact p
          refine ⟨(by decide : EQ ≠ EOF), ?_⟩
          have hs := step_lit_double l h c c2 rest2 hr hwsc
            (by rw [hc2]; decide) EQ
          rw [hr] at hs
          exact hs
      · rw [ntaws_assign l b1 p]
        refine ⟨(by decide : ASSIGN ≠ EOF), ?_⟩
        have hs := step_lit_single l h c rest hr hwsc ASSIGN
        rw [hr] at hs
        exact hs
    · by_cases b2 : l.ch = '!'
      · by_cases p : peekChar l = '='
        · rw [ntaws_noteqtok l b2 p]
          cases rest with
          | nil =>
            exfalso
            rw [hpk] at p
            exact absurd p (by decide)
          | cons c2 rest2 =>
            have hc2 : c2 = '=' := by
              rw [hpk] at p
              exact p
            refine ⟨(by decide : NOT_EQ ≠ EOF), ?_⟩
            have hs := step_lit_double l h c c2 rest2 hr hwsc
              (by rw [hc2]; decide) NOT_EQ
            rw [hr] at hs
            exact hs
        · rw [ntaws_bang l b2 p]
          refine ⟨(by decide : BANG ≠ EOF), ?_⟩
          have hs := step_lit_single l h c rest hr hwsc BANG
          rw [hr] at hs
          exact hs
      · by_cases b3 : l.ch = '+'
        · rw [ntaws_plus l b3]
          refine ⟨(by decide : PLUS ≠ EOF), ?_⟩
          have hs := step_lit_single l h c rest hr hwsc PLUS
          rw [hr] at hs
          exact hs
        · by_cases b4 : l.ch = '-'
          · rw [ntaws_minus l b4]
            refine ⟨(by decide : MINUS ≠ EOF), ?_⟩
            have hs := step_lit_single l h c rest hr hwsc MINUS
            rw [hr] at hs
            exact hs
          · by_cases b5 : l.ch = '/'
            · rw [ntaws_slash l b5]
              refine ⟨(by decide : SLASH ≠ EOF), ?_⟩
              have hs := step_lit_single l h c rest hr hwsc SLASH
              rw [hr] at hs
              exact hs
            · by_cases b6 : l.ch = '*'
              · rw [ntaws_asterisk l b6]
                refine ⟨(by decide : ASTERISK ≠ EOF), ?_⟩
                have hs := step_lit_single l h c rest hr hwsc ASTERISK
                rw [hr] at hs
                exact hs
              · by_cases b7 : l.ch = '<'
                · rw [ntaws_lt l b7]
                  refine ⟨(by decide : tok.LT ≠ EOF), ?_⟩
                  have hs := step_lit_single l h c rest hr hwsc tok.LT
                  rw [hr] at hs
                  exact hs
                · by_cases b8 : l.ch = '>'
                  · rw [ntaws_gt l b8]
                    refine ⟨(by decide : tok.GT ≠ EOF), ?_⟩
                    have hs := step_lit_single l h c rest hr hwsc tok.GT
                    rw [hr] at hs
                    exact hs
                  · by_cases b9 : l.ch = ';'
                    · rw [ntaws_semicolon l b9]
                      refine ⟨(by decide : SEMICOLON ≠ EOF), ?_⟩
                      have hs := step_lit_single l h c rest hr hwsc SEMICOLON
                      rw [hr] at hs
                      exact hs
                    · by_cases b10 : l.ch = '('
                      · rw [ntaws_lparen l b10]
                        refine ⟨(by decide : LPAREN ≠ EOF), ?_⟩
                        have hs := step_lit_single l h c rest hr hwsc LPAREN
                        rw [hr] at hs
                        exact hs
                      · by_cases b11 : l.ch = ')'
                        · rw [ntaws_rparen l b11]
                          refine ⟨(by decide : RPAREN ≠ EOF), ?_⟩
                          have hs := step_lit_single l h c rest hr hwsc RPAREN
                          rw [hr] at hs
                          exact hs
                        · by_cases b12 : l.ch = ','
                          · rw [ntaws_comma l b12]
                            refine ⟨(by decide : COMMA ≠ EOF), ?_⟩
                            have hs := step_lit_single l h c rest hr hwsc COMMA
                            rw [hr] at hs
                            exact hs
                          · by_cases b13 : l.ch = '\x7b'
                            · rw [ntaws_lbrace l b13]
                              refine ⟨(by decide : LBRACE ≠ EOF), ?_⟩
                              have hs := step_lit_single l h c rest hr hwsc LBRACE
                              rw [hr] at hs
                              exact hs
                            · by_cases b14 : l.ch = '\x7d'
                              · rw [ntaws_rbrace l b14]
                                refine ⟨(by decide : RBRACE ≠ EOF), ?_⟩
                                have hs := step_lit_single l h c rest hr hwsc RBRACE
                                rw [hr] at hs
                                exact hs
                              · by_cases b15 : l.ch = '['
                                · rw [ntaws_lbracket l b15]
                                  refine ⟨(by decide : LBRACKET ≠ EOF), ?_⟩
                                  have hs := step_lit_single l h c rest hr hwsc LBRACKET
                                  rw [hr] at hs
                                  exact hs
                                · by_cases b16 : l.ch = ']'
                                  · rw [ntaws_rbracket l b16]
                                    refine ⟨(by decide : RBRACKET ≠ EOF), ?_⟩
                                    have hs := step_lit_single l h c rest hr hwsc RBRACKET
                                    rw [hr] at hs
                                    exact hs
                                  · by_cases b17 : l.ch = '"'
                                    · exact absurd (hchc.symm.trans b17) hcq
                                    · by_cases b18 : l.ch = nulChar
                                      · exact absurd (hchc.symm.trans b18) hcn
                                      · by_cases b19 : isLetter l.ch = true
                                        · rw [ntaws_identtok l b19]
                                          refine ⟨LookupIdentifier_ne_EOF _, ?_⟩
                                          have hs := step_lit_ident l h b19
                                          rw [hr] at hs
                                          exact hs
                                        · by_cases b20 : isDigit l.ch = true
                                          · rw [ntaws_inttok l b20]
                                            refine ⟨(by decide : INT ≠ EOF), ?_⟩
                                            have hs := step_lit_int l h b20
                                            rw [hr] at hs
                                            exact hs
                                          · rw [ntaws_illegaltok l (by simp [b1, b2, b3, b4, b5, b6, b7, b8, b9, b10, b11, b12, b13, b14, b15, b16, b17, b18]) (by simpa using b19) (by simpa using b20)]
                                            refine ⟨(by decide : ILLEGAL ≠ EOF), ?_⟩
                                            have hs := step_lit_single l h c rest hr hwsc ILLEGAL
                                            rw [hr] at hs
                                            exact hs

/-- One full `NextToken` step on a quote-free, NUL-free input: either the
`Eof` token with only whitespace left, or a non-`Eof` token whose literal
is exactly the non-whitespace prefix consumed (the skipped whitespace is
invisible to both sides of the equation). -/
theorem nextToken_lit (l : Lexer) (h : LexInv l)
    (hq : ∀ x ∈ l.input, x ≠ '"') (hn : ∀ x ∈ l.input, x ≠ nulChar) :
    ((nextToken l).1.typ = EOF ∧
      (l.input.drop l.position).filter (fun x => !(isWS x)) = []) ∨
    ((nextToken l).1.typ ≠ EOF ∧
      (l.input.drop l.position).filter (fun x => !(isWS x)) =
        (nextToken l).1.literal ++
          (((nextToken l).2).input.drop (((nextToken l).2).position)).filter
            (fun x => !(isWS x))) := by
  obtain ⟨h1, hin1, _, _⟩ := skipWhitespace_spec l h
  have hd1 : (skipWhitespace l).input.drop ((skipWhitespace l).position) =
      (l.input.drop l.position).dropWhile isWS := skipWhitespace_drop l h
  have hfe : (l.input.drop l.position).filter (fun x => !(isWS x)) =
      ((skipWhitespace l).input.drop ((skipWhitespace l).position)).filter
        (fun x => !(isWS x)) := by
    rw [hd1]
    exact filter_nonWS_dropWhile _
  have hws1 : ∀ c rest,
      (skipWhitespace l).input.drop ((skipWhitespace l).position) =
        c :: rest → isWS c = false := by
    intro c rest hcr
    exact dropWhile_head_false isWS (l.input.drop l.position) c rest
      (by rw [← hd1]; exact hcr)
  have hq1 : ∀ x ∈ (skipWhitespace l).input, x ≠ '"' := by
    rw [hin1]
    exact hq
  have hn1 : ∀ x ∈ (skipWhitespace l).input, x ≠ nulChar := by
    rw [hin1]
    exact hn
  rcases ntaws_lit (skipWhitespace l) h1 hq1 hn1 hws1 with
    ⟨he, hnil⟩ | ⟨hne, heq⟩
  · left
    refine ⟨he, ?_⟩
    rw [hfe, hnil]
    rfl
  · right
    refine ⟨hne, ?_⟩
    rw [hfe]
    exact heq

/-- With enough fuel, the concatenated literals of the token stream are
exactly the non-whitespace bytes of the remaining input. -/
theorem lexRun_concat : ∀ (k : Nat) (l : Lexer), LexInv l →
    (∀ x ∈ l.input, x ≠ '"') → (∀ x ∈ l.input, x ≠ nulChar) →
    l.input.length < l.position + k →
    concatLits (lexRun k l) =
      (l.input.drop l.position).filter (fun x => !(isWS x)) := by
  intro k
  induction k with
  | zero =>
    intro l _ _ _ hk
    have hdrop : l.input.drop l.position = [] :=
      List.drop_eq_nil_of_le (by omega)
    rw [hdrop]
    rfl
  | succ k ih =>
    intro l h hq hn hk
    rcases nextToken_lit l h hq hn with ⟨he, hnil⟩ | ⟨hne, heq⟩
    · rw [lexRun_succ, if_pos he, hnil]
      rfl
    · obtain ⟨s1, s2, s3⟩ := nextToken_step l h
      have hppos : l.position < ((nextToken l).2).position := by
        have e1 := h.1
        have e2 := s1.1
        omega
      have hlen : ((nextToken l).2).input.length = l.input.length := by
        rw [s2]
      have hIH := ih (nextToken l).2 s1 (by rw [s2]; exact hq)
        (by rw [s2]; exact hn) (by omega)
      rw [lexRun_succ, if_neg hne, concatLits_cons, hIH, ← heq]

/-- C6 (amended): for every input containing no double quote and no NUL
byte, concatenating the `Literal` fields of the tokens produced by the
repeated `NextToken` calls up to the first `Eof` token yields exactly the
input with its whitespace removed, i.e. the scanner's lexemes preserve
every non-whitespace character of such inputs.  (On inputs with a double
quote the claim as stated fails: a string token's literal drops the two
quote characters — see the counterexample.) -/
theorem c6_concat_literals_eq_nonws (s : Str)
    (hq : ∀ x ∈ s, x ≠ '"') (hn : ∀ x ∈ s, x ≠ nulChar) :
    concatLits (allTokens s) = s.filter (fun x => !(isWS x)) := by
  have hc := lexRun_concat (s.length + 1) (lexerNew s) (lexerNew_inv s) hq hn
    (by
      show s.length < 0 + (s.length + 1)
      omega)
  exact hc

/-- Witness for C6 at the concrete input `let x = 5;`. -/
theorem c6_concat_witness :
    (∀ x ∈ ("let x = 5;".data), x ≠ '"') ∧
    (∀ x ∈ ("let x = 5;".data), x ≠ nulChar) ∧
    concatLits (allTokens ("let x = 5;".data)) =
      ("let x = 5;".data).filter (fun x => !(isWS x)) :=
  ⟨by decide, by decide,
   c6_concat_literals_eq_nonws ("let x = 5;".data) (by decide) (by decide)⟩

/-- Counterexample to C6 as stated: on the input `"a"` the only token is a
string token with literal `a`, so the two double-quote characters —
non-whitespace characters of the input — survive in no literal, and the
concatenation differs from the input modulo whitespace. -/
theorem c6_counterexample_quotes_dropped :
    concatLits (allTokens ("\"a\"".data)) = "a".data ∧
    ("\"a\"".data).filter (fun x => !(isWS x)) = "\"a\"".data ∧
    concatLits (allTokens ("\"a\"".data)) ≠
      ("\"a\"".data).filter (fun x => !(isWS x)) := by
  refine ⟨by decide, by decide, by decide⟩

/-! ## C2: the pretty-printer round-trip

The claim fails in general (`IfExpression.String` and
`FunctionLiteral.String` drop the delimiters the grammar needs), and holds
on the canonical fully-parenthesized expression fragment, proved below by
a joint induction over the fragment: the lexer turns the printed text into
the canonical token list, and the parser folds that list back into the
canonical AST. -/

/-! ## C2 -/

/-- Counterexample to C2 as stated: `if (x) \x7b y \x7d` parses with an
empty error list into a program `P` with `P.String() = "ifx y"`
(`IfExpression.String` prints no parentheses around the condition and no
space after `if`), and parsing `P.String()` again yields a program (two
expression statements `ifx` and `y`) whose `String()` is `"ifxy"`, not
`P.String()`. -/
theorem c2_counterexample_if_reparse :
    (parseWith 99 ("if (x) \x7b y \x7d".data)).map
        (fun r => (r.2.errors, programString r.1)) =
      some ([], some ("ifx y".data)) ∧
    (parseWith 99 ("ifx y".data)).map
        (fun r => (r.2.errors, programString r.1)) =
      some ([], some ("ifxy".data)) ∧
    ("ifxy".data : Str) ≠ "ifx y".data := by
  refine ⟨by decide, by decide, by decide⟩

/-- The infix operators of the canonical expression fragment. -/
inductive COp where
  | plusO | minusO | starO | slashO | ltO | gtO | eqO | neO
  deriving DecidableEq, Repr

/-- The lexeme of a canonical infix operator; for each of these the token
type string coincides with the lexeme. -/
def opLit : COp → Str
  | .plusO => "+".data
  | .minusO => "-".data
  | .starO => "*".data
  | .slashO => "/".data
  | .ltO => "<".data
  | .gtO => ">".data
  | .eqO => "==".data
  | .neO => "!=".data

/-- The precedence the table assigns to a canonical operator. -/
def opPrec : COp → Nat
  | .plusO => sumPrec
  | .minusO => sumPrec
  | .starO => productPrec
  | .slashO => productPrec
  | .ltO => lessgreaterPrec
  | .gtO => lessgreaterPrec
  | .eqO => equalsPrec
  | .neO => equalsPrec

/-- Canonical expressions: identifiers, integer literals, booleans, the
two prefix operators and the eight infix operators, the composite forms
thought of as written fully parenthesized (which is exactly how the
pretty-printer prints them). -/
inductive CE where
  | idC (name : Str)
  | intC (lit : Str) (v : Int)
  | trueC
  | falseC
  | notC (e : CE)
  | negC (e : CE)
  | binC (op : COp) (a b : CE)
  deriving Repr

/-- Well-formedness of a canonical expression: identifier names are
nonempty letter runs that are not reserved words, integer lexemes are
nonempty digit runs whose `strconv.ParseInt` value is the stored one. -/
def WF : CE → Prop
  | .idC name => name ≠ [] ∧ (∀ x ∈ name, isLetter x = true) ∧
      LookupIdentifier name = IDENT
  | .intC lit v => lit ≠ [] ∧ (∀ x ∈ lit, isDigit x = true) ∧
      goParseInt lit = some v
  | .trueC => True
  | .falseC => True
  | .notC e => WF e
  | .negC e => WF e
  | .binC _ a b => WF a ∧ WF b

/-- The program text of a canonical expression — identical to what the
pretty-printer emits for its AST. -/
def printedC : CE → Str
  | .idC name => name
  | .intC lit _ => lit
  | .trueC => "true".data
  | .falseC => "false".data
  | .notC e => "(".data ++ "!".data ++ printedC e ++ ")".data
  | .negC e => "(".data ++ "-".data ++ printedC e ++ ")".data
  | .binC op a b =>
    "(".data ++ printedC a ++ " ".data ++ opLit op ++ " ".data
      ++ printedC b ++ ")".data

/-- The token stream the lexer produces for `printedC`. -/
def ctokens : CE → List Token
  | .idC name => [⟨IDENT, name⟩]
  | .intC lit _ => [⟨INT, lit⟩]
  | .trueC => [⟨TRUE, "true".data⟩]
  | .falseC => [⟨FALSE, "false".data⟩]
  | .notC e => ⟨LPAREN, "(".data⟩ :: ⟨BANG, "!".data⟩ ::
      (ctokens e ++ [⟨RPAREN, ")".data⟩])
  | .negC e => ⟨LPAREN, "(".data⟩ :: ⟨MINUS, "-".data⟩ ::
      (ctokens e ++ [⟨RPAREN, ")".data⟩])
  | .binC op a b => ⟨LPAREN, "(".data⟩ ::
      (ctokens a ++ ⟨opLit op, opLit op⟩ ::
        (ctokens b ++ [⟨RPAREN, ")".data⟩]))

/-- The AST the parser builds for `printedC`. -/
def toExpr : CE → Expr
  | .idC name => .identE ⟨⟨IDENT, name⟩, name⟩
  | .intC lit v => .intLit ⟨INT, lit⟩ v
  | .trueC => .boolLit ⟨TRUE, "true".data⟩ true
  | .falseC => .boolLit ⟨FALSE, "false".data⟩ false
  | .notC e => .prefixE ⟨BANG, "!".data⟩ ("!".data) (some (toExpr e))
  | .negC e => .prefixE ⟨MINUS, "-".data⟩ ("-".data) (some (toExpr e))
  | .binC op a b => .infixE ⟨opLit op, opLit op⟩ (some (toExpr a))
      (opLit op) (some (toExpr b))

/-- The node count of a canonical expression, used for fuel bounds. -/
def sizeC : CE → Nat
  | .idC _ => 1
  | .intC _ _ => 1
  | .trueC => 1
  | .falseC => 1
  | .notC e => sizeC e + 1
  | .negC e => sizeC e + 1
  | .binC _ a b => sizeC a + sizeC b + 1

/-- `PrefixExpression.String` on a non-nil operand. -/
theorem exprString_prefixE (t : Token) (op : Str) (X : Expr) (s : Str)
    (h : exprString X = some s) :
    exprString (.prefixE t op (some X)) =
      some ("(".data ++ op ++ s ++ ")".data) := by
  show (match exprString X with
        | none => none
        | some s => some ("(".data ++ op ++ s ++ ")".data)) = _
  rw [h]

/-- `InfixExpression.String` on non-nil operands. -/
theorem exprString_infixE (t : Token) (op : Str) (X Y : Expr) (sx sy : Str)
    (hx : exprString X = some sx) (hy : exprString Y = some sy) :
    exprString (.infixE t (some X) op (some Y)) =
      some ("(".data ++ sx ++ " ".data ++ op ++ " ".data ++ sy ++ ")".data) := by
  show (match exprString X, exprString Y with
        | some ls, some rs =>
          some ("(".data ++ ls ++ " ".data ++ op ++ " ".data ++ rs ++ ")".data)
        | _, _ => none) = _
  rw [hx, hy]

/-- The pretty-printer on a canonical AST prints exactly `printedC`. -/
theorem exprString_toExpr : ∀ c : CE, exprString (toExpr c) = some (printedC c) := by
  intro c
  induction c with
  | idC name => rfl
  | intC lit v => rfl
  | trueC => rfl
  | falseC => rfl
  | notC e ih =>
    show exprString (.prefixE ⟨BANG, "!".data⟩ ("!".data) (some (toExpr e))) = _
    rw [exprString_prefixE _ _ _ _ ih]
    rfl
  | negC e ih =>
    show exprString (.prefixE ⟨MINUS, "-".data⟩ ("-".data) (some (toExpr e))) = _
    rw [exprString_prefixE _ _ _ _ ih]
    rfl
  | binC op a b iha ihb =>
    show exprString (.infixE ⟨opLit op, opLit op⟩ (some (toExpr a))
      (opLit op) (some (toExpr b))) = _
    rw [exprString_infixE _ _ _ _ _ _ iha ihb]
    rfl

/-- The first `n` tokens and the lexer state after them (no EOF cutoff). -/
def nextTokens : Nat → Lexer → List Token × Lexer
  | 0, l => ([], l)
  | n + 1, l =>
    ((nextToken l).1 :: (nextTokens n (nextToken l).2).1,
     (nextTokens n (nextToken l).2).2)

theorem nextTokens_succ (n : Nat) (l : Lexer) :
    nextTokens (n + 1) l =
      ((nextToken l).1 :: (nextTokens n (nextToken l).2).1,
       (nextTokens n (nextToken l).2).2) := rfl

theorem nextTokens_one (l : Lexer) :
    nextTokens 1 l = ([(nextToken l).1], (nextToken l).2) := rfl

theorem nextTokens_two (l : Lexer) :
    nextTokens 2 l =
      ([(nextToken l).1, (nextToken (nextToken l).2).1],
       (nextToken (nextToken l).2).2) := rfl

/-- Splitting a token run. -/
theorem nextTokens_add : ∀ (a b : Nat) (l : Lexer),
    nextTokens (a + b) l =
      ((nextTokens a l).1 ++ (nextTokens b (nextTokens a l).2).1,
       (nextTokens b (nextTokens a l).2).2) := by
  intro a
  induction a with
  | zero =>
    intro b l
    rw [Nat.zero_add]
    rfl
  | succ a ih =>
    intro b l
    have e : a + 1 + b = (a + b) + 1 := by omega
    rw [e]
    show ((nextToken l).1 :: (nextTokens (a + b) (nextToken l).2).1,
          (nextTokens (a + b) (nextToken l).2).2) = _
    rw [ih b (nextToken l).2]
    rfl

/-- `takeWhile` passes over a satisfying prefix. -/
theorem takeWhile_append_all (p : Char → Bool) : ∀ (a b : List Char),
    (∀ x ∈ a, p x = true) →
    (a ++ b).takeWhile p = a ++ b.takeWhile p := by
  intro a
  induction a with
  | nil => intro b _; rfl
  | cons x xs ih =>
    intro b hall
    rw [List.cons_append, List.takeWhile_cons, hall x (List.mem_cons_self x xs),
      if_pos rfl, ih b (fun y hy => hall y (List.mem_cons_of_mem x hy)),
      List.cons_append]

/-- `dropWhile` drops a satisfying prefix. -/
theorem dropWhile_append_all (p : Char → Bool) : ∀ (a b : List Char),
    (∀ x ∈ a, p x = true) →
    (a ++ b).dropWhile p = b.dropWhile p := by
  intro a
  induction a with
  | nil => intro b _; rfl
  | cons x xs ih =>
    intro b hall
    rw [List.cons_append, List.dropWhile_cons, hall x (List.mem_cons_self x xs),
      if_pos rfl, ih b (fun y hy => hall y (List.mem_cons_of_mem x hy))]

/-- `takeWhile` is empty when the (defaulted) head fails the predicate. -/
theorem takeWhile_nil_of_head (p : Char → Bool) (b : List Char)
    (h : p (b.headD nulChar) = false) : b.takeWhile p = [] := by
  cases b with
  | nil => rfl
  | cons x xs =>
    rw [List.takeWhile_cons, show p x = false from h, if_neg (by simp)]

/-- Shifting a drop across a known prefix. -/
theorem drop_pos_add (input : Str) (pos k : Nat) (pre R : Str)
    (hd : input.drop pos = pre ++ R) (hk : pre.length = k) :
    input.drop (pos + k) = R := by
  have e : input.drop (pos + k) = (input.drop pos).drop k := by
    rw [List.drop_drop]
  rw [e, hd, ← hk, List.drop_left]

/-- `skipWhitespace` over an explicit whitespace prefix: it stops exactly
at the first non-whitespace byte. -/
theorem skipWS_arrive (l : Lexer) (w r : Str) (c0 : Char) (h : LexInv l)
    (hw : ∀ x ∈ w, isWS x = true)
    (hd : l.input.drop l.position = w ++ c0 :: r)
    (hc0 : isWS c0 = false) :
    LexInv (skipWhitespace l) ∧ (skipWhitespace l).input = l.input ∧
    (skipWhitespace l).position = l.position + w.length ∧
    (skipWhitespace l).input.drop ((skipWhitespace l).position) = c0 :: r ∧
    (skipWhitespace l).ch = c0 ∧
    peekChar (skipWhitespace l) = r.headD nulChar := by
  obtain ⟨h1, h2, _, _⟩ := skipWhitespace_spec l h
  have hpos : (skipWhitespace l).position = l.position + w.length := by
    have hp : (skipWhitespace l).position =
        l.position + ((l.input.drop l.position).takeWhile isWS).length :=
      skipWSGo_pos (l.input.length + 1 - l.position) l h rfl
    rw [hp, hd, takeWhile_append_all isWS w (c0 :: r) hw, List.takeWhile_cons,
      hc0, if_neg (by simp), List.append_nil]
  have hdrop : (skipWhitespace l).input.drop ((skipWhitespace l).position) =
      c0 :: r := by
    rw [skipWhitespace_drop l h, hd, dropWhile_append_all isWS w (c0 :: r) hw,
      List.dropWhile_cons, hc0, if_neg (by simp)]
  have hch : (skipWhitespace l).ch = c0 := by
    rw [h1.2, getD_eq_headD_drop, hdrop]
    rfl
  have hpk : peekChar (skipWhitespace l) = r.headD nulChar := by
    rw [peekChar_eq_getD, getD_eq_headD_drop, h1.1]
    have hr : (skipWhitespace l).input.drop ((skipWhitespace l).position + 1) =
        r := by
      have e : (skipWhitespace l).input.drop ((skipWhitespace l).position + 1) =
          ((skipWhitespace l).input.drop ((skipWhitespace l).position)).drop 1 := by
        rw [List.drop_drop]
      rw [e, hdrop]
      rfl
    rw [hr]
  exact ⟨h1, h2, hpos, hdrop, hch, hpk⟩

/-- A single-byte token (no lookahead): consumed whitespace plus one byte. -/
theorem tokChar (l : Lexer) (w r : Str) (c0 : Char) (typStr : Str)
    (h : LexInv l) (hw : ∀ x ∈ w, isWS x = true)
    (hd : l.input.drop l.position = w ++ c0 :: r) (hc0 : isWS c0 = false)
    (hb : ∀ l' : Lexer, l'.ch = c0 →
      nextTokenAfterWS l' = (newToken typStr l'.ch, readChar l')) :
    (nextToken l).1 = ⟨typStr, [c0]⟩ ∧ LexInv (nextToken l).2 ∧
    (nextToken l).2.input = l.input ∧
    (nextToken l).2.position = l.position + w.length + 1 := by
  obtain ⟨a1, a2, a3, a4, a5, a6⟩ := skipWS_arrive l w r c0 h hw hd hc0
  have hnt : nextToken l =
      (newToken typStr (skipWhitespace l).ch, readChar (skipWhitespace l)) := by
    show nextTokenAfterWS (skipWhitespace l) = _
    exact hb _ a5
  refine ⟨?_, ?_, ?_, ?_⟩
  · rw [hnt, a5]
    rfl
  · rw [hnt]
    exact readChar_inv _
  · rw [hnt]
    show (skipWhitespace l).input = l.input
    exact a2
  · rw [hnt]
    show (skipWhitespace l).readPosition = l.position + w.length + 1
    rw [a1.1, a3]

/-- A single-byte token for a byte with a `=`-lookahead (`=` and `!`),
when the next byte is not `=`. -/
theorem tokCharNE (l : Lexer) (w r : Str) (c0 : Char) (typStr : Str)
    (h : LexInv l) (hw : ∀ x ∈ w, isWS x = true)
    (hd : l.input.drop l.position = w ++ c0 :: r) (hc0 : isWS c0 = false)
    (hne : r.headD nulChar ≠ '=')
    (hb : ∀ l' : Lexer, l'.ch = c0 → peekChar l' ≠ '=' →
      nextTokenAfterWS l' = (newToken typStr l'.ch, readChar l')) :
    (nextToken l).1 = ⟨typStr, [c0]⟩ ∧ LexInv (nextToken l).2 ∧
    (nextToken l).2.input = l.input ∧
    (nextToken l).2.position = l.position + w.length + 1 := by
  obtain ⟨a1, a2, a3, a4, a5, a6⟩ := skipWS_arrive l w r c0 h hw hd hc0
  have hnt : nextToken l =
      (newToken typStr (skipWhitespace l).ch, readChar (skipWhitespace l)) := by
    show nextTokenAfterWS (skipWhitespace l) = _
    exact hb _ a5 (by rw [a6]; exact hne)
  refine ⟨?_, ?_, ?_, ?_⟩
  · rw [hnt, a5]
    rfl
  · rw [hnt]
    exact readChar_inv _
  · rw [hnt]
    show (skipWhitespace l).input = l.input
    exact a2
  · rw [hnt]
    show (skipWhitespace l).readPosition = l.position + w.length + 1
    rw [a1.1, a3]

/-- A two-byte token (`==` or `!=`). -/
theorem tokTwo (l : Lexer) (w r : Str) (c0 : Char) (typStr : Str)
    (h : LexInv l) (hw : ∀ x ∈ w, isWS x = true)
    (hd : l.input.drop l.position = w ++ c0 :: '=' :: r) (hc0 : isWS c0 = false)
    (hb : ∀ l' : Lexer, l'.ch = c0 → peekChar l' = '=' →
      nextTokenAfterWS l' =
        (⟨typStr, [l'.ch, (readChar l').ch]⟩, readChar (readChar l'))) :
    (nextToken l).1 = ⟨typStr, [c0, '=']⟩ ∧ LexInv (nextToken l).2 ∧
    (nextToken l).2.input = l.input ∧
    (nextToken l).2.position = l.position + w.length + 2 := by
  obtain ⟨a1, a2, a3, a4, a5, a6⟩ := skipWS_arrive l w ('=' :: r) c0 h hw hd hc0
  have hch2 : (readChar (skipWhitespace l)).ch = '=' := by
    rw [(readChar_inv (skipWhitespace l)).2, getD_eq_headD_drop]
    have e : (readChar (skipWhitespace l)).position =
        (skipWhitespace l).readPosition := rfl
    rw [e, a1.1, readChar_input]
    have hr : (skipWhitespace l).input.drop ((skipWhitespace l).position + 1) =
        '=' :: r := by
      have e2 : (skipWhitespace l).input.drop ((skipWhitespace l).position + 1) =
          ((skipWhitespace l).input.drop ((skipWhitespace l).position)).drop 1 := by
        rw [List.drop_drop]
      rw [e2, a4]
      rfl
    rw [hr]
    rfl
  have hnt : nextToken l =
      (⟨typStr, [(skipWhitespace l).ch, (readChar (skipWhitespace l)).ch]⟩,
       readChar (readChar (skipWhitespace l))) := by
    show nextTokenAfterWS (skipWhitespace l) = _
    exact hb _ a5 (by rw [a6]; rfl)
  refine ⟨?_, ?_, ?_, ?_⟩
  · rw [hnt, a5, hch2]
  · rw [hnt]
    exact readChar_inv _
  · rw [hnt]
    show (skipWhitespace l).input = l.input
    exact a2
  · rw [hnt]
    show (readChar (skipWhitespace l)).readPosition = l.position + w.length + 2
    have e : (readChar (skipWhitespace l)).readPosition =
        (skipWhitespace l).readPosition + 1 := rfl
    rw [e, a1.1, a3]

/-- An identifier/keyword token: the letter run becomes the lexeme. -/
theorem tokWord (l : Lexer) (w name r : Str) (h : LexInv l)
    (hw : ∀ x ∈ w, isWS x = true) (hne : name ≠ [])
    (hletters : ∀ x ∈ name, isLetter x = true)
    (hbd : isLetter (r.headD nulChar) = false)
    (hd : l.input.drop l.position = w ++ name ++ r) :
    (nextToken l).1 = ⟨LookupIdentifier name, name⟩ ∧
    LexInv (nextToken l).2 ∧ (nextToken l).2.input = l.input ∧
    (nextToken l).2.position = l.position + w.length + name.length := by
  obtain ⟨c0, nm, rfl⟩ : ∃ c0 nm, name = c0 :: nm := by
    cases name with
    | nil => exact absurd rfl hne
    | cons c0 nm => exact ⟨c0, nm, rfl⟩
  have hc0l : isLetter c0 = true := hletters c0 (List.mem_cons_self _ _)
  have hc0 : isWS c0 = false := not_isWS_of_isLetter c0 hc0l
  have hd' : l.input.drop l.position = w ++ c0 :: (nm ++ r) := by
    rw [hd]
    simp [List.cons_append, List.append_assoc]
  obtain ⟨a1, a2, a3, a4, a5, a6⟩ := skipWS_arrive l w (nm ++ r) c0 h hw hd' hc0
  have hchl : isLetter (skipWhitespace l).ch = true := by
    rw [a5]
    exact hc0l
  have hnt : nextToken l =
      (⟨LookupIdentifier (readIdentifier (skipWhitespace l)).1,
        (readIdentifier (skipWhitespace l)).1⟩,
       (readIdentifier (skipWhitespace l)).2) := by
    show nextTokenAfterWS (skipWhitespace l) = _
    exact ntaws_identtok _ hchl
  have htw : ((skipWhitespace l).input.drop
      ((skipWhitespace l).position)).takeWhile isLetter = c0 :: nm := by
    rw [a4]
    show ((c0 :: nm) ++ r).takeWhile isLetter = c0 :: nm
    rw [takeWhile_append_all isLetter (c0 :: nm) r hletters,
      takeWhile_nil_of_head isLetter r hbd, List.append_nil]
  have hpos := readIdentGo_pos ((skipWhitespace l).input.length + 1 -
      (skipWhitespace l).position) (skipWhitespace l) a1 rfl
  have hlit : (readIdentifier (skipWhitespace l)).1 = c0 :: nm := by
    show ((skipWhitespace l).input.drop ((skipWhitespace l).position)).take
        ((readIdentGo ((skipWhitespace l).input.length + 1 -
          (skipWhitespace l).position) (skipWhitespace l)).position
          - (skipWhitespace l).position) = _
    rw [hpos, Nat.add_sub_cancel_left, take_takeWhile_length, htw]
  have hspec := readIdentGo_spec ((skipWhitespace l).input.length + 1 -
      (skipWhitespace l).position) (skipWhitespace l) a1
  refine ⟨?_, ?_, ?_, ?_⟩
  · rw [hnt, hlit]
  · rw [hnt]
    show LexInv (readIdentifier (skipWhitespace l)).2
    exact hspec.1
  · rw [hnt]
    show (readIdentifier (skipWhitespace l)).2.input = l.input
    rw [show (readIdentifier (skipWhitespace l)).2.input =
      (skipWhitespace l).input from hspec.2.1, a2]
  · rw [hnt]
    show (readIdentifier (skipWhitespace l)).2.position =
      l.position + w.length + (c0 :: nm).length
    have hp2 : (readIdentifier (skipWhitespace l)).2.position =
        (skipWhitespace l).position +
          (((skipWhitespace l).input.drop
            ((skipWhitespace l).position)).takeWhile isLetter).length := hpos
    rw [hp2, htw, a3, List.length_cons]

/-- An integer token: the digit run becomes the lexeme. -/
theorem tokNum (l : Lexer) (w lit r : Str) (h : LexInv l)
    (hw : ∀ x ∈ w, isWS x = true) (hne : lit ≠ [])
    (hdigits : ∀ x ∈ lit, isDigit x = true)
    (hbd : isDigit (r.headD nulChar) = false)
    (hd : l.input.drop l.position = w ++ lit ++ r) :
    (nextToken l).1 = ⟨INT, lit⟩ ∧
    LexInv (nextToken l).2 ∧ (nextToken l).2.input = l.input ∧
    (nextToken l).2.position = l.position + w.length + lit.length := by
  obtain ⟨c0, nm, rfl⟩ : ∃ c0 nm, lit = c0 :: nm := by
    cases lit with
    | nil => exact absurd rfl hne
    | cons c0 nm => exact ⟨c0, nm, rfl⟩
  have hc0d : isDigit c0 = true := hdigits c0 (List.mem_cons_self _ _)
  have hc0 : isWS c0 = false := not_isWS_of_isDigit c0 hc0d
  have hd' : l.input.drop l.position = w ++ c0 :: (nm ++ r) := by
    rw [hd]
    simp [List.cons_append, List.append_assoc]
  obtain ⟨a1, a2, a3, a4, a5, a6⟩ := skipWS_arrive l w (nm ++ r) c0 h hw hd' hc0
  have hchd : isDigit (skipWhitespace l).ch = true := by
    rw [a5]
    exact hc0d
  have hnt : nextToken l =
      (⟨INT, (readNumber (skipWhitespace l)).1⟩,
       (readNumber (skipWhitespace l)).2) := by
    show nextTokenAfterWS (skipWhitespace l) = _
    exact ntaws_inttok _ hchd
  have htw : ((skipWhitespace l).input.drop
      ((skipWhitespace l).position)).takeWhile isDigit = c0 :: nm := by
    rw [a4]
    show ((c0 :: nm) ++ r).takeWhile isDigit = c0 :: nm
    rw [takeWhile_append_all isDigit (c0 :: nm) r hdigits,
      takeWhile_nil_of_head isDigit r hbd, List.append_nil]
  have hpos := readNumberGo_pos ((skipWhitespace l).input.length + 1 -
      (skipWhitespace l).position) (skipWhitespace l) a1 rfl
  have hlit : (readNumber (skipWhitespace l)).1 = c0 :: nm := by
    show ((skipWhitespace l).input.drop ((skipWhitespace l).position)).take
        ((readNumberGo ((skipWhitespace l).input.length + 1 -
          (skipWhitespace l).position) (skipWhitespace l)).position
          - (skipWhitespace l).position) = _
    rw [hpos, Nat.add_sub_cancel_left, take_takeWhile_length, htw]
  have hspec := readNumberGo_spec ((skipWhitespace l).input.length + 1 -
      (skipWhitespace l).position) (skipWhitespace l) a1
  refine ⟨?_, ?_, ?_, ?_⟩
  · rw [hnt, hlit]
  · rw [hnt]
    show LexInv (readNumber (skipWhitespace l)).2
    exact hspec.1
  · rw [hnt]
    show (readNumber (skipWhitespace l)).2.input = l.input
    rw [show (readNumber (skipWhitespace l)).2.input =
      (skipWhitespace l).input from hspec.2.1, a2]
  · rw [hnt]
    show (readNumber (skipWhitespace l)).2.position =
      l.position + w.length + (c0 :: nm).length
    have hp2 : (readNumber (skipWhitespace l)).2.position =
        (skipWhitespace l).position +
          (((skipWhitespace l).input.drop
            ((skipWhitespace l).position)).takeWhile isDigit).length := hpos
    rw [hp2, htw, a3, List.length_cons]

/-- The operator lexing step: a canonical infix operator written between
single spaces. -/
theorem opTokStep (op : COp) (l : Lexer) (r : Str) (h : LexInv l)
    (hd : l.input.drop l.position = ' ' :: (opLit op ++ ' ' :: r)) :
    (nextToken l).1 = ⟨opLit op, opLit op⟩ ∧ LexInv (nextToken l).2 ∧
    (nextToken l).2.input = l.input ∧
    (nextToken l).2.position = l.position + 1 + (opLit op).length := by
  cases op with
  | plusO =>
    obtain ⟨t1, t2, t3, t4⟩ := tokChar l [' '] (' ' :: r) '+' PLUS h (by decide)
      (by rw [hd]; rfl) (by decide) (fun l' hc => ntaws_plus l' hc)
    exact ⟨t1, t2, t3, t4⟩
  | minusO =>
    obtain ⟨t1, t2, t3, t4⟩ := tokChar l [' '] (' ' :: r) '-' MINUS h (by decide)
      (by rw [hd]; rfl) (by decide) (fun l' hc => ntaws_minus l' hc)
    exact ⟨t1, t2, t3, t4⟩
  | starO =>
    obtain ⟨t1, t2, t3, t4⟩ := tokChar l [' '] (' ' :: r) '*' ASTERISK h
      (by decide) (by rw [hd]; rfl) (by decide)
      (fun l' hc => ntaws_asterisk l' hc)
    exact ⟨t1, t2, t3, t4⟩
  | slashO =>
    obtain ⟨t1, t2, t3, t4⟩ := tokChar l [' '] (' ' :: r) '/' SLASH h
      (by decide) (by rw [hd]; rfl) (by decide) (fun l' hc => ntaws_slash l' hc)
    exact ⟨t1, t2, t3, t4⟩
  | ltO =>
    obtain ⟨t1, t2, t3, t4⟩ := tokChar l [' '] (' ' :: r) '<' tok.LT h
      (by decide) (by rw [hd]; rfl) (by decide) (fun l' hc => ntaws_lt l' hc)
    exact ⟨t1, t2, t3, t4⟩
  | gtO =>
    obtain ⟨t1, t2, t3, t4⟩ := tokChar l [' '] (' ' :: r) '>' tok.GT h
      (by decide) (by rw [hd]; rfl) (by decide) (fun l' hc => ntaws_gt l' hc)
    exact ⟨t1, t2, t3, t4⟩
  | eqO =>
    obtain ⟨t1, t2, t3, t4⟩ := tokTwo l [' '] (' ' :: r) '=' EQ h (by decide)
      (by rw [hd]; rfl) (by decide) (fun l' hc hp => ntaws_eqtok l' hc hp)
    exact ⟨t1, t2, t3, t4⟩
  | neO =>
    obtain ⟨t1, t2, t3, t4⟩ := tokTwo l [' '] (' ' :: r) '!' NOT_EQ h (by decide)
      (by rw [hd]; rfl) (by decide) (fun l' hc hp => ntaws_noteqtok l' hc hp)
    exact ⟨t1, t2, t3, t4⟩

theorem lookup_true : LookupIdentifier ("true".data) = TRUE := by decide

theorem lookup_false : LookupIdentifier ("false".data) = FALSE := by decide

/-- The first character of a canonical printed form: a letter, a digit, or
an opening parenthesis. -/
theorem printedC_head (c : CE) (h : WF c) :
    isLetter ((printedC c).headD nulChar) = true ∨
    isDigit ((printedC c).headD nulChar) = true ∨
    (printedC c).headD nulChar = '(' := by
  cases c with
  | idC name =>
    obtain ⟨hne, hlet, _⟩ := h
    cases name with
    | nil => exact absurd rfl hne
    | cons x xs =>
      left
      exact hlet x (List.mem_cons_self _ _)
  | intC lit v =>
    obtain ⟨hne, hdig, _⟩ := h
    cases lit with
    | nil => exact absurd rfl hne
    | cons x xs =>
      right
      left
      exact hdig x (List.mem_cons_self _ _)
  | trueC =>
    left
    decide
  | falseC =>
    left
    decide
  | notC e =>
    right
    right
    rfl
  | negC e =>
    right
    right
    rfl
  | binC op a b =>
    right
    right
    rfl

/-- A canonical printed form never starts with `=`. -/
theorem printedC_head_ne_eq (c : CE) (h : WF c) :
    (printedC c).headD nulChar ≠ '=' := by
  rcases printedC_head c h with h1 | h1 | h1
  · intro he
    rw [he] at h1
    exact absurd h1 (by decide)
  · intro he
    rw [he] at h1
    exact absurd h1 (by decide)
  · intro he
    rw [he] at h1
    exact absurd h1 (by decide)

/-- A canonical printed form is nonempty. -/
theorem printedC_ne_nil (c : CE) (h : WF c) : printedC c ≠ [] := by
  cases c with
  | idC name => exact h.1
  | intC lit v => exact h.1
  | trueC => decide
  | falseC => decide
  | notC e => exact List.cons_ne_nil _ _
  | negC e => exact List.cons_ne_nil _ _
  | binC op a b => exact List.cons_ne_nil _ _

theorem headD_append_ne_nil (a b : Str) (d : Char) (h : a ≠ []) :
    (a ++ b).headD d = a.headD d := by
  cases a with
  | nil => exact absurd rfl h
  | cons x xs => rfl

/-- A token run: the produced tokens and the cursor advance. -/
def RunTo (n : Nat) (l : Lexer) (ts : List Token) (k : Nat) : Prop :=
  (nextTokens n l).1 = ts ∧ LexInv (nextTokens n l).2 ∧
  (nextTokens n l).2.input = l.input ∧
  (nextTokens n l).2.position = l.position + k

theorem runTo_one (l : Lexer) (t : Token) (k : Nat)
    (h1 : (nextToken l).1 = t) (h2 : LexInv (nextToken l).2)
    (h3 : (nextToken l).2.input = l.input)
    (h4 : (nextToken l).2.position = l.position + k) :
    RunTo 1 l [t] k := by
  unfold RunTo
  refine ⟨?_, h2, h3, h4⟩
  show [(nextToken l).1] = [t]
  rw [h1]

theorem runTo_glue (n1 n2 : Nat) (l : Lexer) (ts1 ts2 : List Token)
    (k1 k2 : Nat) (h1 : RunTo n1 l ts1 k1)
    (h2 : RunTo n2 (nextTokens n1 l).2 ts2 k2) :
    RunTo (n1 + n2) l (ts1 ++ ts2) (k1 + k2) := by
  obtain ⟨a1, a2, a3, a4⟩ := h1
  obtain ⟨b1, b2, b3, b4⟩ := h2
  unfold RunTo
  rw [nextTokens_add n1 n2 l]
  refine ⟨?_, b2, ?_, ?_⟩
  · show (nextTokens n1 l).1 ++ (nextTokens n2 (nextTokens n1 l).2).1 = ts1 ++ ts2
    rw [a1, b1]
  · show (nextTokens n2 (nextTokens n1 l).2).2.input = l.input
    rw [b3, a3]
  · show (nextTokens n2 (nextTokens n1 l).2).2.position = l.position + (k1 + k2)
    rw [b4, a4]
    omega

theorem runTo_congr (n n' : Nat) (l : Lexer) (ts ts' : List Token)
    (k k' : Nat) (h : RunTo n l ts k) (hn : n = n') (hts : ts = ts')
    (hk : k = k') : RunTo n' l ts' k' := by
  subst hn
  subst hts
  subst hk
  exact h

/-- The scanner on the printed form of a canonical expression produces
exactly its canonical tokens, from any whitespace-preceded position of a
larger input, provided the next byte cannot extend a trailing
identifier or number lexeme. -/
theorem ctokens_lex : ∀ (c : CE) (l : Lexer) (w rest : Str), WF c →
    LexInv l → (∀ x ∈ w, isWS x = true) →
    l.input.drop l.position = w ++ (printedC c ++ rest) →
    isLetter (rest.headD nulChar) = false →
    isDigit (rest.headD nulChar) = false →
    RunTo ((ctokens c).length) l (ctokens c)
      (w.length + (printedC c).length) := by
  intro c
  induction c with
  | idC name =>
    intro l w rest hwf hinv hw hd hbl hbd
    obtain ⟨hne, hlet, hlook⟩ := hwf
    have hd' : l.input.drop l.position = w ++ name ++ rest := by
      rw [hd]
      simp only [printedC]
      rw [List.append_assoc]
    obtain ⟨t1, t2, t3, t4⟩ := tokWord l w name rest hinv hw hne hlet hbl hd'
    exact runTo_congr 1 _ _ _ _ (w.length + name.length) _
      (runTo_one l _ (w.length + name.length) t1 t2 t3 (by omega))
      (by simp only [ctokens]; rfl)
      (by simp only [ctokens]; rw [hlook])
      (by simp only [printedC])
  | intC lit v =>
    intro l w rest hwf hinv hw hd hbl hbd
    obtain ⟨hne, hdig, _⟩ := hwf
    have hd' : l.input.drop l.position = w ++ lit ++ rest := by
      rw [hd]
      simp only [printedC]
      rw [List.append_assoc]
    obtain ⟨t1, t2, t3, t4⟩ := tokNum l w lit rest hinv hw hne hdig hbd hd'
    exact runTo_congr 1 _ _ _ _ (w.length + lit.length) _
      (runTo_one l _ (w.length + lit.length) t1 t2 t3 (by omega))
      (by simp only [ctokens]; rfl)
      (by simp only [ctokens])
      (by simp only [printedC])
  | trueC =>
    intro l w rest hwf hinv hw hd hbl hbd
    have hd' : l.input.drop l.position = w ++ "true".data ++ rest := by
      rw [hd]
      simp only [printedC]
      rw [List.append_assoc]
    obtain ⟨t1, t2, t3, t4⟩ := tokWord l w ("true".data) rest hinv hw
      (by decide) (by decide) hbl hd'
    exact runTo_congr 1 _ _ _ _ (w.length + ("true".data).length) _
      (runTo_one l _ (w.length + ("true".data).length) t1 t2 t3 (by omega))
      (by simp only [ctokens]; rfl)
      (by simp only [ctokens]; rw [lookup_true])
      (by simp only [printedC])
  | falseC =>
    intro l w rest hwf hinv hw hd hbl hbd
    have hd' : l.input.drop l.position = w ++ "false".data ++ rest := by
      rw [hd]
      simp only [printedC]
      rw [List.append_assoc]
    obtain ⟨t1, t2, t3, t4⟩ := tokWord l w ("false".data) rest hinv hw
      (by decide) (by decide) hbl hd'
    exact runTo_congr 1 _ _ _ _ (w.length + ("false".data).length) _
      (runTo_one l _ (w.length + ("false".data).length) t1 t2 t3 (by omega))
      (by simp only [ctokens]; rfl)
      (by simp only [ctokens]; rw [lookup_false])
      (by simp only [printedC])
  | notC e ih =>
    intro l w rest hwf hinv hw hd hbl hbd
    have hwe : WF e := by simpa only [WF] using hwf
    have hd1 : l.input.drop l.position =
        w ++ '(' :: ('!' :: (printedC e ++ (')' :: rest))) := by
      rw [hd]
      simp [printedC, List.cons_append, List.append_assoc]
    obtain ⟨t1, t2, t3, t4⟩ := tokChar l w ('!' :: (printedC e ++ (')' :: rest)))
      '(' LPAREN hinv hw hd1 (by decide) (fun l' hc => ntaws_lparen l' hc)
    have r1 : RunTo 1 l [⟨LPAREN, "(".data⟩] (w.length + 1) :=
      runTo_one l _ _ t1 t2 t3 (by omega)
    obtain ⟨q1, q2, q3, q4⟩ := id r1
    have hd2 : (nextTokens 1 l).2.input.drop ((nextTokens 1 l).2.position) =
        '!' :: (printedC e ++ (')' :: rest)) := by
      rw [q3, q4]
      exact drop_pos_add l.input l.position (w.length + 1) (w ++ ['(']) _
        (by rw [hd1]; simp) (by simp)
    obtain ⟨u1, u2, u3, u4⟩ := tokCharNE (nextTokens 1 l).2 []
      (printedC e ++ (')' :: rest)) '!' BANG q2 (by decide)
      (by rw [hd2]; rfl) (by decide)
      (by
        rw [headD_append_ne_nil _ _ _ (printedC_ne_nil e hwe)]
        exact printedC_head_ne_eq e hwe)
      (fun l' hc hp => ntaws_bang l' hc hp)
    have r2 : RunTo 1 (nextTokens 1 l).2 [⟨BANG, "!".data⟩] 1 :=
      runTo_one _ _ _ u1 u2 u3 (by simpa using u4)
    have r12 := runTo_glue 1 1 l _ _ _ _ r1 r2
    have r12' : RunTo 2 l [⟨LPAREN, "(".data⟩, ⟨BANG, "!".data⟩]
        (w.length + 2) :=
      runTo_congr _ _ _ _ _ _ _ r12 rfl rfl (by omega)
    obtain ⟨p1, p2, p3, p4⟩ := id r12'
    have hd3 : (nextTokens 2 l).2.input.drop ((nextTokens 2 l).2.position) =
        printedC e ++ (')' :: rest) := by
      rw [p3, p4]
      exact drop_pos_add l.input l.position (w.length + 2) (w ++ ['(', '!']) _
        (by rw [hd1]; simp) (by simp)
    have r3 := ih (nextTokens 2 l).2 [] (')' :: rest) hwe p2
      (by intro x hx; cases hx) (by rw [hd3]; rfl) (by show isLetter ')' = false; decide)
      (by show isDigit ')' = false; decide)
    have r123 := runTo_glue 2 ((ctokens e).length) l _ _ _ _ r12' r3
    have r123' : RunTo (2 + (ctokens e).length) l
        (⟨LPAREN, "(".data⟩ :: ⟨BANG, "!".data⟩ :: ctokens e)
        (w.length + 2 + (printedC e).length) :=
      runTo_congr _ _ _ _ _ _ _ r123 rfl (by simp) (by simp)
    obtain ⟨v1, v2, v3, v4⟩ := id r123'
    have hd4 : (nextTokens (2 + (ctokens e).length) l).2.input.drop
        ((nextTokens (2 + (ctokens e).length) l).2.position) = ')' :: rest := by
      rw [v3, v4]
      exact drop_pos_add l.input l.position (w.length + 2 + (printedC e).length)
        (w ++ '(' :: '!' :: printedC e) _ (by rw [hd1]; simp)
        (by simp only [List.length_append, List.length_cons]; omega)
    obtain ⟨z1, z2, z3, z4⟩ := tokChar (nextTokens (2 + (ctokens e).length) l).2
      [] rest ')' RPAREN v2 (by decide) (by rw [hd4]; rfl) (by decide)
      (fun l' hc => ntaws_rparen l' hc)
    have r4 : RunTo 1 (nextTokens (2 + (ctokens e).length) l).2
        [⟨RPAREN, ")".data⟩] 1 :=
      runTo_one _ _ _ z1 z2 z3 (by simpa using z4)
    have rall := runTo_glue (2 + (ctokens e).length) 1 l _ _ _ _ r123' r4
    have hn : (2 + (ctokens e).length) + 1 = (ctokens (CE.notC e)).length := by
      simp only [ctokens, List.length_cons, List.length_append,
        List.length_singleton, List.length_nil]
      omega
    have hts : (⟨LPAREN, "(".data⟩ :: ⟨BANG, "!".data⟩ :: ctokens e) ++
        [⟨RPAREN, ")".data⟩] = ctokens (CE.notC e) := by
      simp [ctokens]
    have hk : (w.length + 2 + (printedC e).length) + 1 =
        w.length + (printedC (CE.notC e)).length := by
      simp only [printedC, List.length_cons, List.length_append,
        List.length_singleton, List.length_nil]
      omega
    exact runTo_congr _ _ _ _ _ _ _ rall hn hts hk
  | negC e ih =>
    intro l w rest hwf hinv hw hd hbl hbd
    have hwe : WF e := by simpa only [WF] using hwf
    have hd1 : l.input.drop l.position =
        w ++ '(' :: ('-' :: (printedC e ++ (')' :: rest))) := by
      rw [hd]
      simp [printedC, List.cons_append, List.append_assoc]
    obtain ⟨t1, t2, t3, t4⟩ := tokChar l w ('-' :: (printedC e ++ (')' :: rest)))
      '(' LPAREN hinv hw hd1 (by decide) (fun l' hc => ntaws_lparen l' hc)
    have r1 : RunTo 1 l [⟨LPAREN, "(".data⟩] (w.length + 1) :=
      runTo_one l _ _ t1 t2 t3 (by omega)
    obtain ⟨q1, q2, q3, q4⟩ := id r1
    have hd2 : (nextTokens 1 l).2.input.drop ((nextTokens 1 l).2.position) =
        '-' :: (printedC e ++ (')' :: rest)) := by
      rw [q3, q4]
      exact drop_pos_add l.input l.position (w.length + 1) (w ++ ['(']) _
        (by rw [hd1]; simp) (by simp)
    obtain ⟨u1, u2, u3, u4⟩ := tokChar (nextTokens 1 l).2 []
      (printedC e ++ (')' :: rest)) '-' MINUS q2 (by decide)
      (by rw [hd2]; rfl) (by decide) (fun l' hc => ntaws_minus l' hc)
    have r2 : RunTo 1 (nextTokens 1 l).2 [⟨MINUS, "-".data⟩] 1 :=
      runTo_one _ _ _ u1 u2 u3 (by simpa using u4)
    have r12 := runTo_glue 1 1 l _ _ _ _ r1 r2
    have r12' : RunTo 2 l [⟨LPAREN, "(".data⟩, ⟨MINUS, "-".data⟩]
        (w.length + 2) :=
      runTo_congr _ _ _ _ _ _ _ r12 rfl rfl (by omega)
    obtain ⟨p1, p2, p3, p4⟩ := id r12'
    have hd3 : (nextTokens 2 l).2.input.drop ((nextTokens 2 l).2.position) =
        printedC e ++ (')' :: rest) := by
      rw [p3, p4]
      exact drop_pos_add l.input l.position (w.length + 2) (w ++ ['(', '-']) _
        (by rw [hd1]; simp) (by simp)
    have r3 := ih (nextTokens 2 l).2 [] (')' :: rest) hwe p2
      (by intro x hx; cases hx) (by rw [hd3]; rfl) (by show isLetter ')' = false; decide)
      (by show isDigit ')' = false; decide)
    have r123 := runTo_glue 2 ((ctokens e).length) l _ _ _ _ r12' r3
    have r123' : RunTo (2 + (ctokens e).length) l
        (⟨LPAREN, "(".data⟩ :: ⟨MINUS, "-".data⟩ :: ctokens e)
        (w.length + 2 + (printedC e).length) :=
      runTo_congr _ _ _ _ _ _ _ r123 rfl (by simp) (by simp)
    obtain ⟨v1, v2, v3, v4⟩ := id r123'
    have hd4 : (nextTokens (2 + (ctokens e).length) l).2.input.drop
        ((nextTokens (2 + (ctokens e).length) l).2.position) = ')' :: rest := by
      rw [v3, v4]
      exact drop_pos_add l.input l.position (w.length + 2 + (printedC e).length)
        (w ++ '(' :: '-' :: printedC e) _ (by rw [hd1]; simp)
        (by simp only [List.length_append, List.length_cons]; omega)
    obtain ⟨z1, z2, z3, z4⟩ := tokChar (nextTokens (2 + (ctokens e).length) l).2
      [] rest ')' RPAREN v2 (by decide) (by rw [hd4]; rfl) (by decide)
      (fun l' hc => ntaws_rparen l' hc)
    have r4 : RunTo 1 (nextTokens (2 + (ctokens e).length) l).2
        [⟨RPAREN, ")".data⟩] 1 :=
      runTo_one _ _ _ z1 z2 z3 (by simpa using z4)
    have rall := runTo_glue (2 + (ctokens e).length) 1 l _ _ _ _ r123' r4
    have hn : (2 + (ctokens e).length) + 1 = (ctokens (CE.negC e)).length := by
      simp only [ctokens, List.length_cons, List.length_append,
        List.length_singleton, List.length_nil]
      omega
    have hts : (⟨LPAREN, "(".data⟩ :: ⟨MINUS, "-".data⟩ :: ctokens e) ++
        [⟨RPAREN, ")".data⟩] = ctokens (CE.negC e) := by
      simp [ctokens]
    have hk : (w.length + 2 + (printedC e).length) + 1 =
        w.length + (printedC (CE.negC e)).length := by
      simp only [printedC, List.length_cons, List.length_append,
        List.length_singleton, List.length_nil]
      omega
    exact runTo_congr _ _ _ _ _ _ _ rall hn hts hk
  | binC op a b iha ihb =>
    intro l w rest hwf hinv hw hd hbl hbd
    obtain ⟨hwa, hwb⟩ := hwf
    have hd1 : l.input.drop l.position =
        w ++ '(' :: (printedC a ++ (' ' :: (opLit op ++ ' ' ::
          (printedC b ++ (')' :: rest))))) := by
      rw [hd]
      simp [printedC, List.cons_append, List.append_assoc]
    obtain ⟨t1, t2, t3, t4⟩ := tokChar l w
      (printedC a ++ (' ' :: (opLit op ++ ' ' :: (printedC b ++ (')' :: rest)))))
      '(' LPAREN hinv hw hd1 (by decide) (fun l' hc => ntaws_lparen l' hc)
    have r1 : RunTo 1 l [⟨LPAREN, "(".data⟩] (w.length + 1) :=
      runTo_one l _ _ t1 t2 t3 (by omega)
    obtain ⟨q1, q2, q3, q4⟩ := id r1
    have hd2 : (nextTokens 1 l).2.input.drop ((nextTokens 1 l).2.position) =
        printedC a ++ (' ' :: (opLit op ++ ' ' ::
          (printedC b ++ (')' :: rest)))) := by
      rw [q3, q4]
      exact drop_pos_add l.input l.position (w.length + 1) (w ++ ['(']) _
        (by rw [hd1]; simp) (by simp)
    have rA := iha (nextTokens 1 l).2 []
      (' ' :: (opLit op ++ ' ' :: (printedC b ++ (')' :: rest)))) hwa q2
      (by intro x hx; cases hx) (by rw [hd2]; rfl)
      (by show isLetter ' ' = false; decide)
      (by show isDigit ' ' = false; decide)
    have r1A := runTo_glue 1 ((ctokens a).length) l _ _ _ _ r1 rA
    have r1A' : RunTo (1 + (ctokens a).length) l
        (⟨LPAREN, "(".data⟩ :: ctokens a)
        (w.length + 1 + (printedC a).length) :=
      runTo_congr _ _ _ _ _ _ _ r1A rfl (by simp) (by simp)
    obtain ⟨p1, p2, p3, p4⟩ := id r1A'
    have hd3 : (nextTokens (1 + (ctokens a).length) l).2.input.drop
        ((nextTokens (1 + (ctokens a).length) l).2.position) =
        ' ' :: (opLit op ++ ' ' :: (printedC b ++ (')' :: rest))) := by
      rw [p3, p4]
      exact drop_pos_add l.input l.position (w.length + 1 + (printedC a).length)
        (w ++ '(' :: printedC a) _ (by rw [hd1]; simp)
        (by simp only [List.length_append, List.length_cons]; omega)
    obtain ⟨o1, o2, o3, o4⟩ := opTokStep op
      (nextTokens (1 + (ctokens a).length) l).2
      (printedC b ++ (')' :: rest)) p2 hd3
    have rOp : RunTo 1 (nextTokens (1 + (ctokens a).length) l).2
        [⟨opLit op, opLit op⟩] (1 + (opLit op).length) :=
      runTo_one _ _ _ o1 o2 o3 (by omega)
    have r1AO := runTo_glue (1 + (ctokens a).length) 1 l _ _ _ _ r1A' rOp
    have r1AO' : RunTo (1 + (ctokens a).length + 1) l
        (⟨LPAREN, "(".data⟩ :: (ctokens a ++ [⟨opLit op, opLit op⟩]))
        (w.length + 1 + (printedC a).length + 1 + (opLit op).length) :=
      runTo_congr _ _ _ _ _ _ _ r1AO rfl (by simp) (by omega)
    obtain ⟨s1, s2, s3, s4⟩ := id r1AO'
    have hd4 : (nextTokens (1 + (ctokens a).length + 1) l).2.input.drop
        ((nextTokens (1 + (ctokens a).length + 1) l).2.position) =
        ' ' :: (printedC b ++ (')' :: rest)) := by
      rw [s3, s4]
      have e4 : l.position + (w.length + 1 + (printedC a).length + 1 +
          (opLit op).length) = l.position + (w.length + 1 +
          (printedC a).length + (1 + (opLit op).length)) := by
        omega
      rw [e4]
      exact drop_pos_add l.input l.position
        (w.length + 1 + (printedC a).length + (1 + (opLit op).length))
        (w ++ '(' :: (printedC a ++ ' ' :: opLit op)) _ (by rw [hd1]; simp)
        (by simp only [List.length_append, List.length_cons]; omega)
    have rB := ihb (nextTokens (1 + (ctokens a).length + 1) l).2 [' ']
      (')' :: rest) hwb s2 (by decide) (by rw [hd4]; rfl)
      (by show isLetter ')' = false; decide)
      (by show isDigit ')' = false; decide)
    have rAll1 := runTo_glue (1 + (ctokens a).length + 1) ((ctokens b).length)
      l _ _ _ _ r1AO' rB
    have rAll1' : RunTo (1 + (ctokens a).length + 1 + (ctokens b).length) l
        (⟨LPAREN, "(".data⟩ :: (ctokens a ++ ⟨opLit op, opLit op⟩ :: ctokens b))
        (w.length + 1 + (printedC a).length + 1 + (opLit op).length + 1 +
          (printedC b).length) :=
      runTo_congr _ _ _ _ _ _ _ rAll1 rfl (by simp)
        (by simp only [List.length_cons, List.length_nil]; omega)
    obtain ⟨y1, y2, y3, y4⟩ := id rAll1'
    have hd5 : (nextTokens (1 + (ctokens a).length + 1 + (ctokens b).length)
        l).2.input.drop ((nextTokens (1 + (ctokens a).length + 1 +
          (ctokens b).length) l).2.position) = ')' :: rest := by
      rw [y3, y4]
      exact drop_pos_add l.input l.position
        (w.length + 1 + (printedC a).length + 1 + (opLit op).length + 1 +
          (printedC b).length)
        (w ++ '(' :: (printedC a ++ ' ' :: (opLit op ++ ' ' :: printedC b))) _
        (by rw [hd1]; simp)
        (by simp only [List.length_append, List.length_cons]; omega)
    obtain ⟨z1, z2, z3, z4⟩ := tokChar
      (nextTokens (1 + (ctokens a).length + 1 + (ctokens b).length) l).2
      [] rest ')' RPAREN y2 (by decide) (by rw [hd5]; rfl) (by decide)
      (fun l' hc => ntaws_rparen l' hc)
    have r5 : RunTo 1
        (nextTokens (1 + (ctokens a).length + 1 + (ctokens b).length) l).2
        [⟨RPAREN, ")".data⟩] 1 :=
      runTo_one _ _ _ z1 z2 z3 (by simpa using z4)
    have rall := runTo_glue (1 + (ctokens a).length + 1 + (ctokens b).length)
      1 l _ _ _ _ rAll1' r5
    have hn : (1 + (ctokens a).length + 1 + (ctokens b).length) + 1 =
        (ctokens (CE.binC op a b)).length := by
      simp only [ctokens, List.length_cons, List.length_append,
        List.length_singleton, List.length_nil]
      omega
    have hts : (⟨LPAREN, "(".data⟩ ::
        (ctokens a ++ ⟨opLit op, opLit op⟩ :: ctokens b)) ++
        [⟨RPAREN, ")".data⟩] = ctokens (CE.binC op a b) := by
      simp [ctokens]
    have hk : (w.length + 1 + (printedC a).length + 1 + (opLit op).length + 1 +
        (printedC b).length) + 1 =
        w.length + (printedC (CE.binC op a b)).length := by
      simp only [printedC, List.length_cons, List.length_append,
        List.length_singleton, List.length_nil]
      omega
    exact runTo_congr _ _ _ _ _ _ _ rall hn hts hk

/-- No canonical token is the `Eof` token. -/
theorem ctokens_no_eof : ∀ (c : CE) (t : Token), t ∈ ctokens c → t.typ ≠ EOF := by
  intro c
  induction c with
  | idC name =>
    intro t ht
    have he : t = ⟨IDENT, name⟩ := by simpa [ctokens] using ht
    rw [he]
    show IDENT ≠ EOF
    decide
  | intC lit v =>
    intro t ht
    have he : t = ⟨INT, lit⟩ := by simpa [ctokens] using ht
    rw [he]
    show INT ≠ EOF
    decide
  | trueC =>
    intro t ht
    have he : t = ⟨TRUE, "true".data⟩ := by simpa [ctokens] using ht
    rw [he]
    decide
  | falseC =>
    intro t ht
    have he : t = ⟨FALSE, "false".data⟩ := by simpa [ctokens] using ht
    rw [he]
    decide
  | notC e ih =>
    intro t ht
    simp only [ctokens, List.mem_cons, List.mem_append, List.mem_singleton] at ht
    rcases ht with h | h | h | h | h
    · rw [h]; decide
    · rw [h]; decide
    · exact ih t h
    · rw [h]; decide
    · exact absurd h (List.not_mem_nil t)
  | negC e ih =>
    intro t ht
    simp only [ctokens, List.mem_cons, List.mem_append, List.mem_singleton] at ht
    rcases ht with h | h | h | h | h
    · rw [h]; decide
    · rw [h]; decide
    · exact ih t h
    · rw [h]; decide
    · exact absurd h (List.not_mem_nil t)
  | binC op a b iha ihb =>
    intro t ht
    simp only [ctokens, List.mem_cons, List.mem_append, List.mem_singleton] at ht
    rcases ht with h | h | h | h | h | h
    · rw [h]; decide
    · exact iha t h
    · rw [h]
      show opLit op ≠ EOF
      cases op <;> decide
    · exact ihb t h
    · rw [h]; decide
    · exact absurd h (List.not_mem_nil t)

/-- There are at most as many canonical tokens as printed characters. -/
theorem ctokens_len_le : ∀ c : CE, WF c →
    (ctokens c).length ≤ (printedC c).length := by
  intro c
  induction c with
  | idC name =>
    intro h
    have hlen : 0 < name.length := List.length_pos.mpr h.1
    simp only [ctokens, printedC, List.length_singleton]
    omega
  | intC lit v =>
    intro h
    have hlen : 0 < lit.length := List.length_pos.mpr h.1
    simp only [ctokens, printedC, List.length_singleton]
    omega
  | trueC =>
    intro h
    decide
  | falseC =>
    intro h
    decide
  | notC e ih =>
    intro h
    have he := ih (by simpa only [WF] using h)
    simp only [ctokens, printedC, List.length_cons, List.length_append,
      List.length_singleton, List.length_nil]
    omega
  | negC e ih =>
    intro h
    have he := ih (by simpa only [WF] using h)
    simp only [ctokens, printedC, List.length_cons, List.length_append,
      List.length_singleton, List.length_nil]
    omega
  | binC op a b iha ihb =>
    intro h
    obtain ⟨hwa, hwb⟩ := h
    have ha := iha hwa
    have hb := ihb hwb
    simp only [ctokens, printedC, List.length_cons, List.length_append,
      List.length_singleton, List.length_nil]
    omega

/-- `lexRun` passes over a run of non-Eof tokens. -/
theorem lexRun_split : ∀ (n : Nat) (l : Lexer) (m : Nat),
    (∀ t ∈ (nextTokens n l).1, t.typ ≠ EOF) →
    lexRun (n + m) l = (nextTokens n l).1 ++ lexRun m (nextTokens n l).2 := by
  intro n
  induction n with
  | zero =>
    intro l m _
    rw [Nat.zero_add]
    rfl
  | succ n ih =>
    intro l m hno
    have e : n + 1 + m = (n + m) + 1 := by omega
    rw [e, lexRun_succ]
    have ht : (nextToken l).1.typ ≠ EOF := by
      apply hno
      show (nextToken l).1 ∈
        (nextToken l).1 :: (nextTokens n (nextToken l).2).1
      exact List.mem_cons_self _ _
    rw [if_neg ht, ih (nextToken l).2 m (by
      intro t htm
      apply hno
      show t ∈ (nextToken l).1 :: (nextTokens n (nextToken l).2).1
      exact List.mem_cons_of_mem _ htm)]
    rfl

/-- The whole token stream of a canonical printed form is its canonical
token list. -/
theorem allTokens_printedC (c : CE) (h : WF c) :
    allTokens (printedC c) = ctokens c := by
  have base := ctokens_lex c (lexerNew (printedC c)) [] [] h (lexerNew_inv _)
    (by intro x hx; cases hx)
    (by
      show (printedC c).drop 0 = [] ++ (printedC c ++ [])
      simp)
    (by show isLetter nulChar = false; decide)
    (by show isDigit nulChar = false; decide)
  obtain ⟨hts, hinv2, hin2, hpos2⟩ := base
  have hno : ∀ t ∈ (nextTokens ((ctokens c).length)
      (lexerNew (printedC c))).1, t.typ ≠ EOF := by
    rw [hts]
    exact ctokens_no_eof c
  have hle : (ctokens c).length ≤ (printedC c).length := ctokens_len_le c h
  show lexRun ((printedC c).length + 1) (lexerNew (printedC c)) = ctokens c
  rw [show (printedC c).length + 1 = (ctokens c).length +
    ((printedC c).length + 1 - (ctokens c).length) from by omega]
  rw [lexRun_split ((ctokens c).length) (lexerNew (printedC c))
    ((printedC c).length + 1 - (ctokens c).length) hno, hts]
  have htail : lexRun ((printedC c).length + 1 - (ctokens c).length)
      (nextTokens ((ctokens c).length) (lexerNew (printedC c))).2 = [] := by
    obtain ⟨m, hm⟩ : ∃ m, (printedC c).length + 1 - (ctokens c).length =
        m + 1 := ⟨(printedC c).length - (ctokens c).length, by omega⟩
    rw [hm, lexRun_succ, if_pos ?_]
    apply nextToken_eof_of_end _ hinv2
    rw [hin2]
    show (lexerNew (printedC c)).input.length ≤ _
    rw [hpos2]
    show (printedC c).length ≤ (lexerNew (printedC c)).position +
      (([] : Str).length + (printedC c).length)
    have hz : (lexerNew (printedC c)).position = 0 := rfl
    omega
  rw [htail, List.append_nil]

/-- The parser state whose remaining token stream is `ts` (cursor on the
first element, `Eof` padding once exhausted) with error list `errs`. -/
def mkP (ts : List Token) (errs : List Str) : ParserS :=
  ⟨ts.tail.tail, ts.headD eofToken, ts.tail.headD eofToken, errs⟩

theorem parserNew_mkP (ts : List Token) : parserNew ts = mkP ts [] := rfl

theorem pNext_mkP (ts : List Token) (errs : List Str) :
    pNext (mkP ts errs) = mkP ts.tail errs := rfl

theorem mkP_cur (ts : List Token) (errs : List Str) :
    (mkP ts errs).curToken = ts.headD eofToken := rfl

theorem mkP_peek (ts : List Token) (errs : List Str) :
    (mkP ts errs).peekToken = ts.tail.headD eofToken := rfl

theorem mkP_errors (ts : List Token) (errs : List Str) :
    (mkP ts errs).errors = errs := rfl

/-- The prefix handler the registration table selects for the first
canonical token. -/
def tagC : CE → PrefixTag
  | .idC _ => .identT
  | .intC _ _ => .intT
  | .trueC => .boolT
  | .falseC => .boolT
  | .notC _ => .groupT
  | .negC _ => .groupT
  | .binC _ _ _ => .groupT

/-- The token type of the first canonical token. -/
def headTypC : CE → Str
  | .idC _ => IDENT
  | .intC _ _ => INT
  | .trueC => TRUE
  | .falseC => FALSE
  | .notC _ => LPAREN
  | .negC _ => LPAREN
  | .binC _ _ _ => LPAREN

/-- The last canonical token (the cursor rests on it after the
expression is parsed). -/
def lastTok : CE → Token
  | .idC name => ⟨IDENT, name⟩
  | .intC lit _ => ⟨INT, lit⟩
  | .trueC => ⟨TRUE, "true".data⟩
  | .falseC => ⟨FALSE, "false".data⟩
  | .notC _ => ⟨RPAREN, ")".data⟩
  | .negC _ => ⟨RPAREN, ")".data⟩
  | .binC _ _ _ => ⟨RPAREN, ")".data⟩

/-- The fuel bound for the canonical parse lemmas. -/
def DhC (c : CE) : Nat := 6 * sizeC c

theorem sizeC_pos : ∀ c : CE, 1 ≤ sizeC c := by
  intro c
  cases c <;> simp only [sizeC] <;> omega

theorem ctokens_head_typ (c : CE) (rest : List Token) :
    ((ctokens c ++ rest).headD eofToken).typ = headTypC c := by
  cases c <;>
    simp only [ctokens, headTypC, List.cons_append, List.singleton_append,
      List.headD_cons]

theorem headTypC_tag (c : CE) : prefixFnFor (headTypC c) = some (tagC c) := by
  cases c <;> simp only [headTypC, tagC] <;> decide

theorem headTypC_not_stmt (c : CE) :
    headTypC c ≠ LET ∧ headTypC c ≠ RETURN ∧ headTypC c ≠ EOF := by
  cases c <;> simp only [headTypC] <;>
    exact ⟨by decide, by decide, by decide⟩

theorem op_prec_lookup (op : COp) :
    precedences (opLit op) = some (opPrec op) := by
  cases op <;> decide

theorem op_infixFn (op : COp) : infixFnFor (opLit op) = some .infixOpT := by
  cases op <;> decide

theorem op_ne_semi (op : COp) : opLit op ≠ SEMICOLON := by
  cases op <;> decide

theorem op_prec_pos (op : COp) : lowestPrec < opPrec op := by
  cases op <;> decide

/-! Single-step equations for the fueled parser functions. -/

theorem prefixRunF_ident (n : Nat) (p : ParserS) :
    prefixRunF (n + 1) .identT p = some (parseIdentifierP p) := rfl

theorem prefixRunF_int (n : Nat) (p : ParserS) :
    prefixRunF (n + 1) .intT p = some (parseIntegerLiteralP p) := rfl

theorem prefixRunF_bool (n : Nat) (p : ParserS) :
    prefixRunF (n + 1) .boolT p = some (parseBooleanP p) := rfl

theorem prefixRunF_prefixOp (n : Nat) (p : ParserS) :
    prefixRunF (n + 1) .prefixOpT p = parsePrefixExpressionF n p := rfl

theorem prefixRunF_group (n : Nat) (p : ParserS) :
    prefixRunF (n + 1) .groupT p = parseGroupedExpressionF n p := rfl

theorem parseExpressionF_step (n prec : Nat) (p : ParserS) (tag : PrefixTag)
    (l1 : Option Expr) (p1 : ParserS)
    (h1 : prefixFnFor p.curToken.typ = some tag)
    (h2 : prefixRunF n tag p = some (l1, p1)) :
    parseExpressionF (n + 1) prec p = parseExpressionLoopF n prec l1 p1 := by
  simp only [parseExpressionF]
  rw [h1]
  dsimp only
  rw [h2]

theorem loopF_exit (n prec : Nat) (left : Option Expr) (p : ParserS)
    (hle : lowestPrec ≤ prec)
    (hnone : precedences p.peekToken.typ = none) :
    parseExpressionLoopF (n + 1) prec left p = some (left, p) := by
  simp only [parseExpressionLoopF]
  rw [if_neg ?_]
  intro hcon
  have hlt := hcon.2
  rw [peekPrecedence, hnone] at hlt
  simp only [Option.getD_none] at hlt
  omega

theorem loopF_enter (n prec : Nat) (left l2 : Option Expr) (p p2 : ParserS)
    (hsemi : p.peekToken.typ ≠ SEMICOLON)
    (hprec : prec < peekPrecedence p)
    (htag : infixFnFor p.peekToken.typ = some .infixOpT)
    (h2 : parseInfixExpressionF n left (pNext p) = some (l2, p2)) :
    parseExpressionLoopF (n + 1) prec left p =
      parseExpressionLoopF n prec l2 p2 := by
  simp only [parseExpressionLoopF]
  rw [if_pos ⟨by simp only [peekTokenIs, decide_eq_true_eq]; exact hsemi, hprec⟩]
  rw [htag]
  dsimp only
  rw [h2]

theorem pge_step (n : Nat) (p p2 : ParserS) (e : Option Expr)
    (h : parseExpressionF n lowestPrec (pNext p) = some (e, p2))
    (hpk : p2.peekToken.typ = RPAREN) :
    parseGroupedExpressionF (n + 1) p = some (e, pNext p2) := by
  simp only [parseGroupedExpressionF]
  rw [h]
  dsimp only
  rw [show expectPeek RPAREN p2 = (true, pNext p2) from by
    simp [expectPeek, peekTokenIs, hpk]]

theorem ppre_step (n : Nat) (p p2 : ParserS) (r : Option Expr)
    (h : parseExpressionF n prefixPrec (pNext p) = some (r, p2)) :
    parsePrefixExpressionF (n + 1) p =
      some (some (.prefixE p.curToken p.curToken.literal r), p2) := by
  simp only [parsePrefixExpressionF]
  rw [h]

theorem pinf_step (n : Nat) (left : Option Expr) (p p2 : ParserS)
    (r : Option Expr)
    (h : parseExpressionF n (curPrecedence p) (pNext p) = some (r, p2)) :
    parseInfixExpressionF (n + 1) left p =
      some (some (.infixE p.curToken left p.curToken.literal r), p2) := by
  simp only [parseInfixExpressionF]
  rw [h]

theorem pstmt_expr (n : Nat) (p : ParserS) (h1 : p.curToken.typ ≠ LET)
    (h2 : p.curToken.typ ≠ RETURN) :
    parseStatementF (n + 1) p = parseExpressionStatementF n p := by
  simp only [parseStatementF]
  rw [if_neg h1, if_neg h2]

theorem pexprstmt_step (n : Nat) (p p1 : ParserS) (e : Option Expr)
    (h : parseExpressionF n lowestPrec p = some (e, p1))
    (hsemi : p1.peekToken.typ ≠ SEMICOLON) :
    parseExpressionStatementF (n + 1) p =
      some (some (.exprS p.curToken e), p1) := by
  simp only [parseExpressionStatementF]
  rw [h]
  dsimp only
  rw [if_neg (by simp only [peekTokenIs, decide_eq_true_eq]; exact hsemi)]

theorem pprog_eof (n : Nat) (p : ParserS) (h : p.curToken.typ = EOF) :
    parseProgramF (n + 1) p = some (⟨[]⟩, p) := by
  simp only [parseProgramF]
  rw [if_pos h]

theorem pprog_step (n : Nat) (p p1 p2 : ParserS) (st : Option Stmt)
    (prog : Program) (h0 : p.curToken.typ ≠ EOF)
    (h1 : parseStatementF n p = some (st, p1))
    (h2 : parseProgramF n (pNext p1) = some (prog, p2)) :
    parseProgramF (n + 1) p = some (⟨st :: prog.Statements⟩, p2) := by
  simp only [parseProgramF]
  rw [if_neg h0, h1]
  dsimp only
  rw [h2]

/-- Handler-level canonical parse property: the registered prefix handler
consumes exactly the canonical tokens and yields the canonical AST, for
any following tokens. -/
abbrev PHprop (c : CE) : Prop :=
  ∀ (n : Nat) (rest : List Token) (errs : List Str), DhC c ≤ n →
    prefixRunF n (tagC c) (mkP (ctokens c ++ rest) errs) =
      some (some (toExpr c), mkP (lastTok c :: rest) errs)

/-- `parseExpression`-level canonical parse property, at any precedence at
least `LOWEST` when the next token is not an operator. -/
abbrev PEprop (c : CE) : Prop :=
  ∀ (n prec : Nat) (rest : List Token) (errs : List Str),
    DhC c + 1 ≤ n → lowestPrec ≤ prec →
    precedences ((rest.headD eofToken).typ) = none →
    parseExpressionF n prec (mkP (ctokens c ++ rest) errs) =
      some (some (toExpr c), mkP (lastTok c :: rest) errs)

theorem pe_of_ph (c : CE) (hph : PHprop c) : PEprop c := by
  intro n prec rest errs hn hle hrest
  have hs := sizeC_pos c
  obtain ⟨m, rfl⟩ : ∃ m, n = m + 1 :=
    ⟨n - 1, by simp only [DhC] at hn; omega⟩
  have h1 : prefixFnFor ((mkP (ctokens c ++ rest) errs).curToken.typ) =
      some (tagC c) := by
    rw [mkP_cur, ctokens_head_typ]
    exact headTypC_tag c
  rw [parseExpressionF_step m prec _ (tagC c) _ _ h1
    (hph m rest errs (by simp only [DhC] at hn ⊢; omega))]
  obtain ⟨m2, rfl⟩ : ∃ m2, m = m2 + 1 :=
    ⟨m - 1, by simp only [DhC] at hn; omega⟩
  apply loopF_exit m2 prec (some (toExpr c)) (mkP (lastTok c :: rest) errs) hle
  rw [mkP_peek]
  show precedences ((rest.headD eofToken).typ) = none
  exact hrest

/-- The canonical parse lemmas, by structural induction. -/
theorem ceParse : ∀ c : CE, WF c → PHprop c ∧ PEprop c := by
  intro c
  induction c with
  | idC name =>
    intro hwf
    have hph : PHprop (CE.idC name) := by
      intro n rest errs hn
      obtain ⟨m, rfl⟩ : ∃ m, n = m + 1 :=
        ⟨n - 1, by simp only [DhC, sizeC] at hn; omega⟩
      simp only [tagC, ctokens, toExpr, lastTok, List.singleton_append]
      rw [prefixRunF_ident]
      rfl
    exact ⟨hph, pe_of_ph _ hph⟩
  | intC lit v =>
    intro hwf
    obtain ⟨hne, hdig, hgp⟩ := hwf
    have hph : PHprop (CE.intC lit v) := by
      intro n rest errs hn
      obtain ⟨m, rfl⟩ : ∃ m, n = m + 1 :=
        ⟨n - 1, by simp only [DhC, sizeC] at hn; omega⟩
      simp only [tagC, ctokens, toExpr, lastTok, List.singleton_append]
      rw [prefixRunF_int]
      simp only [parseIntegerLiteralP, mkP_cur, List.headD_cons, hgp]
    exact ⟨hph, pe_of_ph _ hph⟩
  | trueC =>
    intro hwf
    have hph : PHprop CE.trueC := by
      intro n rest errs hn
      obtain ⟨m, rfl⟩ : ∃ m, n = m + 1 :=
        ⟨n - 1, by simp only [DhC, sizeC] at hn; omega⟩
      simp only [tagC, ctokens, toExpr, lastTok, List.singleton_append]
      rw [prefixRunF_bool]
      rfl
    exact ⟨hph, pe_of_ph _ hph⟩
  | falseC =>
    intro hwf
    have hph : PHprop CE.falseC := by
      intro n rest errs hn
      obtain ⟨m, rfl⟩ : ∃ m, n = m + 1 :=
        ⟨n - 1, by simp only [DhC, sizeC] at hn; omega⟩
      simp only [tagC, ctokens, toExpr, lastTok, List.singleton_append]
      rw [prefixRunF_bool]
      rfl
    exact ⟨hph, pe_of_ph _ hph⟩
  | notC e ih =>
    intro hwf
    have hwe : WF e := by simpa only [WF] using hwf
    have hpe := (ih hwe).2
    have hph : PHprop (CE.notC e) := by
      intro n rest errs hn
      simp only [DhC, sizeC] at hn
      obtain ⟨m, rfl⟩ : ∃ m, n = m + 1 + 1 + 1 + 1 + 1 := ⟨n - 5, by omega⟩
      simp only [tagC, ctokens, toExpr, lastTok, List.cons_append,
        List.append_assoc, List.singleton_append]
      have hre := hpe m prefixPrec (⟨RPAREN, ")".data⟩ :: rest) errs
        (by simp only [DhC]; omega) (by decide)
        (by show precedences RPAREN = none; decide)
      have hppre : parsePrefixExpressionF (m + 1)
          (mkP (⟨BANG, "!".data⟩ ::
            (ctokens e ++ ⟨RPAREN, ")".data⟩ :: rest)) errs) =
          some (some (.prefixE ⟨BANG, "!".data⟩ ("!".data) (some (toExpr e))),
            mkP (lastTok e :: ⟨RPAREN, ")".data⟩ :: rest) errs) := by
        exact ppre_step m
          (mkP (⟨BANG, "!".data⟩ ::
            (ctokens e ++ ⟨RPAREN, ")".data⟩ :: rest)) errs)
          (mkP (lastTok e :: ⟨RPAREN, ")".data⟩ :: rest) errs)
          (some (toExpr e))
          (by rw [pNext_mkP, List.tail_cons]; exact hre)
      have hinner : parseExpressionF (m + 1 + 1 + 1) lowestPrec
          (mkP (⟨BANG, "!".data⟩ ::
            (ctokens e ++ ⟨RPAREN, ")".data⟩ :: rest)) errs) =
          some (some (.prefixE ⟨BANG, "!".data⟩ ("!".data) (some (toExpr e))),
            mkP (lastTok e :: ⟨RPAREN, ")".data⟩ :: rest) errs) := by
        rw [parseExpressionF_step (m + 1 + 1) lowestPrec _ .prefixOpT _ _
          (by rw [mkP_cur]; show prefixFnFor BANG = some PrefixTag.prefixOpT;
              decide)
          (by rw [prefixRunF_prefixOp]; exact hppre)]
        exact loopF_exit (m + 1) lowestPrec _ _ (by decide)
          (by rw [mkP_peek]; show precedences RPAREN = none; decide)
      have hgroup : parseGroupedExpressionF (m + 1 + 1 + 1 + 1)
          (mkP (⟨LPAREN, "(".data⟩ :: ⟨BANG, "!".data⟩ ::
            (ctokens e ++ ⟨RPAREN, ")".data⟩ :: rest)) errs) =
          some (some (.prefixE ⟨BANG, "!".data⟩ ("!".data) (some (toExpr e))),
            mkP (⟨RPAREN, ")".data⟩ :: rest) errs) := by
        have h0 := pge_step (m + 1 + 1 + 1)
          (mkP (⟨LPAREN, "(".data⟩ :: ⟨BANG, "!".data⟩ ::
            (ctokens e ++ ⟨RPAREN, ")".data⟩ :: rest)) errs)
          (mkP (lastTok e :: ⟨RPAREN, ")".data⟩ :: rest) errs)
          (some (.prefixE ⟨BANG, "!".data⟩ ("!".data) (some (toExpr e))))
          (by rw [pNext_mkP, List.tail_cons]; exact hinner)
          (by rw [mkP_peek]; rfl)
        rw [h0, pNext_mkP, List.tail_cons]
      rw [prefixRunF_group]
      exact hgroup
    exact ⟨hph, pe_of_ph _ hph⟩
  | negC e ih =>
    intro hwf
    have hwe : WF e := by simpa only [WF] using hwf
    have hpe := (ih hwe).2
    have hph : PHprop (CE.negC e) := by
      intro n rest errs hn
      simp only [DhC, sizeC] at hn
      obtain ⟨m, rfl⟩ : ∃ m, n = m + 1 + 1 + 1 + 1 + 1 := ⟨n - 5, by omega⟩
      simp only [tagC, ctokens, toExpr, lastTok, List.cons_append,
        List.append_assoc, List.singleton_append]
      have hre := hpe m prefixPrec (⟨RPAREN, ")".data⟩ :: rest) errs
        (by simp only [DhC]; omega) (by decide)
        (by show precedences RPAREN = none; decide)
      have hppre : parsePrefixExpressionF (m + 1)
          (mkP (⟨MINUS, "-".data⟩ ::
            (ctokens e ++ ⟨RPAREN, ")".data⟩ :: rest)) errs) =
          some (some (.prefixE ⟨MINUS, "-".data⟩ ("-".data) (some (toExpr e))),
            mkP (lastTok e :: ⟨RPAREN, ")".data⟩ :: rest) errs) := by
        exact ppre_step m
          (mkP (⟨MINUS, "-".data⟩ ::
            (ctokens e ++ ⟨RPAREN, ")".data⟩ :: rest)) errs)
          (mkP (lastTok e :: ⟨RPAREN, ")".data⟩ :: rest) errs)
          (some (toExpr e))
          (by rw [pNext_mkP, List.tail_cons]; exact hre)
      have hinner : parseExpressionF (m + 1 + 1 + 1) lowestPrec
          (mkP (⟨MINUS, "-".data⟩ ::
            (ctokens e ++ ⟨RPAREN, ")".data⟩ :: rest)) errs) =
          some (some (.prefixE ⟨MINUS, "-".data⟩ ("-".data) (some (toExpr e))),
            mkP (lastTok e :: ⟨RPAREN, ")".data⟩ :: rest) errs) := by
        rw [parseExpressionF_step (m + 1 + 1) lowestPrec _ .prefixOpT _ _
          (by rw [mkP_cur]; show prefixFnFor MINUS = some PrefixTag.prefixOpT;
              decide)
          (by rw [prefixRunF_prefixOp]; exact hppre)]
        exact loopF_exit (m + 1) lowestPrec _ _ (by decide)
          (by rw [mkP_peek]; show precedences RPAREN = none; decide)
      have hgroup : parseGroupedExpressionF (m + 1 + 1 + 1 + 1)
          (mkP (⟨LPAREN, "(".data⟩ :: ⟨MINUS, "-".data⟩ ::
            (ctokens e ++ ⟨RPAREN, ")".data⟩ :: rest)) errs) =
          some (some (.prefixE ⟨MINUS, "-".data⟩ ("-".data) (some (toExpr e))),
            mkP (⟨RPAREN, ")".data⟩ :: rest) errs) := by
        have h0 := pge_step (m + 1 + 1 + 1)
          (mkP (⟨LPAREN, "(".data⟩ :: ⟨MINUS, "-".data⟩ ::
            (ctokens e ++ ⟨RPAREN, ")".data⟩ :: rest)) errs)
          (mkP (lastTok e :: ⟨RPAREN, ")".data⟩ :: rest) errs)
          (some (.prefixE ⟨MINUS, "-".data⟩ ("-".data) (some (toExpr e))))
          (by rw [pNext_mkP, List.tail_cons]; exact hinner)
          (by rw [mkP_peek]; rfl)
        rw [h0, pNext_mkP, List.tail_cons]
      rw [prefixRunF_group]
      exact hgroup
    exact ⟨hph, pe_of_ph _ hph⟩
  | binC op a b iha ihb =>
    intro hwf
    obtain ⟨hwa, hwb⟩ := hwf
    have hpha := (iha hwa).1
    have hpeb := (ihb hwb).2
    have hph : PHprop (CE.binC op a b) := by
      intro n rest errs hn
      simp only [DhC, sizeC] at hn
      have hsa := sizeC_pos a
      have hsb := sizeC_pos b
      obtain ⟨m, rfl⟩ : ∃ m, n = m + 1 + 1 + 1 + 1 + 1 := ⟨n - 5, by omega⟩
      simp only [tagC, ctokens, toExpr, lastTok, List.cons_append,
        List.append_assoc, List.singleton_append]
      -- the right operand, at the operator precedence
      have hrb := hpeb m
        (curPrecedence (mkP (⟨opLit op, opLit op⟩ ::
          (ctokens b ++ ⟨RPAREN, ")".data⟩ :: rest)) errs))
        (⟨RPAREN, ")".data⟩ :: rest) errs
        (by simp only [DhC]; omega)
        (by
          rw [curPrecedence, mkP_cur]
          show (precedences (opLit op)).getD lowestPrec ≥ lowestPrec
          rw [op_prec_lookup]
          exact Nat.le_of_lt (op_prec_pos op))
        (by show precedences RPAREN = none; decide)
      -- the infix step
      have hinf : parseInfixExpressionF (m + 1) (some (toExpr a))
          (mkP (⟨opLit op, opLit op⟩ ::
            (ctokens b ++ ⟨RPAREN, ")".data⟩ :: rest)) errs) =
          some (some (.infixE ⟨opLit op, opLit op⟩ (some (toExpr a))
              (opLit op) (some (toExpr b))),
            mkP (lastTok b :: ⟨RPAREN, ")".data⟩ :: rest) errs) := by
        have h0 := pinf_step m (some (toExpr a))
          (mkP (⟨opLit op, opLit op⟩ ::
            (ctokens b ++ ⟨RPAREN, ")".data⟩ :: rest)) errs)
          (mkP (lastTok b :: ⟨RPAREN, ")".data⟩ :: rest) errs)
          (some (toExpr b))
          (by rw [pNext_mkP, List.tail_cons]; exact hrb)
        exact h0
      -- the left operand handler then the loop
      have hinner : parseExpressionF (m + 1 + 1 + 1) lowestPrec
          (mkP (ctokens a ++ ⟨opLit op, opLit op⟩ ::
            (ctokens b ++ ⟨RPAREN, ")".data⟩ :: rest)) errs) =
          some (some (.infixE ⟨opLit op, opLit op⟩ (some (toExpr a))
              (opLit op) (some (toExpr b))),
            mkP (lastTok b :: ⟨RPAREN, ")".data⟩ :: rest) errs) := by
        rw [parseExpressionF_step (m + 1 + 1) lowestPrec _ (tagC a) _ _
          (by rw [mkP_cur, ctokens_head_typ]; exact headTypC_tag a)
          (hpha (m + 1 + 1)
            (⟨opLit op, opLit op⟩ ::
              (ctokens b ++ ⟨RPAREN, ")".data⟩ :: rest)) errs
            (by simp only [DhC]; omega))]
        rw [loopF_enter (m + 1) lowestPrec (some (toExpr a)) _ _ _
          (by rw [mkP_peek]; show opLit op ≠ SEMICOLON; exact op_ne_semi op)
          (by
            rw [peekPrecedence, mkP_peek]
            show lowestPrec < (precedences (opLit op)).getD lowestPrec
            rw [op_prec_lookup]
            exact op_prec_pos op)
          (by rw [mkP_peek]; show infixFnFor (opLit op) = some InfixTag.infixOpT;
              exact op_infixFn op)
          (by rw [pNext_mkP, List.tail_cons]; exact hinf)]
        exact loopF_exit m lowestPrec _ _ (by decide)
          (by rw [mkP_peek]; show precedences RPAREN = none; decide)
      have hgroup : parseGroupedExpressionF (m + 1 + 1 + 1 + 1)
          (mkP (⟨LPAREN, "(".data⟩ ::
            (ctokens a ++ ⟨opLit op, opLit op⟩ ::
              (ctokens b ++ ⟨RPAREN, ")".data⟩ :: rest))) errs) =
          some (some (.infixE ⟨opLit op, opLit op⟩ (some (toExpr a))
              (opLit op) (some (toExpr b))),
            mkP (⟨RPAREN, ")".data⟩ :: rest) errs) := by
        have h0 := pge_step (m + 1 + 1 + 1)
          (mkP (⟨LPAREN, "(".data⟩ ::
            (ctokens a ++ ⟨opLit op, opLit op⟩ ::
              (ctokens b ++ ⟨RPAREN, ")".data⟩ :: rest))) errs)
          (mkP (lastTok b :: ⟨RPAREN, ")".data⟩ :: rest) errs)
          (some (.infixE ⟨opLit op, opLit op⟩ (some (toExpr a))
            (opLit op) (some (toExpr b))))
          (by rw [pNext_mkP, List.tail_cons]; exact hinner)
          (by rw [mkP_peek]; rfl)
        rw [h0, pNext_mkP, List.tail_cons]
      rw [prefixRunF_group]
      exact hgroup
    exact ⟨hph, pe_of_ph _ hph⟩

/-- Parsing the canonical text yields a single expression statement holding
the canonical AST, with no errors and all tokens consumed. -/
theorem parseProgram_printedC (c : CE) (h : WF c) :
    parseWith (DhC c + 4) (printedC c) =
      some (⟨[some (.exprS ((ctokens c).headD eofToken) (some (toExpr c)))]⟩,
        mkP [] []) := by
  have hpe := (ceParse c h).2
  have hhd := ctokens_head_typ c []
  rw [List.append_nil] at hhd
  have hns := headTypC_not_stmt c
  have hpe1 := hpe (DhC c + 1) lowestPrec [] [] (Nat.le_refl _) (Nat.le_refl _)
    (by show precedences EOF = none; decide)
  rw [List.append_nil] at hpe1
  have hstmt : parseStatementF (DhC c + 3) (mkP (ctokens c) []) =
      some (some (.exprS ((ctokens c).headD eofToken) (some (toExpr c))),
        mkP ([lastTok c]) []) := by
    rw [pstmt_expr (DhC c + 2) _
      (by rw [mkP_cur, hhd]; exact hns.1)
      (by rw [mkP_cur, hhd]; exact hns.2.1)]
    have h2 := pexprstmt_step (DhC c + 1) (mkP (ctokens c) [])
      (mkP ([lastTok c]) []) (some (toExpr c)) hpe1
      (by rw [mkP_peek]; show EOF ≠ SEMICOLON; decide)
    rw [h2, mkP_cur]
  have hrest : parseProgramF (DhC c + 3) (pNext (mkP ([lastTok c]) [])) =
      some (⟨[]⟩, mkP [] []) := by
    rw [pNext_mkP, List.tail_cons]
    exact pprog_eof (DhC c + 2) (mkP [] []) rfl
  show parseProgramF (DhC c + 4) (parserNew (allTokens (printedC c))) = _
  rw [allTokens_printedC c h, parserNew_mkP]
  exact pprog_step (DhC c + 3) (mkP (ctokens c) []) (mkP ([lastTok c]) [])
    (mkP [] [])
    (some (.exprS ((ctokens c).headD eofToken) (some (toExpr c)))) ⟨[]⟩
    (by rw [mkP_cur, hhd]; exact hns.2.2) hstmt hrest

/-- `Program.String` of a one-expression-statement program is the
expression's `String`. -/
theorem programString_single_expr (t : Token) (e : Expr) (s : Str)
    (h : exprString e = some s) :
    programString ⟨[some (.exprS t (some e))]⟩ = some s := by
  have h1 : stmtString (.exprS t (some e)) = some s := by
    show exprString e = some s
    exact h
  show (match stmtString (.exprS t (some e)), stmtListString [] with
    | some a, some b => some (a ++ b)
    | _, _ => none) = some s
  rw [h1]
  show some (s ++ []) = some s
  rw [List.append_nil]

/-- C2 (amended): the pretty-printer round-trips through the parser on the
canonical fully-parenthesized expression fragment (identifiers, integer
literals, booleans, `!`/`-` prefixes and the eight infix operators written
with their printed parentheses): such a text parses with an empty error
list into a program `P`, `P.String()` reproduces the text exactly, and
re-parsing `P.String()` yields a program with the same `String()`.  The
claim's unrestricted form is false — see the counterexample: `if`/`fn`
nodes print without the delimiters the grammar needs, so their parses do
not round-trip. -/
theorem c2_canonical_pretty_roundtrip (c : CE) (h : WF c) :
    ∃ (P : Program) (p2 : ParserS),
      parseWith (DhC c + 4) (printedC c) = some (P, p2) ∧
      p2.errors = [] ∧
      programString P = some (printedC c) ∧
      ∀ s : Str, programString P = some s →
        ∃ (P2 : Program) (q2 : ParserS),
          parseWith (DhC c + 4) s = some (P2, q2) ∧
          programString P2 = programString P := by
  have hparse := parseProgram_printedC c h
  have hprint : programString
      ⟨[some (.exprS ((ctokens c).headD eofToken) (some (toExpr c)))]⟩ =
      some (printedC c) :=
    programString_single_expr _ _ _ (exprString_toExpr c)
  refine ⟨_, _, hparse, rfl, hprint, ?_⟩
  intro s hs
  rw [hprint] at hs
  obtain rfl : printedC c = s := Option.some.inj hs
  exact ⟨_, _, hparse, rfl⟩

/-- Witness for the C2 theorem at the canonical expression `(a + 5)`. -/
theorem c2_canonical_roundtrip_witness :
    WF (CE.binC COp.plusO (CE.idC ("a".data)) (CE.intC ("5".data) 5)) ∧
    (∃ (P : Program) (p2 : ParserS),
      parseWith
          (DhC (CE.binC COp.plusO (CE.idC ("a".data)) (CE.intC ("5".data) 5))
            + 4)
          (printedC
            (CE.binC COp.plusO (CE.idC ("a".data)) (CE.intC ("5".data) 5))) =
        some (P, p2) ∧
      p2.errors = [] ∧
      programString P =
        some (printedC
          (CE.binC COp.plusO (CE.idC ("a".data)) (CE.intC ("5".data) 5))) ∧
      ∀ s : Str, programString P = some s →
        ∃ (P2 : Program) (q2 : ParserS),
          parseWith
              (DhC (CE.binC COp.plusO (CE.idC ("a".data))
                (CE.intC ("5".data) 5)) + 4) s =
            some (P2, q2) ∧
          programString P2 = programString P) := by
  have hw : WF (CE.binC COp.plusO (CE.idC ("a".data)) (CE.intC ("5".data) 5)) := by
    simp only [WF]
    exact ⟨⟨by decide, by decide, by decide⟩, by decide, by decide, by decide⟩
  exact ⟨hw, c2_canonical_pretty_roundtrip _ hw⟩
